import Mathlib

/-!
# Verification of the zone / hunk memory allocators in `src/q3/common.c`

This file gives a shallow embedding of the CORE memory-management subsystem
of the repository (the Quake-3-style zone allocator and hunk allocator in
`src/q3/common.c`, declarations in `src/q3/qcommon.h`) and proves or refutes
the frozen claims about it.

Modelling conventions (LP64, little-endian, as the source assumes a 32/64-bit
hosted C environment; the source is compiled with `USE_MULTI_SEGMENT`,
`USE_STATIC_TAGS` and `USE_TRASH_TEST` defined, and without `ZONE_DEBUG`):

* `sizeof(memblock_t) = 32` (two 8-byte pointers + three 4-byte ints, padded
  to 8-byte alignment), `sizeof(freeblock_t) = 16`, `sizeof(intptr_t) = 8`,
  `sizeof(hunkHeader_t) = 8`, `sizeof(memzone_t) = 232` (size, used,
  blocklist, dummy0, freelist_tiny, dummy1, freelist_small, dummy2,
  freelist_medium, dummy3, freelist = 4+4+32+32+16+32+16+32+16+32+16).
* Pointers are modelled as byte addresses of type `Int`.  A block is
  identified by the address of its in-band header; the user pointer is
  `addr + 32`.  The circular doubly linked block list of a zone (whose
  sentinel is `zone->blocklist`, an in-use block with `tag = TAG_GENERAL`,
  `id = -ZONEID`, `size = 0` that never merges with anything) is modelled as
  the list of blocks in traversal order; the sentinel itself is implicit at
  both ends.  `next`/`prev` of the C structs are the positional neighbours.
* The segregated free lists (`freelist_small`, `freelist_medium`,
  `freelist`; `TINY_SIZE` is disabled in the compiled configuration) are
  modelled as lists of block header addresses in traversal order starting
  from the sentinel head, so C's insert-after-head is list cons and the
  forward `DIRECTION next` walk is walking the Lean list front to back.
* Byte memory written by the code through explicit stores (the trailing
  trash sentinel `*(int*)((byte*)base+base->size-4) = ZONEID`, the `0xaa`
  scribble in `Z_Free`, the zero fills) is modelled per zone as
  `mem : Int → Nat` (byte value at address).  Bytes that the code writes
  only through header/freelist link manipulation are not reflected in
  `mem`; in particular `InsertFree` stores the 16-byte in-band
  `freeblock_t` node into the first 16 payload bytes of a free block
  (`fb->prev`/`fb->next`), and `RemoveFree`/`InsertFree` rewrite the
  neighbouring nodes' links, so the model's `mem` is meaningful only
  outside those link words; no theorem reads the first 16 payload bytes
  of a block that has been on a free list.
* `calloc` for a new zone segment is modelled by a deterministic fresh
  address source `nextSegBase` (the OS returns some fresh region; the model
  places segments at increasing addresses).
* `Com_Error(ERR_FATAL, ...)` aborts the process: result `.fatal`.
  `Com_Error(ERR_DROP, ...)` unwinds to the outer loop leaving the globals
  as they are at the raise site: result `.drop s` carrying that state.
  Reads of memory the model does not track (wild pointers) are `.stuck`.
-/

namespace Q3Common

/-- Result of an operation on state `σ` returning a value `ν`:
normal return, recoverable `ERR_DROP` (carrying the global state at the
raise point), process-terminating `ERR_FATAL`, or an access the model does
not track (undefined behaviour in the C source). -/
inductive MRes (ν : Type) (σ : Type) where
  | ok : ν → σ → MRes ν σ
  | drop : σ → MRes ν σ
  | fatal : MRes ν σ
  | stuck : MRes ν σ

/-! ## Constants from the source -/

/-- `#define ZONEID 0x1d4a11` -/
def ZONEID : Int := 0x1d4a11

/-- `#define MINFRAGMENT 64`; `Z_ClearZone` would raise the runtime
`minfragment` to `PAD(sizeof(memblock_t)+sizeof(freeblock_t), sizeof(intptr_t))
= 48` only if that exceeded 64, so at runtime `minfragment = 64`. -/
def minfragment : Int := 64

/-- `#define SMALL_SIZE 64` (forward-lookup configuration). -/
def SMALL_SIZE : Int := 64

/-- `#define MEDIUM_SIZE 128` (forward-lookup configuration). -/
def MEDIUM_SIZE : Int := 128

/-- `sizeof(memblock_t)` on LP64 without `ZONE_DEBUG`. -/
def sizeof_memblock : Int := 32

/-- `sizeof(freeblock_t)` on LP64. -/
def sizeof_freeblock : Int := 16

/-- `sizeof(memzone_t)` on LP64 with `USE_MULTI_SEGMENT`. -/
def sizeof_memzone : Int := 232

/-- `#define HUNK_MAGIC 0x89537892` -/
def HUNK_MAGIC : Nat := 0x89537892

/-- `#define HUNK_FREE_MAGIC 0x89537893` -/
def HUNK_FREE_MAGIC : Nat := 0x89537893

/-- `#define PAD(base, alignment) (((base)+(alignment)-1) & ~((alignment)-1))`
for power-of-two alignments; arithmetically, rounding up to a multiple of
`a` (all uses in the source apply it to non-negative sizes). -/
def PAD (x a : Int) : Int := ((x + a - 1) / a) * a

/-! ## Byte memory -/

/-- `Com_Memset(dest, v, len)` over the byte map model. -/
def lmemset (m : Int → Nat) (start : Int) (v : Nat) (len : Int) : Int → Nat :=
  fun i => if start ≤ i ∧ i < start + len then v else m i

/-- A 4-byte little-endian store `*(int *)p = v` (used for the trash
sentinel). -/
def writeInt32 (m : Int → Nat) (o : Int) (v : Nat) : Int → Nat :=
  fun i =>
    if i = o then v % 256
    else if i = o + 1 then v / 256 % 256
    else if i = o + 2 then v / 65536 % 256
    else if i = o + 3 then v / 16777216 % 256
    else m i

/-- A 4-byte little-endian load `*(int *)p` (used for the trash sentinel
check). -/
def readInt32 (m : Int → Nat) (o : Int) : Int :=
  (m o + 256 * m (o + 1) + 65536 * m (o + 2) + 16777216 * m (o + 3) : Nat)

/-! ## Zone data model -/

/-- `memtag_t` from `qcommon.h`. -/
inductive memtag_t where
  | TAG_FREE
  | TAG_GENERAL
  | TAG_PACK
  | TAG_SEARCH_PATH
  | TAG_SEARCH_PACK
  | TAG_SEARCH_DIR
  | TAG_BOTLIB
  | TAG_RENDERER
  | TAG_CLIENTS
  | TAG_SMALL
  | TAG_STATIC
deriving DecidableEq

open memtag_t

/-- `memblock_t`: the in-band block header.  `next`/`prev` are positional
in the containing list; `addr` records the header's byte address (the value
of the C pointer to the block). -/
structure memblock_t where
  addr : Int
  size : Int
  tag : memtag_t
  id : Int
deriving DecidableEq

/-- `memzone_t` with `USE_MULTI_SEGMENT`: statistics, the circular block
list (sentinel implicit), the three active segregated free lists (heads
implicit, front of the Lean list = `head.next`), the fresh-address source
standing for `calloc` of further segments, and the tracked byte memory of
the zone's segments. -/
structure memzone_t where
  size : Int
  used : Int
  blocks : List memblock_t
  freelist_small : List Int
  freelist_medium : List Int
  freelist : List Int
  nextSegBase : Int
  mem : Int → Nat

/-! ## Zone operations -/

/-- `InsertFree`: link a free block at the head of the segregated list
chosen by its size (`TINY_SIZE` disabled, `SMALL_SIZE = 64`,
`MEDIUM_SIZE = 128`). -/
def insertFree (z : memzone_t) (b : memblock_t) : memzone_t :=
  if b.size ≤ SMALL_SIZE then { z with freelist_small := b.addr :: z.freelist_small }
  else if b.size ≤ MEDIUM_SIZE then { z with freelist_medium := b.addr :: z.freelist_medium }
  else { z with freelist := b.addr :: z.freelist }

/-- `RemoveFree`: unlink the free-list node of the block at address `a`
(in C the node unlinks itself from whatever list it is in via its own
`prev`/`next`; the model erases the address from the lists). -/
def removeFreeAddr (z : memzone_t) (a : Int) : memzone_t :=
  { z with freelist_small := z.freelist_small.filter (fun x => x ≠ a),
           freelist_medium := z.freelist_medium.filter (fun x => x ≠ a),
           freelist := z.freelist.filter (fun x => x ≠ a) }

/-- Locate the block whose header is at address `a`, splitting the block
list into the part before it, the block, and the part after it. -/
def splitAtAddr (a : Int) : List memblock_t →
    Option (List memblock_t × memblock_t × List memblock_t)
  | [] => none
  | b :: t =>
    if b.addr = a then some ([], b, t)
    else (splitAtAddr a t).map (fun r => (b :: r.1, r.2.1, r.2.2))

/-- `Z_ClearZone`: format a region of `size` bytes starting at `base` as a
zone with one giant free block (the zone control structure occupies the
first `sizeof(memzone_t)` bytes). -/
def Z_ClearZone (base size : Int) : memzone_t :=
  let blk : memblock_t :=
    { addr := base + sizeof_memzone, size := size - sizeof_memzone,
      tag := TAG_FREE, id := ZONEID }
  insertFree
    { size := size, used := 0, blocks := [blk],
      freelist_small := [], freelist_medium := [], freelist := [],
      nextSegBase := base + size, mem := fun _ => 0 } blk

/-- `NewBlock`: grow the zone by a fresh `calloc`ed segment holding one
separator block (`tag = TAG_GENERAL`, `id = -ZONEID`, `size = 0`, in-use so
the coalescer never merges across it) followed by one free block of
`PAD(size, 1<<21)` bytes, linked at the tail of the block list.  Returns
the new free block's address and the grown zone. -/
def NewBlock (z : memzone_t) (size : Int) : Int × memzone_t :=
  let size2 := PAD size (2 ^ 21)
  let sep : memblock_t :=
    { addr := z.nextSegBase, size := 0, tag := TAG_GENERAL, id := -ZONEID }
  let blk : memblock_t :=
    { addr := z.nextSegBase + sizeof_memblock, size := size2,
      tag := TAG_FREE, id := ZONEID }
  let z1 := { z with blocks := z.blocks ++ [sep, blk],
                     size := z.size + size2 + sizeof_memblock,
                     used := z.used + sizeof_memblock,
                     nextSegBase := z.nextSegBase + sizeof_memblock + size2 }
  (blk.addr, insertFree z1 blk)

/-- The candidate free-list entries `SearchFree` walks for a padded request
of `size` bytes: it starts in the matching size class and falls through to
each larger class in turn. -/
def searchCands (z : memzone_t) (size : Int) : List Int :=
  (if size ≤ SMALL_SIZE then z.freelist_small else []) ++
  (if size ≤ MEDIUM_SIZE then z.freelist_medium else []) ++ z.freelist

/-- Does the block at address `a` exist and have at least `size` bytes? -/
def fits (z : memzone_t) (size a : Int) : Bool :=
  match splitAtAddr a z.blocks with
  | some r => size ≤ r.2.1.size
  | none => false

/-- `SearchFree`: first-fit walk over the segregated lists, growing the
zone with `NewBlock` when every list is exhausted (the freshly grown block
always fits since `PAD(size, 1<<21) ≥ size`). -/
def SearchFree (z : memzone_t) (size : Int) : Int × memzone_t :=
  match (searchCands z size).find? (fits z size) with
  | some a => (a, z)
  | none => NewBlock z size

/-- The body of `Z_TagMalloc` once the request has been padded to `s2`
bytes (header, trailing trash word and 8-byte alignment included):
search the free lists, unlink the found block, and either split it
(remainder at least `minfragment`) or consume it whole. -/
def zallocCore (z : memzone_t) (s2 : Int) (tag : memtag_t) : MRes Int memzone_t :=
  let p := SearchFree z s2
  let z2 := removeFreeAddr p.2 p.1
  match splitAtAddr p.1 z2.blocks with
  | none => .stuck
  | some (L, b, R) =>
    let extra := b.size - s2
    if extra ≥ minfragment then
      -- split: the remainder becomes a new free fragment after the block
      let frag : memblock_t :=
        { addr := b.addr + s2, size := extra, tag := TAG_FREE, id := ZONEID }
      let b2 : memblock_t := { b with size := s2, tag := tag, id := ZONEID }
      let z3 := insertFree
        { z2 with blocks := L ++ b2 :: frag :: R, used := z2.used + s2 } frag
      .ok (b.addr + sizeof_memblock)
        { z3 with mem := writeInt32 z3.mem (b.addr + s2 - 4) ZONEID.toNat }
    else
      let b2 : memblock_t := { b with tag := tag, id := ZONEID }
      .ok (b.addr + sizeof_memblock)
        { z2 with blocks := L ++ b2 :: R, used := z2.used + b.size,
                  mem := writeInt32 z2.mem (b.addr + b.size - 4) ZONEID.toNat }

/-- `Z_TagMalloc` acting on one zone (the caller's `tag == TAG_SMALL`
zone routing is in the `World` wrapper below).  Returns the user pointer
(`header address + sizeof(memblock_t)`) and the new zone. -/
def Z_TagMallocZ (z : memzone_t) (size : Int) (tag : memtag_t) : MRes Int memzone_t :=
  if tag = TAG_FREE then .fatal
  else
    -- if ( size < sizeof(freeblock_t) ) size = sizeof(freeblock_t);
    let size1 := if size < sizeof_freeblock then sizeof_freeblock else size
    -- size += sizeof(*base); size += 4; size = PAD(size, sizeof(intptr_t));
    zallocCore z (PAD (size1 + sizeof_memblock + 4) 8) tag

/-- The coalescing tail of `Z_Free`, acting after the freed block `b1`
(already re-tagged `TAG_FREE`) has been located at `L ++ b1 :: R` in the
(statistics- and scribble-updated) zone `z`: merge with the previous block
if free, then with the next block if free, then `InsertFree` the result. -/
def zfreeAfter (z : memzone_t) (L : List memblock_t) (b1 : memblock_t)
    (R : List memblock_t) : memzone_t :=
  let s1 :=
    match L.getLast? with
    | some p =>
      if p.tag = TAG_FREE then
        (L.dropLast, { p with size := p.size + b1.size }, removeFreeAddr z p.addr)
      else (L, b1, z)
    | none => (L, b1, z)
  let s2 :=
    match R with
    | n :: R2 =>
      if n.tag = TAG_FREE then
        (R2, { s1.2.1 with size := s1.2.1.size + n.size }, removeFreeAddr s1.2.2 n.addr)
      else (R, s1.2.1, s1.2.2)
    | [] => (R, s1.2.1, s1.2.2)
  insertFree { s2.2.2 with blocks := s1.1 ++ s2.2.1 :: s2.1 } s2.2.1

/-- `Z_Free` acting on one zone, given the user pointer `ptr` (the NULL
check, the `TAG_STATIC` fast path for the static string blocks, and the
`tag == TAG_SMALL` zone routing are in the `World` wrapper; the id, double
free, static and trash-sentinel checks are here, in source order). -/
def zfreeCore (z : memzone_t) (ptr : Int) : MRes Unit memzone_t :=
  match splitAtAddr (ptr - sizeof_memblock) z.blocks with
  | none => .stuck
  | some (L, b, R) =>
    if b.id ≠ ZONEID then .fatal
    else if b.tag = TAG_FREE then .fatal
    else if b.tag = TAG_STATIC then .ok () z
    else if readInt32 z.mem (b.addr + b.size - 4) ≠ ZONEID then .fatal
    else
      let z1 := { z with used := z.used - b.size,
                         mem := lmemset z.mem (b.addr + sizeof_memblock) 0xaa
                                  (b.size - sizeof_memblock) }
      let b1 : memblock_t := { b with tag := TAG_FREE, id := ZONEID }
      .ok () (zfreeAfter z1 L b1 R)

/-- `Z_Malloc` specialised to one zone: `Z_TagMalloc(size, TAG_GENERAL)`
followed by `Com_Memset(buf, 0, size)`. -/
def Z_MallocZ (z : memzone_t) (size : Int) : MRes Int memzone_t :=
  match Z_TagMallocZ z size TAG_GENERAL with
  | .ok p z1 => .ok p { z1 with mem := lmemset z1.mem p 0 size }
  | .drop s => .drop s
  | .fatal => .fatal
  | .stuck => .stuck

/-- One iteration structure of the `Z_FreeTags` walk, with explicit fuel
(the C loop terminates because each iteration moves the cursor past at
least one block of the finite list; `Z_FreeTagsZ` supplies sufficient
fuel, and `.stuck` on fuel exhaustion is proved unreachable).  The cursor
is the address of the current block; after freeing, the walk resumes from
the freed block's predecessor when that predecessor was free (the merge
target), otherwise from the same address. -/
def ftLoop (tag : memtag_t) : Nat → memzone_t → Int → Int → MRes Int memzone_t
  | 0, _, _, _ => .stuck
  | fuel + 1, z, cur, count =>
    match splitAtAddr cur z.blocks with
    | none => .stuck
    | some (L, b, R) =>
      if b.tag = tag ∧ b.id = ZONEID then
        let freed :=
          match L.getLast? with
          | some p => if p.tag = TAG_FREE then p.addr else b.addr
          | none => b.addr
        match zfreeCore z (b.addr + sizeof_memblock) with
        | .ok _ z1 =>
          match splitAtAddr freed z1.blocks with
          | none => .stuck
          | some (_, _, R1) =>
            match R1 with
            | [] => .ok (count + 1) z1
            | nb :: _ => ftLoop tag fuel z1 nb.addr (count + 1)
        | .fatal => .fatal
        | .drop _ => .stuck
        | .stuck => .stuck
      else
        match R with
        | [] => .ok count z
        | nb :: _ => ftLoop tag fuel z nb.addr count

/-- `Z_FreeTags` acting on one zone (the `TAG_SMALL` zone routing is in
the `World` wrapper): fatal on `TAG_STATIC`, otherwise walk the whole
block list freeing every block whose tag matches and whose id is `ZONEID`,
returning the number of blocks freed. -/
def Z_FreeTagsZ (z : memzone_t) (tag : memtag_t) : MRes Int memzone_t :=
  if tag = TAG_STATIC then .fatal
  else
    match z.blocks with
    | [] => .ok 0 z
    | b :: _ => ftLoop tag (z.blocks.length + 1) z b.addr 0

/-! ## The two process-wide zones and the static string blocks -/

/-- Model address of the static `memstatic_t` globals (`emptystring` at
index 0, `numberstring[d]` at index `1 + d`); they live in the program
image, outside any zone segment, so the model places them at negative
addresses while zones use non-negative ones. -/
def memstatic_addr (k : Int) : Int := -4096 + 64 * k

/-- The headers of the `USE_STATIC_TAGS` blocks
`MEM_STATIC(chr) = { { NULL, NULL, PAD(sizeof(memstatic_t),4), TAG_STATIC,
ZONEID }, {chr,0} }`; on LP64 `sizeof(memstatic_t) = 40` (a 32-byte
`memblock_t` plus 2 bytes padded to the struct's 8-byte alignment), so
`PAD(sizeof(memstatic_t),4) = PAD(40,4) = 40`. -/
def staticBlocks : List memblock_t :=
  (List.range 11).map fun k =>
    { addr := memstatic_addr k, size := 40, tag := TAG_STATIC, id := ZONEID }

/-- The two process-wide zones: `mainzone` (all tags except `TAG_SMALL`)
and `smallzone` (`TAG_SMALL`).  Their segments occupy disjoint address
ranges. -/
structure World where
  main : memzone_t
  small : memzone_t

/-- Base address chosen for the static 512 KiB `smallzone` buffer. -/
def smallzone_base : Int := 0

/-- Base address chosen for the `calloc`ed 12 MiB `mainzone` region. -/
def mainzone_base : Int := 2 ^ 40

/-- `Com_InitSmallZoneMemory` followed by `Com_InitZoneMemory`
(`DEF_COMZONEMEGS = 12`, small zone fixed at 512 KiB). -/
def initWorld : World :=
  { main := Z_ClearZone mainzone_base (12 * 1024 * 1024),
    small := Z_ClearZone smallzone_base (512 * 1024) }

/-- Dereference a user pointer: find the block whose header sits
`sizeof(memblock_t)` bytes before `p`, among the main zone, the small
zone and the static string blocks. -/
def findBlockPtr (w : World) (p : Int) : Option memblock_t :=
  match splitAtAddr (p - sizeof_memblock) w.main.blocks with
  | some r => some r.2.1
  | none =>
    match splitAtAddr (p - sizeof_memblock) w.small.blocks with
    | some r => some r.2.1
    | none => staticBlocks.find? (fun b => b.addr == p - sizeof_memblock)

/-- `Z_Free`: NULL is a recoverable `ERR_DROP`; then the header checks in
source order (`id == ZONEID`, not already free, `TAG_STATIC` fast path
returning without touching anything), then the zone selected by the
block's tag is updated by `zfreeCore` (which re-traces the checks and
performs the trash-sentinel test, statistics update, `0xaa` scribble,
coalescing and free-list insertion). -/
def Z_FreeW (w : World) (ptr : Option Int) : MRes Unit World :=
  match ptr with
  | none => .drop w
  | some p =>
    match findBlockPtr w p with
    | none => .stuck
    | some b =>
      if b.id ≠ ZONEID then .fatal
      else if b.tag = TAG_FREE then .fatal
      else if b.tag = TAG_STATIC then .ok () w
      else if b.tag = TAG_SMALL then
        match zfreeCore w.small p with
        | .ok _ z => .ok () { w with small := z }
        | .fatal => .fatal
        | .drop _ => .stuck
        | .stuck => .stuck
      else
        match zfreeCore w.main p with
        | .ok _ z => .ok () { w with main := z }
        | .fatal => .fatal
        | .drop _ => .stuck
        | .stuck => .stuck

/-- `Z_TagMalloc` with the `tag == TAG_SMALL` zone selection. -/
def Z_TagMallocW (w : World) (size : Int) (tag : memtag_t) : MRes Int World :=
  if tag = TAG_SMALL then
    match Z_TagMallocZ w.small size tag with
    | .ok p z => .ok p { w with small := z }
    | .drop _ => .stuck
    | .fatal => .fatal
    | .stuck => .stuck
  else
    match Z_TagMallocZ w.main size tag with
    | .ok p z => .ok p { w with main := z }
    | .drop _ => .stuck
    | .fatal => .fatal
    | .stuck => .stuck

/-- `Z_Malloc`: `Z_TagMalloc(size, TAG_GENERAL)` then zero-fill of the
requested `size` bytes. -/
def Z_MallocW (w : World) (size : Int) : MRes Int World :=
  match Z_TagMallocW w size TAG_GENERAL with
  | .ok p w1 => .ok p { w1 with main := { w1.main with mem := lmemset w1.main.mem p 0 size } }
  | .drop s => .drop s
  | .fatal => .fatal
  | .stuck => .stuck

/-! ## Hunk data model -/

/-- `hunkUsed_t`. -/
structure hunkUsed_t where
  mark : Int
  permanent : Int
  temp : Int
  tempHighwater : Int
deriving DecidableEq

/-- `hunkHeader_t` (4-byte magic + 4-byte size, 8 bytes total). -/
structure hunkHeader_t where
  magic : Nat
  size : Int
deriving DecidableEq

/-- `ha_pref` (`h_low`, `h_high`, `h_dontcare`). -/
inductive ha_pref where
  | h_low
  | h_high
  | h_dontcare
deriving DecidableEq

open ha_pref

/-- The hunk globals: the two banks `hunk_low` / `hunk_high`, the two
designation pointers `hunk_permanent` / `hunk_temp` (each modelled by
which bank it points at), `s_hunkTotal`, whether `s_hunkData` has been
allocated, the byte contents of the hunk region (offsets from the
64-byte-aligned base, so pointers into the hunk are offsets), and the
temp frame headers by header offset (the in-band 8-byte headers,
abstracted from the byte map; no claim aliases them with byte stores). -/
structure HunkState where
  hunk_low : hunkUsed_t
  hunk_high : hunkUsed_t
  permIsLow : Bool
  tempIsLow : Bool
  s_hunkTotal : Int
  initialized : Bool
  mem : Int → Nat
  hdrs : Int → Option hunkHeader_t

/-- The bank `hunk_temp` points at. -/
def tempBank (h : HunkState) : hunkUsed_t :=
  if h.tempIsLow then h.hunk_low else h.hunk_high

/-- The bank `hunk_permanent` points at. -/
def permBank (h : HunkState) : hunkUsed_t :=
  if h.permIsLow then h.hunk_low else h.hunk_high

/-- Update the bank `hunk_temp` points at. -/
def setTempBank (h : HunkState) (f : hunkUsed_t → hunkUsed_t) : HunkState :=
  if h.tempIsLow then { h with hunk_low := f h.hunk_low }
  else { h with hunk_high := f h.hunk_high }

/-- Update the bank `hunk_permanent` points at. -/
def setPermBank (h : HunkState) (f : hunkUsed_t → hunkUsed_t) : HunkState :=
  if h.permIsLow then { h with hunk_low := f h.hunk_low }
  else { h with hunk_high := f h.hunk_high }

/-! ## Hunk operations -/

/-- `Hunk_Clear`: reset both banks and re-point `hunk_permanent` at
`hunk_low`, `hunk_temp` at `hunk_high`. -/
def Hunk_Clear (h : HunkState) : HunkState :=
  { h with hunk_low := ⟨0, 0, 0, 0⟩, hunk_high := ⟨0, 0, 0, 0⟩,
           permIsLow := true, tempIsLow := false }

/-- `Com_InitHunkMemory` (`DEF_COMHUNKMEGS = 56`): allocate and zero the
region, then `Hunk_Clear`. -/
def Com_InitHunkMemory : HunkState :=
  Hunk_Clear
    { hunk_low := ⟨0, 0, 0, 0⟩, hunk_high := ⟨0, 0, 0, 0⟩,
      permIsLow := true, tempIsLow := false,
      s_hunkTotal := 56 * 1024 * 1024, initialized := true,
      mem := fun _ => 0, hdrs := fun _ => none }

/-- `Hunk_SetMark`. -/
def Hunk_SetMark (h : HunkState) : HunkState :=
  { h with hunk_low := { h.hunk_low with mark := h.hunk_low.permanent },
           hunk_high := { h.hunk_high with mark := h.hunk_high.permanent } }

/-- `Hunk_ClearToMark`. -/
def Hunk_ClearToMark (h : HunkState) : HunkState :=
  { h with
    hunk_low := { h.hunk_low with permanent := h.hunk_low.mark, temp := h.hunk_low.mark },
    hunk_high := { h.hunk_high with permanent := h.hunk_high.mark, temp := h.hunk_high.mark } }

/-- `Hunk_CheckMark`. -/
def Hunk_CheckMark (h : HunkState) : Bool :=
  h.hunk_low.mark ≠ 0 ∨ h.hunk_high.mark ≠ 0

/-- `Hunk_MemoryRemaining`. -/
def Hunk_MemoryRemaining (h : HunkState) : Int :=
  h.s_hunkTotal -
    (max h.hunk_low.permanent h.hunk_low.temp +
     max h.hunk_high.permanent h.hunk_high.temp)

/-- `Hunk_SwapBanks`: a no-op while the temp bank has live temp
allocations; otherwise exchange the `hunk_permanent` / `hunk_temp`
designations when the temp side's touched-but-unused highwater region
exceeds the permanent side's. -/
def Hunk_SwapBanks (h : HunkState) : HunkState :=
  if (tempBank h).temp ≠ (tempBank h).permanent then h
  else if (tempBank h).tempHighwater - (tempBank h).permanent >
          (permBank h).tempHighwater - (permBank h).permanent then
    { h with permIsLow := h.tempIsLow, tempIsLow := h.permIsLow }
  else h

/-- The bank-selection phase at the top of `Hunk_Alloc`: swap when the
caller does not care or any temp is live, else honour an explicit
`h_low` / `h_high` preference that disagrees with the current permanent
bank. -/
def hunkAllocBank (h : HunkState) (preference : ha_pref) : HunkState :=
  if preference = h_dontcare ∨ (tempBank h).temp ≠ (tempBank h).permanent then
    Hunk_SwapBanks h
  else if preference = h_low ∧ ¬h.permIsLow then Hunk_SwapBanks h
  else if preference = h_high ∧ h.permIsLow then Hunk_SwapBanks h
  else h

/-- `Hunk_Alloc`: fatal before `Hunk_Init`; bank selection; round the size
up to a 64-byte cache line; recoverable drop when
`hunk_low.temp + hunk_high.temp + size` would exceed the total; otherwise
bump the permanent cursor of the permanent bank (low bank grows up from
the base, high bank grows down from the end), drag that bank's temp
cursor along, and zero-fill the returned region. -/
def Hunk_Alloc (h : HunkState) (size : Int) (preference : ha_pref) : MRes Int HunkState :=
  if h.initialized then
    let h1 := hunkAllocBank h preference
    let sz := PAD size 64
    if h1.hunk_low.temp + h1.hunk_high.temp + sz > h1.s_hunkTotal then .drop h1
    else
      let p0 := (permBank h1).permanent
      let h2 := setPermBank h1 (fun u => { u with permanent := u.permanent + sz })
      let buf := if h1.permIsLow then p0 else h1.s_hunkTotal - (p0 + sz)
      let h3 := setPermBank h2 (fun u => { u with temp := u.permanent })
      .ok buf { h3 with mem := lmemset h3.mem buf 0 sz }
  else .fatal

/-- `Hunk_ClearTempMemory`: release the whole temp stack of the temp bank
(no-op before `Hunk_Init`). -/
def Hunk_ClearTempMemory (h : HunkState) : HunkState :=
  if h.initialized then setTempBank h (fun u => { u with temp := u.permanent })
  else h

/-- The combined globals: the two zones plus the hunk (the hunk delegates
to the main zone before `Hunk_Init`). -/
structure GState where
  world : World
  hunk : HunkState

/-- `Hunk_AllocateTempMemory`: before `Hunk_Init`, transparently delegate
to `Z_Malloc`; otherwise swap banks if possible, round up to the word
size plus the 8-byte frame header, drop on exhaustion, bump the temp
cursor of the temp bank (mirroring `Hunk_Alloc`'s two growth directions),
update the highwater, and write the `{HUNK_MAGIC, size}` header just
before the returned payload (no zero fill). -/
def Hunk_AllocateTempMemory (g : GState) (size : Int) : MRes Int GState :=
  if g.hunk.initialized then
    let h := Hunk_SwapBanks g.hunk
    let sz := PAD size 8 + 8
    if (tempBank h).temp + (permBank h).permanent + sz > h.s_hunkTotal then
      .drop { g with hunk := h }
    else
      let t0 := (tempBank h).temp
      let h1 := setTempBank h (fun u => { u with temp := u.temp + sz })
      let buf := if h.tempIsLow then t0 else h.s_hunkTotal - (tempBank h1).temp
      let h2 := if (tempBank h1).temp > (tempBank h1).tempHighwater then
                  setTempBank h1 (fun u => { u with tempHighwater := u.temp })
                else h1
      let h3 := { h2 with hdrs := fun o =>
                    if o = buf then some ⟨HUNK_MAGIC, sz⟩ else h2.hdrs o }
      .ok (buf + 8) { g with hunk := h3 }
  else
    match Z_MallocW g.world size with
    | .ok p w => .ok p { g with world := w }
    | .drop _ => .stuck
    | .fatal => .fatal
    | .stuck => .stuck

/-- `Hunk_FreeTempMemory`: before `Hunk_Init`, delegate to `Z_Free`;
otherwise check the frame header's magic (fatal if it is not
`HUNK_MAGIC`), stamp it `HUNK_FREE_MAGIC`, and roll the temp cursor back
by the frame's size only when the frame is topmost on the temp bank's
stack (low bank: header at `temp - size`; high bank: header at
`total - temp`). -/
def Hunk_FreeTempMemory (g : GState) (buf : Int) : MRes Unit GState :=
  if g.hunk.initialized then
    let h := g.hunk
    match h.hdrs (buf - 8) with
    | none => .stuck
    | some hdr =>
      if hdr.magic ≠ HUNK_MAGIC then .fatal
      else
        let h1 := { h with hdrs := fun o =>
                      if o = buf - 8 then some ⟨HUNK_FREE_MAGIC, hdr.size⟩ else h.hdrs o }
        let h2 :=
          if h1.tempIsLow then
            if buf - 8 = (tempBank h1).temp - hdr.size then
              setTempBank h1 (fun u => { u with temp := u.temp - hdr.size })
            else h1
          else
            if buf - 8 = h1.s_hunkTotal - (tempBank h1).temp then
              setTempBank h1 (fun u => { u with temp := u.temp - hdr.size })
            else h1
        .ok () { g with hunk := h2 }
  else
    match Z_FreeW g.world (some buf) with
    | .ok _ w => .ok () { g with world := w }
    | .drop w => .drop { g with world := w }
    | .fatal => .fatal
    | .stuck => .stuck

/-! ## Arithmetic facts about `PAD` -/

theorem PAD_eq_sub (x a : Int) : PAD x a = (x + a - 1) - (x + a - 1) % a := by
  unfold PAD
  rw [Int.emod_def]
  ring

theorem le_PAD (x a : Int) (ha : 0 < a) : x ≤ PAD x a := by
  rw [PAD_eq_sub]
  have h1 : 0 ≤ (x + a - 1) % a := Int.emod_nonneg _ (ne_of_gt ha)
  have h2 : (x + a - 1) % a < a := Int.emod_lt_of_pos _ ha
  omega

theorem PAD_lt_add (x a : Int) (ha : 0 < a) : PAD x a < x + a := by
  rw [PAD_eq_sub]
  have h1 : 0 ≤ (x + a - 1) % a := Int.emod_nonneg _ (ne_of_gt ha)
  omega

theorem PAD_emod (x a : Int) : PAD x a % a = 0 := by
  unfold PAD
  exact Int.mul_emod_left _ _

/-! ## Facts about the byte-memory operations -/

theorem lmemset_in (m : Int → Nat) (s : Int) (v : Nat) (len i : Int)
    (h1 : s ≤ i) (h2 : i < s + len) : lmemset m s v len i = v := by
  unfold lmemset
  rw [if_pos ⟨h1, h2⟩]

theorem lmemset_out (m : Int → Nat) (s : Int) (v : Nat) (len i : Int)
    (h : i < s ∨ s + len ≤ i) : lmemset m s v len i = m i := by
  unfold lmemset
  rw [if_neg (by omega)]

theorem writeInt32_out (m : Int → Nat) (o : Int) (v : Nat) (i : Int)
    (h : i < o ∨ o + 4 ≤ i) : writeInt32 m o v i = m i := by
  unfold writeInt32
  rw [if_neg (by omega), if_neg (by omega), if_neg (by omega), if_neg (by omega)]

theorem readInt32_writeInt32_out (m : Int → Nat) (o : Int) (v : Nat) (q : Int)
    (h : q + 4 ≤ o ∨ o + 4 ≤ q) : readInt32 (writeInt32 m o v) q = readInt32 m q := by
  unfold readInt32
  rw [writeInt32_out m o v q (by omega), writeInt32_out m o v (q + 1) (by omega),
      writeInt32_out m o v (q + 2) (by omega), writeInt32_out m o v (q + 3) (by omega)]

theorem readInt32_lmemset_out (m : Int → Nat) (s : Int) (v : Nat) (len q : Int)
    (h : q + 4 ≤ s ∨ s + len ≤ q) : readInt32 (lmemset m s v len) q = readInt32 m q := by
  unfold readInt32
  rw [lmemset_out m s v len q (by omega), lmemset_out m s v len (q + 1) (by omega),
      lmemset_out m s v len (q + 2) (by omega), lmemset_out m s v len (q + 3) (by omega)]

theorem readInt32_writeInt32_self (m : Int → Nat) (o : Int) (v : Nat)
    (hv : v < 4294967296) : readInt32 (writeInt32 m o v) o = (v : Int) := by
  have b0 : writeInt32 m o v o = v % 256 := by
    simp [writeInt32]
  have b1 : writeInt32 m o v (o + 1) = v / 256 % 256 := by
    simp only [writeInt32]
    rw [if_neg (by omega)]
    simp
  have b2 : writeInt32 m o v (o + 2) = v / 65536 % 256 := by
    simp only [writeInt32]
    rw [if_neg (by omega), if_neg (by omega)]
    simp
  have b3 : writeInt32 m o v (o + 3) = v / 16777216 % 256 := by
    simp only [writeInt32]
    rw [if_neg (by omega), if_neg (by omega), if_neg (by omega)]
    simp
  unfold readInt32
  rw [b0, b1, b2, b3]
  omega

/-! ## Facts about `splitAtAddr` -/

theorem splitAtAddr_some {a : Int} :
    ∀ {l L : List memblock_t} {b : memblock_t} {R : List memblock_t},
      splitAtAddr a l = some (L, b, R) →
      l = L ++ b :: R ∧ b.addr = a ∧ ∀ x ∈ L, x.addr ≠ a := by
  intro l
  induction l with
  | nil => intro L b R h; simp [splitAtAddr] at h
  | cons c t ih =>
    intro L b R h
    rw [splitAtAddr] at h
    by_cases hc : c.addr = a
    · rw [if_pos hc] at h
      simp only [Option.some.injEq, Prod.mk.injEq] at h
      obtain ⟨hL, hb, hR⟩ := h
      subst hL; subst hb; subst hR
      exact ⟨rfl, hc, by simp⟩
    · rw [if_neg hc] at h
      rw [Option.map_eq_some'] at h
      obtain ⟨⟨L1, b1, R1⟩, hsp, heq⟩ := h
      simp only [Prod.mk.injEq] at heq
      obtain ⟨hL, hb, hR⟩ := heq
      obtain ⟨h1, h2, h3⟩ := ih hsp
      subst hL; subst hb; subst hR
      refine ⟨by simp [h1], h2, ?_⟩
      intro x hx
      rcases List.mem_cons.1 hx with hx1 | hx1
      · subst hx1; exact hc
      · exact h3 x hx1

theorem splitAtAddr_append (L : List memblock_t) (b : memblock_t) (R : List memblock_t)
    (hL : ∀ x ∈ L, x.addr ≠ b.addr) :
    splitAtAddr b.addr (L ++ b :: R) = some (L, b, R) := by
  induction L with
  | nil => simp [splitAtAddr]
  | cons c t ih =>
    have hc : c.addr ≠ b.addr := hL c (by simp)
    rw [List.cons_append, splitAtAddr, if_neg hc,
        ih (fun x hx => hL x (by simp [hx]))]
    rfl

/-! ## The zone invariant -/

/-- Address-ordering relation between successive blocks: a block's byte
range ends no later than the next block's header starts (`(byte*)b +
b->size == (byte*)b->next` within a segment, with a gap at segment
boundaries), and header addresses strictly increase. -/
def SepRel (a b : memblock_t) : Prop := a.addr + a.size ≤ b.addr ∧ a.addr < b.addr

/-- Adjacent blocks are never both free (`Z_CheckHeap`'s "two consecutive
free blocks" condition). -/
def notBothFree (a b : memblock_t) : Prop := ¬(a.tag = TAG_FREE ∧ b.tag = TAG_FREE)

/-- All entries of the three segregated free lists. -/
def zoneFreelistEntries (z : memzone_t) : List Int :=
  z.freelist_small ++ z.freelist_medium ++ z.freelist

/-- Total size of the in-use (`tag ≠ TAG_FREE`) real (`id = ZONEID`)
blocks of a block list. -/
def inUseSum : List memblock_t → Int
  | [] => 0
  | b :: t => (if b.tag ≠ TAG_FREE ∧ b.id = ZONEID then b.size else 0) + inUseSum t

/-- Number of segment-separator blocks (`id = -ZONEID`) of a block list. -/
def sepCount : List memblock_t → Int
  | [] => 0
  | b :: t => (if b.id = -ZONEID then 1 else 0) + sepCount t

@[simp] theorem inUseSum_append (l1 l2 : List memblock_t) :
    inUseSum (l1 ++ l2) = inUseSum l1 + inUseSum l2 := by
  induction l1 with
  | nil => simp [inUseSum]
  | cons b t ih => simp [inUseSum, ih]; ring

@[simp] theorem sepCount_append (l1 l2 : List memblock_t) :
    sepCount (l1 ++ l2) = sepCount l1 + sepCount l2 := by
  induction l1 with
  | nil => simp [sepCount]
  | cons b t ih => simp [sepCount, ih]; ring

/-- The internal consistency invariant of a zone, maintained by every zone
operation:

1. blocks are address-ordered and non-overlapping (`SepRel` chain);
2. block sizes are non-negative;
3. every block lies below the fresh-segment address source;
4. every segregated free-list entry is the address of a free block
   (free-list soundness);
5. free blocks carry `id = ZONEID`;
6. segment separators are the in-use `TAG_GENERAL` size-0 blocks;
7. real blocks are at least `sizeof(memblock_t) + 4` bytes;
8. every in-use real block carries the trailing `ZONEID` trash sentinel;
9. no two adjacent blocks are both free;
10. `used` accounts exactly for the in-use real blocks plus
    `sizeof(memblock_t)` per segment separator. -/
def ZInv (z : memzone_t) : Prop :=
  List.Chain' SepRel z.blocks ∧
  (∀ b ∈ z.blocks, 0 ≤ b.size) ∧
  (∀ b ∈ z.blocks, b.addr + b.size ≤ z.nextSegBase ∧ b.addr < z.nextSegBase) ∧
  (∀ a ∈ zoneFreelistEntries z, ∃ b ∈ z.blocks, b.addr = a ∧ b.tag = TAG_FREE) ∧
  (∀ b ∈ z.blocks, b.tag = TAG_FREE → b.id = ZONEID) ∧
  (∀ b ∈ z.blocks, b.id = -ZONEID → b.tag = TAG_GENERAL ∧ b.size = 0) ∧
  (∀ b ∈ z.blocks, b.id = ZONEID → 36 ≤ b.size) ∧
  (∀ b ∈ z.blocks, b.tag ≠ TAG_FREE → b.id = ZONEID →
      readInt32 z.mem (b.addr + b.size - 4) = ZONEID) ∧
  List.Chain' notBothFree z.blocks ∧
  z.used = inUseSum z.blocks + sizeof_memblock * sepCount z.blocks

/-- A `SepRel` chain of non-negative-size blocks is pairwise separated. -/
theorem chain_sep_pairwise :
    ∀ {l : List memblock_t}, List.Chain' SepRel l → (∀ b ∈ l, 0 ≤ b.size) →
      l.Pairwise SepRel := by
  intro l
  induction l with
  | nil => intro _ _; simp
  | cons a t ih =>
    intro hc hs
    rcases t with _ | ⟨b, t2⟩
    · simp
    · rw [List.chain'_cons] at hc
      have hpt : (b :: t2).Pairwise SepRel :=
        ih hc.2 (fun x hx => hs x (by simp [hx]))
      refine List.Pairwise.cons ?_ hpt
      intro x hx
      rcases List.mem_cons.1 hx with hx1 | hx1
      · subst hx1; exact hc.1
      · have hbx := (List.pairwise_cons.1 hpt).1 x hx1
        have hbs : 0 ≤ b.size := hs b (by simp)
        exact ⟨by unfold SepRel at *; omega, by unfold SepRel at *; omega⟩

/-- In a pairwise-separated decomposition, earlier blocks have strictly
smaller addresses than the middle block. -/
theorem decomp_left_addr_ne {L : List memblock_t} {b : memblock_t} {R : List memblock_t}
    (hp : (L ++ b :: R).Pairwise SepRel) : ∀ x ∈ L, x.addr ≠ b.addr := by
  intro x hx
  have h := (List.pairwise_append.1 hp).2.2 x hx b (by simp)
  exact ne_of_lt h.2

/-- Locating the middle of a pairwise-separated decomposition. -/
theorem splitAtAddr_of_decomp {z : memzone_t} {L : List memblock_t} {b : memblock_t}
    {R : List memblock_t} (hc : List.Chain' SepRel z.blocks)
    (hs : ∀ x ∈ z.blocks, 0 ≤ x.size) (hd : z.blocks = L ++ b :: R) :
    splitAtAddr b.addr z.blocks = some (L, b, R) := by
  rw [hd]
  exact splitAtAddr_append L b R
    (decomp_left_addr_ne (hd ▸ chain_sep_pairwise hc hs))

/-! ## Chain decomposition helpers -/

theorem chain'_decomp {α : Type} {S : α → α → Prop} {L R : List α} {b : α}
    (h : List.Chain' S (L ++ b :: R)) :
    List.Chain' S L ∧ List.Chain' S R ∧
      (∀ x ∈ L.getLast?, S x b) ∧ (∀ y ∈ R.head?, S b y) := by
  rw [List.chain'_append] at h
  obtain ⟨h1, h2, h3⟩ := h
  rw [List.chain'_cons'] at h2
  exact ⟨h1, h2.2, fun x hx => h3 x hx b rfl, h2.1⟩

theorem chain'_recomp {α : Type} {S : α → α → Prop} {L R : List α} {b : α}
    (h1 : List.Chain' S L) (h2 : List.Chain' S R)
    (h3 : ∀ x ∈ L.getLast?, S x b) (h4 : ∀ y ∈ R.head?, S b y) :
    List.Chain' S (L ++ b :: R) := by
  rw [List.chain'_append]
  refine ⟨h1, List.chain'_cons'.2 ⟨h4, h2⟩, ?_⟩
  intro x hx y hy
  simp only [List.head?_cons, Option.mem_def, Option.some.injEq] at hy
  subst hy
  exact h3 x hx

/-! ## Projection facts for the free-list bookkeeping operations -/

@[simp] theorem insertFree_blocks (z : memzone_t) (b : memblock_t) :
    (insertFree z b).blocks = z.blocks := by
  unfold insertFree; split_ifs <;> rfl

@[simp] theorem insertFree_used (z : memzone_t) (b : memblock_t) :
    (insertFree z b).used = z.used := by
  unfold insertFree; split_ifs <;> rfl

@[simp] theorem insertFree_mem (z : memzone_t) (b : memblock_t) :
    (insertFree z b).mem = z.mem := by
  unfold insertFree; split_ifs <;> rfl

@[simp] theorem insertFree_nextSegBase (z : memzone_t) (b : memblock_t) :
    (insertFree z b).nextSegBase = z.nextSegBase := by
  unfold insertFree; split_ifs <;> rfl

@[simp] theorem insertFree_size (z : memzone_t) (b : memblock_t) :
    (insertFree z b).size = z.size := by
  unfold insertFree; split_ifs <;> rfl

@[simp] theorem removeFreeAddr_blocks (z : memzone_t) (a : Int) :
    (removeFreeAddr z a).blocks = z.blocks := rfl

@[simp] theorem removeFreeAddr_used (z : memzone_t) (a : Int) :
    (removeFreeAddr z a).used = z.used := rfl

@[simp] theorem removeFreeAddr_mem (z : memzone_t) (a : Int) :
    (removeFreeAddr z a).mem = z.mem := rfl

@[simp] theorem removeFreeAddr_nextSegBase (z : memzone_t) (a : Int) :
    (removeFreeAddr z a).nextSegBase = z.nextSegBase := rfl

@[simp] theorem removeFreeAddr_size (z : memzone_t) (a : Int) :
    (removeFreeAddr z a).size = z.size := rfl

theorem entries_insertFree (z : memzone_t) (b : memblock_t) (a : Int) :
    a ∈ zoneFreelistEntries (insertFree z b) ↔
      a = b.addr ∨ a ∈ zoneFreelistEntries z := by
  unfold insertFree zoneFreelistEntries
  split_ifs <;> simp [List.mem_append] <;> tauto

theorem entries_removeFreeAddr (z : memzone_t) (x : Int) (a : Int) :
    a ∈ zoneFreelistEntries (removeFreeAddr z x) ↔
      a ∈ zoneFreelistEntries z ∧ a ≠ x := by
  unfold removeFreeAddr zoneFreelistEntries
  simp only [List.mem_append, List.mem_filter, decide_eq_true_eq]
  tauto

/-! ## Shape of the `Z_Free` coalescing result -/

/-- The blocks before the freed block after coalescing: the immediate
predecessor is absorbed when it was free. -/
def zfLeft (L : List memblock_t) : List memblock_t :=
  match L.getLast? with
  | some p => if p.tag = TAG_FREE then L.dropLast else L
  | none => L

/-- The blocks after the freed block after coalescing: the immediate
successor is absorbed when it was free. -/
def zfRight (R : List memblock_t) : List memblock_t :=
  match R with
  | n :: R2 => if n.tag = TAG_FREE then R2 else R
  | [] => []

/-- The coalesced free block that replaces the freed block `b1` and its
absorbed free neighbours. -/
def zfMid (L : List memblock_t) (b1 : memblock_t) (R : List memblock_t) : memblock_t :=
  let m1 :=
    match L.getLast? with
    | some p => if p.tag = TAG_FREE then { p with size := p.size + b1.size } else b1
    | none => b1
  match R with
  | n :: _ => if n.tag = TAG_FREE then { m1 with size := m1.size + n.size } else m1
  | [] => m1

/-- The free-list removals performed while coalescing. -/
def zfLists (z : memzone_t) (L : List memblock_t) (R : List memblock_t) : memzone_t :=
  let z2 :=
    match L.getLast? with
    | some p => if p.tag = TAG_FREE then removeFreeAddr z p.addr else z
    | none => z
  match R with
  | n :: _ => if n.tag = TAG_FREE then removeFreeAddr z2 n.addr else z2
  | [] => z2

/-- The walk-resume address `Z_FreeTags` computes before freeing a block
(`freed` in the source): the predecessor when it is free (the block will
merge into it), otherwise the block's own address. -/
def zfFreedAddr (L : List memblock_t) (b : memblock_t) : Int :=
  match L.getLast? with
  | some p => if p.tag = TAG_FREE then p.addr else b.addr
  | none => b.addr

theorem zfreeAfter_eq (z : memzone_t) (L : List memblock_t) (b1 : memblock_t)
    (R : List memblock_t) :
    zfreeAfter z L b1 R =
      insertFree
        { zfLists z L R with blocks := zfLeft L ++ zfMid L b1 R :: zfRight R }
        (zfMid L b1 R) := by
  unfold zfreeAfter zfLists zfLeft zfMid zfRight
  rcases hgl : L.getLast? with _ | p <;> rcases R with _ | ⟨n, R2⟩ <;>
    simp only [] <;> split_ifs <;> rfl

theorem zfMid_addr (L : List memblock_t) (b1 : memblock_t) (R : List memblock_t) :
    (zfMid L b1 R).addr = zfFreedAddr L b1 := by
  unfold zfMid zfFreedAddr
  rcases hgl : L.getLast? with _ | p <;> rcases R with _ | ⟨n, R2⟩ <;>
    simp only [] <;> split_ifs <;> rfl

theorem zfMid_tag_id (L : List memblock_t) (b1 : memblock_t) (R : List memblock_t)
    (hfree : ∀ x ∈ L.getLast?, x.id = ZONEID) (hbt : b1.tag = TAG_FREE)
    (hbi : b1.id = ZONEID) :
    (zfMid L b1 R).tag = TAG_FREE ∧ (zfMid L b1 R).id = ZONEID := by
  unfold zfMid
  rcases hgl : L.getLast? with _ | p
  · rcases R with _ | ⟨n, R2⟩ <;> dsimp only <;>
      [skip; split_ifs] <;> exact ⟨hbt, hbi⟩
  · have hp : p.id = ZONEID := hfree p (by rw [hgl]; rfl)
    rcases R with _ | ⟨n, R2⟩ <;> dsimp only <;> split_ifs <;>
      exact ⟨by assumption, by assumption⟩

theorem zfLeft_sub (L : List memblock_t) : ∀ x ∈ zfLeft L, x ∈ L := by
  unfold zfLeft
  rcases hgl : L.getLast? with _ | p
  · exact fun x hx => hx
  · dsimp only
    split_ifs
    · exact fun x hx => List.mem_of_mem_dropLast hx
    · exact fun x hx => hx

theorem zfRight_sub (R : List memblock_t) : ∀ x ∈ zfRight R, x ∈ R := by
  unfold zfRight
  rcases R with _ | ⟨n, R2⟩
  · simp
  · dsimp only
    split_ifs
    · exact fun x hx => by simp [hx]
    · exact fun x hx => hx

/-- The block after absorbing a free predecessor (the first merge step of
`Z_Free`). -/
def mpM (L : List memblock_t) (m : memblock_t) : memblock_t :=
  match L.getLast? with
  | some p => if p.tag = TAG_FREE then { p with size := p.size + m.size } else m
  | none => m

/-- Free-list removal of the first merge step of `Z_Free`. -/
def mpZ (z : memzone_t) (L : List memblock_t) : memzone_t :=
  match L.getLast? with
  | some p => if p.tag = TAG_FREE then removeFreeAddr z p.addr else z
  | none => z

/-- The block after absorbing a free successor (the second merge step of
`Z_Free`). -/
def mnM (m : memblock_t) (R : List memblock_t) : memblock_t :=
  match R with
  | n :: _ => if n.tag = TAG_FREE then { m with size := m.size + n.size } else m
  | [] => m

/-- Free-list removal of the second merge step of `Z_Free`. -/
def mnZ (z : memzone_t) (R : List memblock_t) : memzone_t :=
  match R with
  | n :: _ => if n.tag = TAG_FREE then removeFreeAddr z n.addr else z
  | [] => z

theorem zfMid_eq_mn_mp (L : List memblock_t) (m : memblock_t) (R : List memblock_t) :
    zfMid L m R = mnM (mpM L m) R := by
  unfold zfMid mpM mnM
  rcases hgl : L.getLast? with _ | p <;> rcases R with _ | ⟨n, R2⟩ <;> rfl

theorem zfLists_eq_mn_mp (z : memzone_t) (L : List memblock_t) (R : List memblock_t) :
    zfLists z L R = mnZ (mpZ z L) R := by
  unfold zfLists mpZ mnZ
  rcases hgl : L.getLast? with _ | p <;> rcases R with _ | ⟨n, R2⟩ <;> rfl

@[simp] theorem mpZ_used (z : memzone_t) (L : List memblock_t) :
    (mpZ z L).used = z.used := by
  unfold mpZ; rcases L.getLast? with _ | p
  · rfl
  · dsimp only; split_ifs <;> rfl

@[simp] theorem mpZ_mem (z : memzone_t) (L : List memblock_t) :
    (mpZ z L).mem = z.mem := by
  unfold mpZ; rcases L.getLast? with _ | p
  · rfl
  · dsimp only; split_ifs <;> rfl

@[simp] theorem mpZ_nextSegBase (z : memzone_t) (L : List memblock_t) :
    (mpZ z L).nextSegBase = z.nextSegBase := by
  unfold mpZ; rcases L.getLast? with _ | p
  · rfl
  · dsimp only; split_ifs <;> rfl

@[simp] theorem mnZ_used (z : memzone_t) (R : List memblock_t) :
    (mnZ z R).used = z.used := by
  unfold mnZ; rcases R with _ | ⟨n, R2⟩
  · rfl
  · dsimp only; split_ifs <;> rfl

@[simp] theorem mnZ_mem (z : memzone_t) (R : List memblock_t) :
    (mnZ z R).mem = z.mem := by
  unfold mnZ; rcases R with _ | ⟨n, R2⟩
  · rfl
  · dsimp only; split_ifs <;> rfl

@[simp] theorem mnZ_nextSegBase (z : memzone_t) (R : List memblock_t) :
    (mnZ z R).nextSegBase = z.nextSegBase := by
  unfold mnZ; rcases R with _ | ⟨n, R2⟩
  · rfl
  · dsimp only; split_ifs <;> rfl

/-! ## The mid-free invariant

`Z_Free` detaches the freed block from the in-use world, then merges.
`MidInv z L m R` describes the state between those steps: `z` carries the
statistics, free lists and memory; the block list is conceptually
`L ++ m :: R` with `m` the in-flight free block, not yet linked into any
free list. -/

def MidInv (z : memzone_t) (L : List memblock_t) (m : memblock_t)
    (R : List memblock_t) : Prop :=
  List.Chain' SepRel (L ++ m :: R) ∧
  (∀ c ∈ L ++ m :: R, 0 ≤ c.size) ∧
  (∀ c ∈ L ++ m :: R, c.addr + c.size ≤ z.nextSegBase ∧ c.addr < z.nextSegBase) ∧
  (∀ a ∈ zoneFreelistEntries z, ∃ c, (c ∈ L ∨ c ∈ R) ∧ c.addr = a ∧ c.tag = TAG_FREE) ∧
  (∀ c ∈ L ++ m :: R, c.tag = TAG_FREE → c.id = ZONEID) ∧
  (∀ c ∈ L ++ m :: R, c.id = -ZONEID → c.tag = TAG_GENERAL ∧ c.size = 0) ∧
  (∀ c ∈ L ++ m :: R, c.id = ZONEID → 36 ≤ c.size) ∧
  (∀ c ∈ L ++ m :: R, c.tag ≠ TAG_FREE → c.id = ZONEID →
      readInt32 z.mem (c.addr + c.size - 4) = ZONEID) ∧
  List.Chain' notBothFree L ∧
  List.Chain' notBothFree R ∧
  m.tag = TAG_FREE ∧
  m.id = ZONEID ∧
  z.used = inUseSum (L ++ m :: R) + sizeof_memblock * sepCount (L ++ m :: R)

/-! ### Reduction equations for the merge-step functions -/

section MergeEqs

variable {L : List memblock_t} {p m : memblock_t} {z : memzone_t}

theorem zfLeft_none (hgl : L.getLast? = none) : zfLeft L = L := by
  unfold zfLeft; rw [hgl]

theorem zfLeft_keep (hgl : L.getLast? = some p) (hp : p.tag ≠ TAG_FREE) :
    zfLeft L = L := by
  unfold zfLeft; rw [hgl]; dsimp only; rw [if_neg hp]

theorem zfLeft_drop (hgl : L.getLast? = some p) (hp : p.tag = TAG_FREE) :
    zfLeft L = L.dropLast := by
  unfold zfLeft; rw [hgl]; dsimp only; rw [if_pos hp]

theorem mpM_none (hgl : L.getLast? = none) : mpM L m = m := by
  unfold mpM; rw [hgl]

theorem mpM_keep (hgl : L.getLast? = some p) (hp : p.tag ≠ TAG_FREE) :
    mpM L m = m := by
  unfold mpM; rw [hgl]; dsimp only; rw [if_neg hp]

theorem mpM_drop (hgl : L.getLast? = some p) (hp : p.tag = TAG_FREE) :
    mpM L m = { p with size := p.size + m.size } := by
  unfold mpM; rw [hgl]; dsimp only; rw [if_pos hp]

theorem mpZ_none (hgl : L.getLast? = none) : mpZ z L = z := by
  unfold mpZ; rw [hgl]

theorem mpZ_keep (hgl : L.getLast? = some p) (hp : p.tag ≠ TAG_FREE) :
    mpZ z L = z := by
  unfold mpZ; rw [hgl]; dsimp only; rw [if_neg hp]

theorem mpZ_drop (hgl : L.getLast? = some p) (hp : p.tag = TAG_FREE) :
    mpZ z L = removeFreeAddr z p.addr := by
  unfold mpZ; rw [hgl]; dsimp only; rw [if_pos hp]

theorem zfFreedAddr_none (hgl : L.getLast? = none) : zfFreedAddr L m = m.addr := by
  unfold zfFreedAddr; rw [hgl]

theorem zfFreedAddr_keep (hgl : L.getLast? = some p) (hp : p.tag ≠ TAG_FREE) :
    zfFreedAddr L m = m.addr := by
  unfold zfFreedAddr; rw [hgl]; dsimp only; rw [if_neg hp]

theorem zfFreedAddr_drop (hgl : L.getLast? = some p) (hp : p.tag = TAG_FREE) :
    zfFreedAddr L m = p.addr := by
  unfold zfFreedAddr; rw [hgl]; dsimp only; rw [if_pos hp]

theorem zfFreedAddr_retag (L : List memblock_t) (b : memblock_t) (t : memtag_t)
    (i : Int) : zfFreedAddr L { b with tag := t, id := i } = zfFreedAddr L b := by
  unfold zfFreedAddr
  rcases hgl : L.getLast? with _ | p
  · rfl
  · dsimp only

variable {n : memblock_t} {R2 R : List memblock_t}

theorem zfRight_nil : zfRight ([] : List memblock_t) = [] := rfl

theorem zfRight_keep (hn : n.tag ≠ TAG_FREE) : zfRight (n :: R2) = n :: R2 := by
  unfold zfRight; dsimp only; rw [if_neg hn]

theorem zfRight_drop (hn : n.tag = TAG_FREE) : zfRight (n :: R2) = R2 := by
  unfold zfRight; dsimp only; rw [if_pos hn]

theorem mnM_nil : mnM m ([] : List memblock_t) = m := rfl

theorem mnM_keep (hn : n.tag ≠ TAG_FREE) : mnM m (n :: R2) = m := by
  unfold mnM; dsimp only; rw [if_neg hn]

theorem mnM_drop (hn : n.tag = TAG_FREE) :
    mnM m (n :: R2) = { m with size := m.size + n.size } := by
  unfold mnM; dsimp only; rw [if_pos hn]

theorem mnZ_nil : mnZ z ([] : List memblock_t) = z := rfl

theorem mnZ_keep (hn : n.tag ≠ TAG_FREE) : mnZ z (n :: R2) = z := by
  unfold mnZ; dsimp only; rw [if_neg hn]

theorem mnZ_drop (hn : n.tag = TAG_FREE) :
    mnZ z (n :: R2) = removeFreeAddr z n.addr := by
  unfold mnZ; dsimp only; rw [if_pos hn]

end MergeEqs

/-- `ZONEID` and `-ZONEID` are distinct, and a zero-size separator id is
never a real block id. -/
theorem zoneid_ne_neg : (ZONEID : Int) ≠ -ZONEID := by decide

/-- Establishing the mid-free invariant: the state right after `Z_Free`
has validated the header, subtracted the block from `used`, scribbled the
payload with `0xaa`, and re-tagged the block `TAG_FREE`. -/
theorem midInv_init {z : memzone_t} {L : List memblock_t} {b : memblock_t}
    {R : List memblock_t}
    (hinv : ZInv z) (hd : z.blocks = L ++ b :: R)
    (hid : b.id = ZONEID) (htf : b.tag ≠ TAG_FREE) :
    MidInv { z with used := z.used - b.size,
                    mem := lmemset z.mem (b.addr + sizeof_memblock) 0xaa
                             (b.size - sizeof_memblock) }
      L { b with tag := TAG_FREE, id := ZONEID } R := by
  obtain ⟨hchain, hsz, hfresh, hsound, hfid, hsep, hmin, htrash, hnadj, hacct⟩ := hinv
  rw [hd] at hchain hsz hfresh hsound hfid hsep hmin htrash hnadj hacct
  have hpw := chain_sep_pairwise hchain hsz
  have hbmem : b ∈ L ++ b :: R := by simp
  have hmemL : ∀ c ∈ L, c ∈ L ++ b :: R := fun c hc => List.mem_append.2 (Or.inl hc)
  have hmemR : ∀ c ∈ R, c ∈ L ++ b :: R := fun c hc => by simp [hc]
  have hmemcase : ∀ c ∈ L ++ { b with tag := TAG_FREE, id := ZONEID } :: R,
      c = { b with tag := TAG_FREE, id := ZONEID } ∨ c ∈ L ∨ c ∈ R := by
    intro c hc
    rcases List.mem_append.1 hc with h1 | h1
    · exact Or.inr (Or.inl h1)
    · rcases List.mem_cons.1 h1 with h2 | h2
      · exact Or.inl h2
      · exact Or.inr (Or.inr h2)
  refine ⟨?_, ?_, ?_, ?_, ?_, ?_, ?_, ?_, ?_, ?_, rfl, rfl, ?_⟩
  · -- chain of addresses
    obtain ⟨c1, c2, c3, c4⟩ := chain'_decomp hchain
    exact chain'_recomp c1 c2 (fun x hx => c3 x hx) (fun y hy => c4 y hy)
  · -- sizes
    intro c hc
    rcases hmemcase c hc with rfl | h1 | h1
    · exact hsz b hbmem
    · exact hsz c (hmemL c h1)
    · exact hsz c (hmemR c h1)
  · -- fresh bound
    intro c hc
    rcases hmemcase c hc with rfl | h1 | h1
    · exact hfresh b hbmem
    · exact hfresh c (hmemL c h1)
    · exact hfresh c (hmemR c h1)
  · -- free-list soundness
    intro a ha
    obtain ⟨c, hcmem, hca, hcf⟩ := hsound a ha
    rcases List.mem_append.1 hcmem with h1 | h1
    · exact ⟨c, Or.inl h1, hca, hcf⟩
    · rcases List.mem_cons.1 h1 with h2 | h2
      · exact absurd (h2 ▸ hcf) htf
      · exact ⟨c, Or.inr h2, hca, hcf⟩
  · -- free blocks have ZONEID
    intro c hc hcf
    rcases hmemcase c hc with rfl | h1 | h1
    · rfl
    · exact hfid c (hmemL c h1) hcf
    · exact hfid c (hmemR c h1) hcf
  · -- separators
    intro c hc hcid
    rcases hmemcase c hc with rfl | h1 | h1
    · exact absurd hcid zoneid_ne_neg
    · exact hsep c (hmemL c h1) hcid
    · exact hsep c (hmemR c h1) hcid
  · -- minimum size
    intro c hc hcid
    rcases hmemcase c hc with rfl | h1 | h1
    · exact hmin b hbmem hid
    · exact hmin c (hmemL c h1) hcid
    · exact hmin c (hmemR c h1) hcid
  · -- trash sentinels survive the 0xaa scribble
    intro c hc hctf hcid
    rcases hmemcase c hc with rfl | h1 | h1
    · exact absurd rfl hctf
    · have hcs : 36 ≤ c.size := hmin c (hmemL c h1) hcid
      have hrel : SepRel c b := (List.pairwise_append.1 hpw).2.2 c h1 b (by simp)
      have hread : readInt32
          (lmemset z.mem (b.addr + sizeof_memblock) 0xaa (b.size - sizeof_memblock))
          (c.addr + c.size - 4) = readInt32 z.mem (c.addr + c.size - 4) :=
        readInt32_lmemset_out _ _ _ _ _
          (by unfold SepRel at hrel; unfold sizeof_memblock; omega)
      rw [hread]
      exact htrash c (hmemL c h1) hctf hcid
    · have hcs : 36 ≤ c.size := hmin c (hmemR c h1) hcid
      have hrel : SepRel b c :=
        (List.pairwise_cons.1 (List.pairwise_append.1 hpw).2.1).1 c h1
      have hbs : 0 ≤ b.size := hsz b hbmem
      have hread : readInt32
          (lmemset z.mem (b.addr + sizeof_memblock) 0xaa (b.size - sizeof_memblock))
          (c.addr + c.size - 4) = readInt32 z.mem (c.addr + c.size - 4) :=
        readInt32_lmemset_out _ _ _ _ _
          (by unfold SepRel at hrel; unfold sizeof_memblock; omega)
      rw [hread]
      exact htrash c (hmemR c h1) hctf hcid
  · -- adjacent-free chain restricted to L
    exact (chain'_decomp hnadj).1
  · -- adjacent-free chain restricted to R
    exact (chain'_decomp hnadj).2.1
  · -- accounting
    have e1 : inUseSum (L ++ { b with tag := TAG_FREE, id := ZONEID } :: R) =
        inUseSum L + inUseSum R := by
      rw [inUseSum_append]; simp [inUseSum]
    have e2 : sepCount (L ++ { b with tag := TAG_FREE, id := ZONEID } :: R) =
        sepCount L + sepCount R := by
      rw [sepCount_append]; simp [sepCount, zoneid_ne_neg]
    have e3 : inUseSum (L ++ b :: R) = inUseSum L + (b.size + inUseSum R) := by
      rw [inUseSum_append]; simp [inUseSum, htf, hid]
    have e4 : sepCount (L ++ b :: R) = sepCount L + sepCount R := by
      rw [sepCount_append]; simp [sepCount, hid, zoneid_ne_neg]
    rw [e3, e4] at hacct
    dsimp only
    rw [e1, e2]
    unfold sizeof_memblock at hacct ⊢
    omega

/-- First coalescing step of `Z_Free`: absorb a free predecessor.  The
mid-free invariant is preserved; afterwards the block before the
in-flight block (if any) is in use. -/
theorem mergePrev_spec {z : memzone_t} {L : List memblock_t} {m : memblock_t}
    {R : List memblock_t} (h : MidInv z L m R) :
    MidInv (mpZ z L) (zfLeft L) (mpM L m) R ∧
    (∀ x ∈ (zfLeft L).getLast?, x.tag ≠ TAG_FREE) ∧
    (∀ c ∈ L, c.tag ≠ TAG_FREE → c ∈ zfLeft L) ∧
    (∀ c ∈ L, c.id = -ZONEID → c ∈ zfLeft L) ∧
    (mpM L m).addr = zfFreedAddr L m ∧
    (zfLeft L = L ∨ ∃ p L0, L = L0 ++ [p] ∧ p.tag = TAG_FREE ∧ zfLeft L = L0) := by
  obtain ⟨hchain, hsz, hfresh, hsound, hfid, hsep, hmin, htrash, hnbL, hnbR, hmf, hmi, hacct⟩ := h
  rcases hgl : L.getLast? with _ | p
  · -- the freed block is first in the list: its prev is the in-use sentinel
    rw [zfLeft_none hgl, mpM_none hgl, mpZ_none hgl, zfFreedAddr_none hgl]
    refine ⟨⟨hchain, hsz, hfresh, hsound, hfid, hsep, hmin, htrash, hnbL, hnbR,
      hmf, hmi, hacct⟩, ?_, fun c hc _ => hc, fun c hc _ => hc, rfl, Or.inl rfl⟩
    intro x hx
    rw [hgl] at hx
    simp at hx
  · by_cases hpf : p.tag = TAG_FREE
    · -- the predecessor is free: RemoveFree it and merge into it
      obtain ⟨L0, rfl⟩ : ∃ L0, L = L0 ++ [p] :=
        ⟨L.dropLast, (List.dropLast_append_getLast? p hgl).symm⟩
      rw [zfLeft_drop hgl hpf, mpM_drop hgl hpf, mpZ_drop hgl hpf,
          zfFreedAddr_drop hgl hpf, List.dropLast_concat]
      have hassoc : (L0 ++ [p]) ++ m :: R = L0 ++ p :: m :: R := by simp
      rw [hassoc] at hchain hsz hfresh hfid hsep hmin htrash hacct
      obtain ⟨cL0, cRest, cLast, cHead⟩ := chain'_decomp hchain
      obtain ⟨relmR, cR⟩ := List.chain'_cons'.1 cRest
      have relpm : SepRel p m := cHead m rfl
      have hPmem : p ∈ L0 ++ p :: m :: R := by simp
      have hMmem : m ∈ L0 ++ p :: m :: R := by simp
      have hL0mem : ∀ c ∈ L0, c ∈ L0 ++ p :: m :: R := fun c hc => by simp [hc]
      have hRmem : ∀ c ∈ R, c ∈ L0 ++ p :: m :: R := fun c hc => by simp [hc]
      have hpid : p.id = ZONEID := hfid p hPmem hpf
      have hp36 : 36 ≤ p.size := hmin p hPmem hpid
      have hmsz : 0 ≤ m.size := hsz m hMmem
      have hmc : ∀ c ∈ L0 ++ { p with size := p.size + m.size } :: R,
          c = { p with size := p.size + m.size } ∨ c ∈ L0 ∨ c ∈ R := by
        intro c hc
        rcases List.mem_append.1 hc with h1 | h1
        · exact Or.inr (Or.inl h1)
        · rcases List.mem_cons.1 h1 with h2 | h2
          · exact Or.inl h2
          · exact Or.inr (Or.inr h2)
      refine ⟨⟨?_, ?_, ?_, ?_, ?_, ?_, ?_, ?_, ?_, hnbR, hpf, hpid, ?_⟩,
        ?_, ?_, ?_, rfl, Or.inr ⟨p, L0, rfl, hpf, rfl⟩⟩
      · -- address chain
        refine chain'_recomp cL0 cR (fun x hx => cLast x hx) ?_
        intro y hy
        have h1 := relmR y hy
        unfold SepRel at relpm h1 ⊢
        dsimp only
        omega
      · -- sizes
        intro c hc
        rcases hmc c hc with rfl | h1 | h1
        · dsimp only; omega
        · exact hsz c (hL0mem c h1)
        · exact hsz c (hRmem c h1)
      · -- fresh bound
        simp only [removeFreeAddr_nextSegBase]
        intro c hc
        rcases hmc c hc with rfl | h1 | h1
        · have hfm := hfresh m hMmem
          have hfp := hfresh p hPmem
          unfold SepRel at relpm
          dsimp only
          omega
        · exact hfresh c (hL0mem c h1)
        · exact hfresh c (hRmem c h1)
      · -- free-list soundness
        intro a ha
        obtain ⟨haz, hane⟩ := (entries_removeFreeAddr z p.addr a).1 ha
        obtain ⟨c, hc, hca, hcf⟩ := hsound a haz
        rcases hc with h1 | h1
        · rcases List.mem_append.1 h1 with h2 | h2
          · exact ⟨c, Or.inl h2, hca, hcf⟩
          · rcases List.mem_cons.1 h2 with h3 | h3
            · subst h3; exact absurd hca.symm hane
            · simp at h3
        · exact ⟨c, Or.inr h1, hca, hcf⟩
      · -- free blocks have ZONEID
        intro c hc hcf
        rcases hmc c hc with rfl | h1 | h1
        · exact hpid
        · exact hfid c (hL0mem c h1) hcf
        · exact hfid c (hRmem c h1) hcf
      · -- separators
        intro c hc hcid
        rcases hmc c hc with rfl | h1 | h1
        · exfalso
          have h2 : p.id = -ZONEID := hcid
          rw [hpid] at h2
          exact zoneid_ne_neg h2
        · exact hsep c (hL0mem c h1) hcid
        · exact hsep c (hRmem c h1) hcid
      · -- minimum size
        intro c hc hcid
        rcases hmc c hc with rfl | h1 | h1
        · dsimp only; omega
        · exact hmin c (hL0mem c h1) hcid
        · exact hmin c (hRmem c h1) hcid
      · -- trash sentinels
        simp only [removeFreeAddr_mem]
        intro c hc hctf hcid
        rcases hmc c hc with rfl | h1 | h1
        · exact absurd hpf hctf
        · exact htrash c (hL0mem c h1) hctf hcid
        · exact htrash c (hRmem c h1) hctf hcid
      · -- adjacent-free chain on the left part
        exact (chain'_decomp (hnbL : List.Chain' notBothFree (L0 ++ p :: []))).1
      · -- accounting
        simp only [removeFreeAddr_used]
        have e1 : inUseSum (L0 ++ p :: m :: R) = inUseSum L0 + inUseSum R := by
          rw [inUseSum_append]; simp [inUseSum, hpf, hmf]
        have e2 : sepCount (L0 ++ p :: m :: R) = sepCount L0 + sepCount R := by
          rw [sepCount_append]; simp [sepCount, hpid, hmi, zoneid_ne_neg]
        have e3 : inUseSum (L0 ++ { p with size := p.size + m.size } :: R) =
            inUseSum L0 + inUseSum R := by
          rw [inUseSum_append]; simp [inUseSum, hpf]
        have e4 : sepCount (L0 ++ { p with size := p.size + m.size } :: R) =
            sepCount L0 + sepCount R := by
          rw [sepCount_append]; simp [sepCount, hpid, zoneid_ne_neg]
        rw [e1, e2] at hacct
        rw [e3, e4]
        exact hacct
      · -- boundary: the new last block on the left is in use
        intro x hx
        rcases hq : L0.getLast? with _ | q
        · rw [hq] at hx; simp at hx
        · rw [hq] at hx
          simp only [Option.mem_def, Option.some.injEq] at hx
          subst hx
          have hrel := (chain'_decomp (hnbL : List.Chain' notBothFree (L0 ++ p :: []))).2.2.1
          intro hxf
          exact hrel q (by rw [hq]; rfl) ⟨hxf, hpf⟩
      · -- in-use blocks of L are kept
        intro c hc hcf
        rcases List.mem_append.1 hc with h1 | h1
        · exact h1
        · simp only [List.mem_singleton] at h1
          exact absurd (h1 ▸ hpf) hcf
      · -- separators of L are kept
        intro c hc hcid
        rcases List.mem_append.1 hc with h1 | h1
        · exact h1
        · simp only [List.mem_singleton] at h1
          subst h1
          rw [hpid] at hcid
          exact absurd hcid zoneid_ne_neg
    · -- the predecessor is in use: nothing merges
      rw [zfLeft_keep hgl hpf, mpM_keep hgl hpf, mpZ_keep hgl hpf,
          zfFreedAddr_keep hgl hpf]
      refine ⟨⟨hchain, hsz, hfresh, hsound, hfid, hsep, hmin, htrash, hnbL, hnbR,
        hmf, hmi, hacct⟩, ?_, fun c hc _ => hc, fun c hc _ => hc, rfl, Or.inl rfl⟩
      intro x hx
      rw [hgl] at hx
      simp only [Option.mem_def, Option.some.injEq] at hx
      subst hx
      exact hpf

/-- Second coalescing step of `Z_Free`: absorb a free successor. -/
theorem mergeNext_spec {z : memzone_t} {L : List memblock_t} {m : memblock_t}
    {R : List memblock_t} (h : MidInv z L m R) :
    MidInv (mnZ z R) L (mnM m R) (zfRight R) ∧
    (∀ y ∈ (zfRight R).head?, y.tag ≠ TAG_FREE) ∧
    (∀ c ∈ R, c.tag ≠ TAG_FREE → c ∈ zfRight R) ∧
    (∀ c ∈ R, c.id = -ZONEID → c ∈ zfRight R) ∧
    (mnM m R).addr = m.addr ∧
    ((zfRight R = R ∧ ∀ y ∈ R.head?, y.tag ≠ TAG_FREE) ∨
      ∃ n R2, R = n :: R2 ∧ n.tag = TAG_FREE ∧ zfRight R = R2) := by
  obtain ⟨hchain, hsz, hfresh, hsound, hfid, hsep, hmin, htrash, hnbL, hnbR, hmf, hmi, hacct⟩ := h
  rcases R with _ | ⟨n, R2⟩
  · -- the freed block is last in the list: its next is the in-use sentinel
    rw [zfRight_nil, mnM_nil, mnZ_nil]
    exact ⟨⟨hchain, hsz, hfresh, hsound, hfid, hsep, hmin, htrash, hnbL, hnbR,
      hmf, hmi, hacct⟩, by simp, by simp, by simp, rfl,
      Or.inl ⟨rfl, by simp⟩⟩
  · by_cases hnf : n.tag = TAG_FREE
    · -- the successor is free: RemoveFree it and absorb it
      rw [zfRight_drop hnf, mnM_drop hnf, mnZ_drop hnf]
      obtain ⟨cL, cRest, cLastL, cHeadm⟩ := chain'_decomp hchain
      obtain ⟨relnR2, cR2⟩ := List.chain'_cons'.1 cRest
      have relmn : SepRel m n := cHeadm n rfl
      have hNmem : n ∈ L ++ m :: n :: R2 := by simp
      have hMmem : m ∈ L ++ m :: n :: R2 := by simp
      have hLmem : ∀ c ∈ L, c ∈ L ++ m :: n :: R2 := fun c hc => by simp [hc]
      have hR2mem : ∀ c ∈ R2, c ∈ L ++ m :: n :: R2 := fun c hc => by simp [hc]
      have hnid : n.id = ZONEID := hfid n hNmem hnf
      have hn36 : 36 ≤ n.size := hmin n hNmem hnid
      have hmsz : 0 ≤ m.size := hsz m hMmem
      have hmc : ∀ c ∈ L ++ { m with size := m.size + n.size } :: R2,
          c = { m with size := m.size + n.size } ∨ c ∈ L ∨ c ∈ R2 := by
        intro c hc
        rcases List.mem_append.1 hc with h1 | h1
        · exact Or.inr (Or.inl h1)
        · rcases List.mem_cons.1 h1 with h2 | h2
          · exact Or.inl h2
          · exact Or.inr (Or.inr h2)
      refine ⟨⟨?_, ?_, ?_, ?_, ?_, ?_, ?_, ?_, hnbL, ?_, hmf, hmi, ?_⟩,
        ?_, ?_, ?_, rfl, Or.inr ⟨n, R2, rfl, hnf, rfl⟩⟩
      · -- address chain
        refine chain'_recomp cL cR2 (fun x hx => cLastL x hx) ?_
        intro y hy
        have h1 := relnR2 y hy
        unfold SepRel at relmn h1 ⊢
        dsimp only
        omega
      · -- sizes
        intro c hc
        rcases hmc c hc with rfl | h1 | h1
        · dsimp only
          have := hsz n hNmem
          omega
        · exact hsz c (hLmem c h1)
        · exact hsz c (hR2mem c h1)
      · -- fresh bound
        simp only [removeFreeAddr_nextSegBase]
        intro c hc
        rcases hmc c hc with rfl | h1 | h1
        · have hfn := hfresh n hNmem
          have hfm := hfresh m hMmem
          unfold SepRel at relmn
          dsimp only
          omega
        · exact hfresh c (hLmem c h1)
        · exact hfresh c (hR2mem c h1)
      · -- free-list soundness
        intro a ha
        obtain ⟨haz, hane⟩ := (entries_removeFreeAddr z n.addr a).1 ha
        obtain ⟨c, hc, hca, hcf⟩ := hsound a haz
        rcases hc with h1 | h1
        · exact ⟨c, Or.inl h1, hca, hcf⟩
        · rcases List.mem_cons.1 h1 with h3 | h3
          · subst h3; exact absurd hca.symm hane
          · exact ⟨c, Or.inr h3, hca, hcf⟩
      · -- free blocks have ZONEID
        intro c hc hcf
        rcases hmc c hc with rfl | h1 | h1
        · exact hmi
        · exact hfid c (hLmem c h1) hcf
        · exact hfid c (hR2mem c h1) hcf
      · -- separators
        intro c hc hcid
        rcases hmc c hc with rfl | h1 | h1
        · exfalso
          have h2 : m.id = -ZONEID := hcid
          rw [hmi] at h2
          exact zoneid_ne_neg h2
        · exact hsep c (hLmem c h1) hcid
        · exact hsep c (hR2mem c h1) hcid
      · -- minimum size
        intro c hc hcid
        rcases hmc c hc with rfl | h1 | h1
        · dsimp only
          have := hmin m hMmem hmi
          have := hsz n hNmem
          omega
        · exact hmin c (hLmem c h1) hcid
        · exact hmin c (hR2mem c h1) hcid
      · -- trash sentinels
        simp only [removeFreeAddr_mem]
        intro c hc hctf hcid
        rcases hmc c hc with rfl | h1 | h1
        · exact absurd hmf hctf
        · exact htrash c (hLmem c h1) hctf hcid
        · exact htrash c (hR2mem c h1) hctf hcid
      · -- adjacent-free chain on the right part
        exact (List.chain'_cons'.1 hnbR).2
      · -- accounting
        simp only [removeFreeAddr_used]
        have e1 : inUseSum (L ++ m :: n :: R2) = inUseSum L + inUseSum R2 := by
          rw [inUseSum_append]; simp [inUseSum, hmf, hnf]
        have e2 : sepCount (L ++ m :: n :: R2) = sepCount L + sepCount R2 := by
          rw [sepCount_append]; simp [sepCount, hmi, hnid, zoneid_ne_neg]
        have e3 : inUseSum (L ++ { m with size := m.size + n.size } :: R2) =
            inUseSum L + inUseSum R2 := by
          rw [inUseSum_append]; simp [inUseSum, hmf]
        have e4 : sepCount (L ++ { m with size := m.size + n.size } :: R2) =
            sepCount L + sepCount R2 := by
          rw [sepCount_append]; simp [sepCount, hmi, zoneid_ne_neg]
        rw [e1, e2] at hacct
        rw [e3, e4]
        exact hacct
      · -- boundary: the new first block on the right is in use
        intro y hy
        obtain ⟨relny, _⟩ := List.chain'_cons'.1 hnbR
        intro hyf
        exact relny y hy ⟨hnf, hyf⟩
      · -- in-use blocks of R are kept
        intro c hc hcf
        rcases List.mem_cons.1 hc with h1 | h1
        · exact absurd (h1 ▸ hnf) hcf
        · exact h1
      · -- separators of R are kept
        intro c hc hcid
        rcases List.mem_cons.1 hc with h1 | h1
        · subst h1
          rw [hnid] at hcid
          exact absurd hcid zoneid_ne_neg
        · exact h1
    · -- the successor is in use: nothing merges
      rw [zfRight_keep hnf, mnM_keep hnf, mnZ_keep hnf]
      refine ⟨⟨hchain, hsz, hfresh, hsound, hfid, hsep, hmin, htrash, hnbL, hnbR,
        hmf, hmi, hacct⟩, ?_, fun c hc _ => hc, fun c hc _ => hc, rfl,
        Or.inl ⟨rfl, ?_⟩⟩ <;>
      · intro y hy
        simp only [List.head?_cons, Option.mem_def, Option.some.injEq] at hy
        subst hy
        exact hnf

/-- Committing the coalesced block: re-link the block list and
`InsertFree` the result re-establishes the full zone invariant. -/
theorem commit_spec {z : memzone_t} {L : List memblock_t} {m : memblock_t}
    {R : List memblock_t} (h : MidInv z L m R)
    (hL : ∀ x ∈ L.getLast?, x.tag ≠ TAG_FREE)
    (hR : ∀ y ∈ R.head?, y.tag ≠ TAG_FREE) :
    ZInv (insertFree { z with blocks := L ++ m :: R } m) := by
  obtain ⟨hchain, hsz, hfresh, hsound, hfid, hsep, hmin, htrash, hnbL, hnbR, hmf, hmi, hacct⟩ := h
  refine ⟨?_, ?_, ?_, ?_, ?_, ?_, ?_, ?_, ?_, ?_⟩ <;>
    simp only [insertFree_blocks, insertFree_used, insertFree_mem,
      insertFree_nextSegBase]
  · exact hchain
  · exact hsz
  · exact hfresh
  · intro a ha
    rcases (entries_insertFree _ m a).1 ha with h1 | h1
    · exact ⟨m, by simp, h1.symm, hmf⟩
    · obtain ⟨c, hc, hca, hcf⟩ := hsound a h1
      rcases hc with h2 | h2
      · exact ⟨c, by simp [h2], hca, hcf⟩
      · exact ⟨c, by simp [h2], hca, hcf⟩
  · exact hfid
  · exact hsep
  · exact hmin
  · exact htrash
  · refine chain'_recomp hnbL hnbR ?_ ?_
    · exact fun x hx hand => hL x hx hand.1
    · exact fun y hy hand => hR y hy hand.2
  · exact hacct

/-- Forward evaluation of `zfreeCore` when every header check passes. -/
theorem zfreeCore_ok_eq {z : memzone_t} {ptr : Int} {L : List memblock_t}
    {b : memblock_t} {R : List memblock_t}
    (hsp : splitAtAddr (ptr - sizeof_memblock) z.blocks = some (L, b, R))
    (h1 : b.id = ZONEID) (h2 : b.tag ≠ TAG_FREE) (h3 : b.tag ≠ TAG_STATIC)
    (h4 : readInt32 z.mem (b.addr + b.size - 4) = ZONEID) :
    zfreeCore z ptr = .ok ()
      (zfreeAfter
        { z with used := z.used - b.size,
                 mem := lmemset z.mem (b.addr + sizeof_memblock) 0xaa
                          (b.size - sizeof_memblock) }
        L { b with tag := TAG_FREE, id := ZONEID } R) := by
  unfold zfreeCore
  rw [hsp]
  dsimp only
  rw [if_neg (by simp [h1]), if_neg h2, if_neg h3, if_neg (by simp [h4])]

/-- The complete description of a successful `Z_Free` of the in-use block
`b` located at `L ++ b :: R` in a zone satisfying the invariant. -/
theorem zfree_master {z : memzone_t} {L : List memblock_t} {b : memblock_t}
    {R : List memblock_t}
    (hinv : ZInv z) (hd : z.blocks = L ++ b :: R)
    (hid : b.id = ZONEID) (htf : b.tag ≠ TAG_FREE) (hts : b.tag ≠ TAG_STATIC) :
    ∃ z2, zfreeCore z (b.addr + sizeof_memblock) = .ok () z2 ∧
      z2.blocks =
        zfLeft L ++ zfMid L { b with tag := TAG_FREE, id := ZONEID } R :: zfRight R ∧
      (zfMid L { b with tag := TAG_FREE, id := ZONEID } R).addr = zfFreedAddr L b ∧
      z2.used = z.used - b.size ∧
      (∀ c ∈ z.blocks, c.id = -ZONEID → c ∈ z2.blocks) ∧
      (∀ c ∈ z.blocks, c.tag ≠ TAG_FREE → c ≠ b → c ∈ z2.blocks) ∧
      (zfLeft L = L ∨ ∃ p L0, L = L0 ++ [p] ∧ p.tag = TAG_FREE ∧ zfLeft L = L0) ∧
      ((zfRight R = R ∧ ∀ y ∈ R.head?, y.tag ≠ TAG_FREE) ∨
        ∃ n R2, R = n :: R2 ∧ n.tag = TAG_FREE ∧ zfRight R = R2) ∧
      ZInv z2 := by
  obtain ⟨hchain0, hsz0, _, _, _, hsep0, _, htrash0, _, _⟩ := id hinv
  have hbmem : b ∈ z.blocks := by rw [hd]; simp
  have hsp : splitAtAddr b.addr z.blocks = some (L, b, R) :=
    splitAtAddr_of_decomp hchain0 hsz0 hd
  have h4 : readInt32 z.mem (b.addr + b.size - 4) = ZONEID :=
    htrash0 b hbmem htf hid
  have heq := zfreeCore_ok_eq
    (by rw [show b.addr + sizeof_memblock - sizeof_memblock = b.addr from by ring]
        exact hsp) hid htf hts h4
  have hmid := midInv_init hinv hd hid htf
  obtain ⟨hmid1, hbl, hpresL, hpresLsep, haddr1, hshapeL⟩ := mergePrev_spec hmid
  obtain ⟨hmid2, hbr, hpresR, hpresRsep, haddr2, hshapeR⟩ := mergeNext_spec hmid1
  have hz2inv := commit_spec hmid2 hbl hbr
  refine ⟨insertFree
      { mnZ (mpZ { z with used := z.used - b.size,
                          mem := lmemset z.mem (b.addr + sizeof_memblock) 0xaa
                                   (b.size - sizeof_memblock) } L) R with
        blocks := zfLeft L ++
          mnM (mpM L { b with tag := TAG_FREE, id := ZONEID }) R :: zfRight R }
      (mnM (mpM L { b with tag := TAG_FREE, id := ZONEID }) R),
    ?_, ?_, ?_, ?_, ?_, ?_, hshapeL, hshapeR, hz2inv⟩
  · -- evaluation of zfreeCore
    rw [heq, zfreeAfter_eq, zfLists_eq_mn_mp, zfMid_eq_mn_mp]
  · -- blocks of the result
    simp only [insertFree_blocks]
    rw [zfMid_eq_mn_mp]
  · -- the coalesced block sits at the walk-resume address
    rw [zfMid_eq_mn_mp, haddr2, haddr1, zfFreedAddr_retag]
  · -- used accounting
    simp only [insertFree_used, mnZ_used, mpZ_used]
  · -- separators survive
    intro c hc hcid
    have hctag : c.tag = TAG_GENERAL := (hsep0 c hc hcid).1
    simp only [insertFree_blocks]
    rw [hd] at hc
    rcases List.mem_append.1 hc with h1 | h1
    · exact List.mem_append.2 (Or.inl (hpresLsep c h1 hcid))
    · rcases List.mem_cons.1 h1 with h2 | h2
      · exfalso; rw [h2, hid] at hcid; exact zoneid_ne_neg hcid
      · have hmem2 : c ∈ zfRight R := hpresRsep c h2 hcid
        simp [hmem2]
  · -- other in-use blocks survive
    intro c hc hctf hcne
    simp only [insertFree_blocks]
    rw [hd] at hc
    rcases List.mem_append.1 hc with h1 | h1
    · exact List.mem_append.2 (Or.inl (hpresL c h1 hctf))
    · rcases List.mem_cons.1 h1 with h2 | h2
      · exact absurd h2 hcne
      · have hmem2 : c ∈ zfRight R := hpresR c h2 hctf
        simp [hmem2]

/-! ## The allocation path -/

/-- Blocks with equal addresses in a pairwise-separated decomposition are
equal. -/
theorem addr_eq_of_decomp {l : List memblock_t} (hpw : l.Pairwise SepRel)
    {L : List memblock_t} {b : memblock_t} {R : List memblock_t}
    (hd : l = L ++ b :: R) {c : memblock_t} (hc : c ∈ l) (ha : c.addr = b.addr) :
    c = b := by
  subst hd
  rcases List.mem_append.1 hc with h1 | h1
  · have := (List.pairwise_append.1 hpw).2.2 c h1 b (by simp)
    unfold SepRel at this
    omega
  · rcases List.mem_cons.1 h1 with h2 | h2
    · exact h2
    · have := (List.pairwise_cons.1 (List.pairwise_append.1 hpw).2.1).1 c h2
      unfold SepRel at this
      omega

/-- Every candidate the segregated search walks is a free-list entry. -/
theorem searchCands_sub (z : memzone_t) (size : Int) :
    ∀ a ∈ searchCands z size, a ∈ zoneFreelistEntries z := by
  intro a ha
  unfold searchCands at ha
  unfold zoneFreelistEntries
  split_ifs at ha <;> simp only [List.mem_append, List.nil_append] at ha ⊢ <;> tauto

/-- `RemoveFree` keeps the zone invariant. -/
theorem ZInv_removeFreeAddr {z : memzone_t} (hinv : ZInv z) (a : Int) :
    ZInv (removeFreeAddr z a) := by
  obtain ⟨h1, h2, h3, h4, h5, h6, h7, h8, h9, h10⟩ := hinv
  refine ⟨h1, h2, h3, ?_, h5, h6, h7, h8, h9, h10⟩
  intro x hx
  exact h4 x ((entries_removeFreeAddr z a x).1 hx).1

/-- `NewBlock` grows the zone with a separator and one big free block,
keeping the zone invariant. -/
theorem NewBlock_spec {z : memzone_t} (size : Int) (hinv : ZInv z)
    (hsz : 36 ≤ size) :
    ∃ b zg, NewBlock z size = (b.addr, zg) ∧
      zg.blocks = (z.blocks ++
          [{ addr := z.nextSegBase, size := 0, tag := TAG_GENERAL, id := -ZONEID }]) ++
        b :: [] ∧
      b.tag = TAG_FREE ∧ b.id = ZONEID ∧ size ≤ b.size ∧ ZInv zg ∧
      zg.used = z.used + sizeof_memblock ∧
      sepCount zg.blocks = sepCount z.blocks + 1 ∧
      inUseSum zg.blocks = inUseSum z.blocks ∧
      zg.mem = z.mem := by
  obtain ⟨hchain, hsizes, hfresh, hsound, hfid, hsep, hmin, htrash, hnadj, hacct⟩ := hinv
  have hpad : size ≤ PAD size (2 ^ 21) := le_PAD size _ (by norm_num)
  have hlist : z.blocks ++
      [({ addr := z.nextSegBase, size := 0, tag := TAG_GENERAL, id := -ZONEID } : memblock_t),
       { addr := z.nextSegBase + sizeof_memblock, size := PAD size (2 ^ 21),
         tag := TAG_FREE, id := ZONEID }] =
      (z.blocks ++
        [{ addr := z.nextSegBase, size := 0, tag := TAG_GENERAL, id := -ZONEID }]) ++
      { addr := z.nextSegBase + sizeof_memblock, size := PAD size (2 ^ 21),
        tag := TAG_FREE, id := ZONEID } :: [] := by simp
  have hmemcase : ∀ c ∈ z.blocks ++
      [({ addr := z.nextSegBase, size := 0, tag := TAG_GENERAL, id := -ZONEID } : memblock_t),
       { addr := z.nextSegBase + sizeof_memblock, size := PAD size (2 ^ 21),
         tag := TAG_FREE, id := ZONEID }],
      c ∈ z.blocks ∨
        c = { addr := z.nextSegBase, size := 0, tag := TAG_GENERAL, id := -ZONEID } ∨
        c = { addr := z.nextSegBase + sizeof_memblock, size := PAD size (2 ^ 21),
              tag := TAG_FREE, id := ZONEID } := by
    intro c hc
    rcases List.mem_append.1 hc with h1 | h1
    · exact Or.inl h1
    · rcases List.mem_cons.1 h1 with h2 | h2
      · exact Or.inr (Or.inl h2)
      · exact Or.inr (Or.inr (by simpa using h2))
  refine ⟨{ addr := z.nextSegBase + sizeof_memblock, size := PAD size (2 ^ 21),
            tag := TAG_FREE, id := ZONEID }, _, rfl,
    by rw [insertFree_blocks, hlist], rfl, rfl, by dsimp only; omega, ?_, ?_, ?_, ?_, by simp⟩
  · -- the invariant for the grown zone
    refine ⟨?_, ?_, ?_, ?_, ?_, ?_, ?_, ?_, ?_, ?_⟩ <;>
      simp only [insertFree_blocks, insertFree_used, insertFree_mem,
        insertFree_nextSegBase]
    · -- chain
      rw [List.chain'_append]
      refine ⟨hchain, List.chain'_pair.2 ?_, ?_⟩
      · simp only [SepRel, sizeof_memblock]
        omega
      · intro x hx y hy
        have hxm : x ∈ z.blocks := List.mem_of_mem_getLast? hx
        have hxf := hfresh x hxm
        simp only [List.head?_cons, Option.mem_def, Option.some.injEq] at hy
        subst hy
        exact ⟨hxf.1, hxf.2⟩
    · -- sizes
      intro c hc
      rcases hmemcase c hc with h1 | rfl | rfl
      · exact hsizes c h1
      · dsimp only; omega
      · dsimp only; omega
    · -- fresh bound
      intro c hc
      rcases hmemcase c hc with h1 | rfl | rfl
      · have := hfresh c h1
        simp only [sizeof_memblock]
        omega
      · simp only [sizeof_memblock]
        omega
      · simp only [sizeof_memblock]
        omega
    · -- free-list soundness
      intro a ha
      rcases (entries_insertFree _ _ a).1 ha with h1 | h1
      · exact ⟨{ addr := z.nextSegBase + sizeof_memblock, size := PAD size (2 ^ 21),
                 tag := TAG_FREE, id := ZONEID }, by simp, h1.symm, rfl⟩
      · obtain ⟨c, hcmem, hca, hcf⟩ := hsound a h1
        exact ⟨c, by simp [hcmem], hca, hcf⟩
    · -- free blocks have ZONEID
      intro c hc hcf
      rcases hmemcase c hc with h1 | rfl | rfl
      · exact hfid c h1 hcf
      · simp at hcf
      · rfl
    · -- separators
      intro c hc hcid
      rcases hmemcase c hc with h1 | rfl | rfl
      · exact hsep c h1 hcid
      · exact ⟨rfl, rfl⟩
      · exact absurd hcid zoneid_ne_neg
    · -- minimum size
      intro c hc hcid
      rcases hmemcase c hc with h1 | rfl | rfl
      · exact hmin c h1 hcid
      · exfalso
        have h2 : (-ZONEID : Int) = ZONEID := hcid
        exact zoneid_ne_neg h2.symm
      · dsimp only; omega
    · -- trash sentinels (sep has id -ZONEID, blk is free, others as before)
      intro c hc hctf hcid
      rcases hmemcase c hc with h1 | rfl | rfl
      · exact htrash c h1 hctf hcid
      · exfalso
        have h2 : (-ZONEID : Int) = ZONEID := hcid
        exact zoneid_ne_neg h2.symm
      · exact absurd rfl hctf
    · -- adjacent-free chain
      rw [List.chain'_append]
      refine ⟨hnadj, List.chain'_pair.2 (by simp [notBothFree]), ?_⟩
      intro x hx y hy
      simp only [List.head?_cons, Option.mem_def, Option.some.injEq] at hy
      subst hy
      intro hand
      simp at hand
    · -- accounting
      have e1 : inUseSum (z.blocks ++
          [({ addr := z.nextSegBase, size := 0, tag := TAG_GENERAL, id := -ZONEID } : memblock_t),
           { addr := z.nextSegBase + sizeof_memblock, size := PAD size (2 ^ 21),
             tag := TAG_FREE, id := ZONEID }]) = inUseSum z.blocks := by
        rw [inUseSum_append]; simp [inUseSum, zoneid_ne_neg]
      have e2 : sepCount (z.blocks ++
          [({ addr := z.nextSegBase, size := 0, tag := TAG_GENERAL, id := -ZONEID } : memblock_t),
           { addr := z.nextSegBase + sizeof_memblock, size := PAD size (2 ^ 21),
             tag := TAG_FREE, id := ZONEID }]) = sepCount z.blocks + 1 := by
        rw [sepCount_append]; simp [sepCount, zoneid_ne_neg]
      rw [e1, e2]
      unfold sizeof_memblock at hacct ⊢
      omega
  · -- used
    simp
  · -- separator count
    rw [insertFree_blocks, sepCount_append]
    simp [sepCount, zoneid_ne_neg]
  · -- in-use sum unchanged
    rw [insertFree_blocks, inUseSum_append]
    simp [inUseSum, zoneid_ne_neg]

/-- `SearchFree` always yields a free block of sufficient size, growing
the zone if and only if every candidate list is exhausted. -/
theorem SearchFree_spec {z : memzone_t} (size : Int) (hinv : ZInv z)
    (hsz : 36 ≤ size) :
    ∃ L b R, (SearchFree z size).1 = b.addr ∧
      (SearchFree z size).2.blocks = L ++ b :: R ∧
      b.tag = TAG_FREE ∧ b.id = ZONEID ∧ size ≤ b.size ∧
      ZInv (SearchFree z size).2 ∧
      ((SearchFree z size).2 = z ∨
        ((SearchFree z size).2.used = z.used + sizeof_memblock ∧
         sepCount (SearchFree z size).2.blocks = sepCount z.blocks + 1 ∧
         inUseSum (SearchFree z size).2.blocks = inUseSum z.blocks ∧
         (SearchFree z size).2.mem = z.mem)) := by
  rcases hfind : (searchCands z size).find? (fits z size) with _ | a
  · -- every list exhausted: grow
    have hres : SearchFree z size = NewBlock z size := by
      unfold SearchFree; rw [hfind]
    obtain ⟨b, zg, hnb, hblocks, hbt, hbi, hble, hzinv, hused, hsc, hius, hmem⟩ :=
      NewBlock_spec size hinv hsz
    rw [hres, hnb]
    exact ⟨_, b, [], rfl, hblocks, hbt, hbi, hble, hzinv,
      Or.inr ⟨hused, hsc, hius, hmem⟩⟩
  · -- found a candidate
    have hres : SearchFree z size = (a, z) := by
      unfold SearchFree; rw [hfind]
    have hfits : fits z size a = true := List.find?_some hfind
    unfold fits at hfits
    rcases hsp2 : splitAtAddr a z.blocks with _ | r
    · rw [hsp2] at hfits; simp at hfits
    · obtain ⟨L, b, R⟩ := r
      rw [hsp2] at hfits
      simp only [decide_eq_true_eq] at hfits
      obtain ⟨hd, hba, hdist⟩ := splitAtAddr_some hsp2
      obtain ⟨hchain, hsizes, _, hsound, hfid, _, _, _, _, _⟩ := id hinv
      have hmema : a ∈ zoneFreelistEntries z :=
        searchCands_sub z size a (List.mem_of_find?_eq_some hfind)
      obtain ⟨c, hcmem, hca, hcf⟩ := hsound a hmema
      have hcb : c = b :=
        addr_eq_of_decomp (chain_sep_pairwise hchain hsizes) hd hcmem (by rw [hca, hba])
      have hbf : b.tag = TAG_FREE := hcb ▸ hcf
      rw [hres]
      exact ⟨L, b, R, hba.symm, hd, hbf, hfid b (hd ▸ by simp) hbf, hfits,
        hinv, Or.inl rfl⟩

/-- `ZONEID` fits the 4-byte trash store. -/
theorem zoneid_toNat_lt : ZONEID.toNat < 4294967296 := by decide

/-- Reading back the trash sentinel just written. -/
theorem readInt32_trash (m : Int → Nat) (o : Int) :
    readInt32 (writeInt32 m o ZONEID.toNat) o = ZONEID := by
  rw [readInt32_writeInt32_self m o ZONEID.toNat zoneid_toNat_lt]
  decide

/-- The zone produced by the splitting branch of `Z_TagMalloc` (the code
after `RemoveFree(base)` when `extra >= minfragment`), written out as a
function of the located decomposition. -/
def allocSplitZone (z1 : memzone_t) (L : List memblock_t) (b : memblock_t)
    (R : List memblock_t) (s2 : Int) (tag : memtag_t) : memzone_t :=
  let frag : memblock_t :=
    { addr := b.addr + s2, size := b.size - s2, tag := TAG_FREE, id := ZONEID }
  let b2 : memblock_t := { b with size := s2, tag := tag, id := ZONEID }
  let z3 := insertFree { z1 with blocks := L ++ b2 :: frag :: R, used := z1.used + s2 } frag
  { z3 with mem := writeInt32 z3.mem (b.addr + s2 - 4) ZONEID.toNat }

/-- The zone produced by the non-splitting branch of `Z_TagMalloc`. -/
def allocKeepZone (z1 : memzone_t) (L : List memblock_t) (b : memblock_t)
    (R : List memblock_t) (tag : memtag_t) : memzone_t :=
  let b2 : memblock_t := { b with tag := tag, id := ZONEID }
  { z1 with blocks := L ++ b2 :: R, used := z1.used + b.size,
            mem := writeInt32 z1.mem (b.addr + b.size - 4) ZONEID.toNat }

/-- Committing an allocation that splits the chosen free block: the block
is trimmed to `s2` bytes and re-tagged, the remainder becomes a free
fragment, `used` grows by `s2`, and the trash sentinel is written. -/
theorem alloc_commit_split {z1 : memzone_t} {L : List memblock_t} {b : memblock_t}
    {R : List memblock_t} {s2 : Int} (tag : memtag_t)
    (hinv : ZInv z1) (hd : z1.blocks = L ++ b :: R) (hbt : b.tag = TAG_FREE)
    (hbi : b.id = ZONEID) (htag : tag ≠ TAG_FREE)
    (hbrem : ∀ a ∈ zoneFreelistEntries z1, a ≠ b.addr)
    (h52 : 52 ≤ s2) (hfit : s2 ≤ b.size) (hx : minfragment ≤ b.size - s2) :
    ZInv (allocSplitZone z1 L b R s2 tag) ∧
    (allocSplitZone z1 L b R s2 tag).blocks =
      L ++ ({ b with size := s2, tag := tag, id := ZONEID } : memblock_t) ::
        ({ addr := b.addr + s2, size := b.size - s2, tag := TAG_FREE, id := ZONEID } : memblock_t) :: R ∧
    (allocSplitZone z1 L b R s2 tag).used = z1.used + s2 ∧
    sepCount (allocSplitZone z1 L b R s2 tag).blocks = sepCount z1.blocks := by
  obtain ⟨hchain, hsizes, hfresh, hsound, hfid, hsep, hmin, htrash, hnadj, hacct⟩ := hinv
  rw [hd] at hchain hsizes hfresh hfid hsep hmin htrash hnadj hacct
  have hpw := chain_sep_pairwise hchain hsizes
  have hbmem : b ∈ L ++ b :: R := by simp
  have hmemL : ∀ c ∈ L, c ∈ L ++ b :: R := fun c hc => by simp [hc]
  have hmemR : ∀ c ∈ R, c ∈ L ++ b :: R := fun c hc => by simp [hc]
  have hmin64 : (64 : Int) ≤ b.size - s2 := by
    unfold minfragment at hx; omega
  obtain ⟨cL, cR, cLast, cHead⟩ := chain'_decomp hchain
  obtain ⟨nL, nR, nLast, nHead⟩ := chain'_decomp hnadj
  have hmemcase : ∀ c ∈ L ++ ({ b with size := s2, tag := tag, id := ZONEID } : memblock_t) ::
      ({ addr := b.addr + s2, size := b.size - s2, tag := TAG_FREE, id := ZONEID } : memblock_t) :: R,
      c ∈ L ∨ c = { b with size := s2, tag := tag, id := ZONEID } ∨
        c = { addr := b.addr + s2, size := b.size - s2, tag := TAG_FREE, id := ZONEID } ∨
        c ∈ R := by
    intro c hc
    rcases List.mem_append.1 hc with h1 | h1
    · exact Or.inl h1
    · rcases List.mem_cons.1 h1 with h2 | h2
      · exact Or.inr (Or.inl h2)
      · rcases List.mem_cons.1 h2 with h3 | h3
        · exact Or.inr (Or.inr (Or.inl h3))
        · exact Or.inr (Or.inr (Or.inr h3))
  have e1 : inUseSum (L ++ ({ b with size := s2, tag := tag, id := ZONEID } : memblock_t) ::
      ({ addr := b.addr + s2, size := b.size - s2, tag := TAG_FREE, id := ZONEID } : memblock_t) :: R) =
      inUseSum L + s2 + inUseSum R := by
    rw [inUseSum_append]
    simp [inUseSum, htag]
    ring
  have e2 : sepCount (L ++ ({ b with size := s2, tag := tag, id := ZONEID } : memblock_t) ::
      ({ addr := b.addr + s2, size := b.size - s2, tag := TAG_FREE, id := ZONEID } : memblock_t) :: R) =
      sepCount L + sepCount R := by
    rw [sepCount_append]
    simp [sepCount, zoneid_ne_neg]
  have e3 : inUseSum (L ++ b :: R) = inUseSum L + inUseSum R := by
    rw [inUseSum_append]; simp [inUseSum, hbt]
  have e4 : sepCount (L ++ b :: R) = sepCount L + sepCount R := by
    rw [sepCount_append]; simp [sepCount, hbi, zoneid_ne_neg]
  refine ⟨?_, ?_, ?_, ?_⟩
  case _ => -- the invariant
    unfold allocSplitZone
    refine ⟨?_, ?_, ?_, ?_, ?_, ?_, ?_, ?_, ?_, ?_⟩ <;>
      simp only [insertFree_blocks, insertFree_used, insertFree_mem,
        insertFree_nextSegBase]
    · -- chain
      refine chain'_recomp cL ?_ (fun x hx1 => cLast x hx1) ?_
      · refine List.chain'_cons'.2 ⟨?_, cR⟩
        intro y hy
        have h1 := cHead y hy
        unfold SepRel at h1 ⊢
        dsimp only
        omega
      · intro y hy
        simp only [List.head?_cons, Option.mem_def, Option.some.injEq] at hy
        subst hy
        unfold SepRel
        dsimp only
        omega
    · -- sizes
      intro c hc
      rcases hmemcase c hc with h1 | rfl | rfl | h1
      · exact hsizes c (hmemL c h1)
      · dsimp only; omega
      · dsimp only; omega
      · exact hsizes c (hmemR c h1)
    · -- fresh bound
      intro c hc
      have hfb := hfresh b hbmem
      rcases hmemcase c hc with h1 | rfl | rfl | h1
      · exact hfresh c (hmemL c h1)
      · dsimp only; omega
      · dsimp only; omega
      · exact hfresh c (hmemR c h1)
    · -- free-list soundness
      intro a ha
      rcases (entries_insertFree _ _ a).1 ha with h1 | h1
      · refine ⟨{ addr := b.addr + s2, size := b.size - s2, tag := TAG_FREE, id := ZONEID },
          by simp, h1.symm, rfl⟩
      · obtain ⟨c, hcmem, hca, hcf⟩ := hsound a h1
        have hane : a ≠ b.addr := hbrem a h1
        rw [hd] at hcmem
        rcases List.mem_append.1 hcmem with h2 | h2
        · exact ⟨c, by simp [h2], hca, hcf⟩
        · rcases List.mem_cons.1 h2 with h3 | h3
          · exfalso; rw [h3] at hca; exact hane (hca ▸ rfl)
          · exact ⟨c, by simp [h3], hca, hcf⟩
    · -- free blocks have ZONEID
      intro c hc hcf
      rcases hmemcase c hc with h1 | rfl | rfl | h1
      · exact hfid c (hmemL c h1) hcf
      · exact absurd hcf htag
      · rfl
      · exact hfid c (hmemR c h1) hcf
    · -- separators
      intro c hc hcid
      rcases hmemcase c hc with h1 | rfl | rfl | h1
      · exact hsep c (hmemL c h1) hcid
      · exfalso
        have h2 : (ZONEID : Int) = -ZONEID := hcid
        exact zoneid_ne_neg h2
      · exfalso
        have h2 : (ZONEID : Int) = -ZONEID := hcid
        exact zoneid_ne_neg h2
      · exact hsep c (hmemR c h1) hcid
    · -- minimum size
      intro c hc hcid
      rcases hmemcase c hc with h1 | rfl | rfl | h1
      · exact hmin c (hmemL c h1) hcid
      · dsimp only; omega
      · dsimp only; omega
      · exact hmin c (hmemR c h1) hcid
    · -- trash sentinels
      intro c hc hctf hcid
      rcases hmemcase c hc with h1 | rfl | rfl | h1
      · have hcs : 36 ≤ c.size := hmin c (hmemL c h1) hcid
        have hrel : SepRel c b := (List.pairwise_append.1 hpw).2.2 c h1 b (by simp)
        rw [readInt32_writeInt32_out _ _ _ _
          (by unfold SepRel at hrel; omega)]
        exact htrash c (hmemL c h1) hctf hcid
      · exact readInt32_trash _ _
      · exact absurd rfl hctf
      · have hcs : 36 ≤ c.size := hmin c (hmemR c h1) hcid
        have hrel : SepRel b c :=
          (List.pairwise_cons.1 (List.pairwise_append.1 hpw).2.1).1 c h1
        have hbs : 0 ≤ b.size := hsizes b hbmem
        rw [readInt32_writeInt32_out _ _ _ _
          (by unfold SepRel at hrel; omega)]
        exact htrash c (hmemR c h1) hctf hcid
    · -- adjacent-free chain
      refine chain'_recomp nL ?_ ?_ ?_
      · refine List.chain'_cons'.2 ⟨?_, nR⟩
        intro y hy hand
        exact nHead y hy ⟨hbt, hand.2⟩
      · intro x hx1 hand
        exact htag hand.2
      · intro y hy
        simp only [List.head?_cons, Option.mem_def, Option.some.injEq] at hy
        subst hy
        intro hand
        exact htag hand.1
    · -- accounting
      rw [e1, e2]
      rw [e3, e4] at hacct
      unfold sizeof_memblock at hacct ⊢
      omega
  case _ =>
    unfold allocSplitZone
    simp only [insertFree_blocks]
  case _ =>
    unfold allocSplitZone
    simp only [insertFree_used]
  case _ =>
    unfold allocSplitZone
    simp only [insertFree_blocks]
    rw [e2, hd, e4]

/-- Committing an allocation that consumes the whole chosen free block
(remainder below `minfragment`). -/
theorem alloc_commit_keep {z1 : memzone_t} {L : List memblock_t} {b : memblock_t}
    {R : List memblock_t} (tag : memtag_t)
    (hinv : ZInv z1) (hd : z1.blocks = L ++ b :: R) (hbt : b.tag = TAG_FREE)
    (hbi : b.id = ZONEID) (htag : tag ≠ TAG_FREE)
    (hbrem : ∀ a ∈ zoneFreelistEntries z1, a ≠ b.addr) :
    ZInv (allocKeepZone z1 L b R tag) ∧
    (allocKeepZone z1 L b R tag).blocks =
      L ++ ({ b with tag := tag, id := ZONEID } : memblock_t) :: R ∧
    (allocKeepZone z1 L b R tag).used = z1.used + b.size ∧
    sepCount (allocKeepZone z1 L b R tag).blocks = sepCount z1.blocks := by
  obtain ⟨hchain, hsizes, hfresh, hsound, hfid, hsep, hmin, htrash, hnadj, hacct⟩ := hinv
  rw [hd] at hchain hsizes hfresh hfid hsep hmin htrash hnadj hacct
  have hpw := chain_sep_pairwise hchain hsizes
  have hbmem : b ∈ L ++ b :: R := by simp
  have hmemL : ∀ c ∈ L, c ∈ L ++ b :: R := fun c hc => by simp [hc]
  have hmemR : ∀ c ∈ R, c ∈ L ++ b :: R := fun c hc => by simp [hc]
  have hb36 : 36 ≤ b.size := hmin b hbmem hbi
  obtain ⟨cL, cR, cLast, cHead⟩ := chain'_decomp hchain
  obtain ⟨nL, nR, nLast, nHead⟩ := chain'_decomp hnadj
  have hmemcase : ∀ c ∈ L ++ ({ b with tag := tag, id := ZONEID } : memblock_t) :: R,
      c ∈ L ∨ c = { b with tag := tag, id := ZONEID } ∨ c ∈ R := by
    intro c hc
    rcases List.mem_append.1 hc with h1 | h1
    · exact Or.inl h1
    · rcases List.mem_cons.1 h1 with h2 | h2
      · exact Or.inr (Or.inl h2)
      · exact Or.inr (Or.inr h2)
  have e1 : inUseSum (L ++ ({ b with tag := tag, id := ZONEID } : memblock_t) :: R) =
      inUseSum L + b.size + inUseSum R := by
    rw [inUseSum_append]
    simp [inUseSum, htag]
    ring
  have e2 : sepCount (L ++ ({ b with tag := tag, id := ZONEID } : memblock_t) :: R) =
      sepCount L + sepCount R := by
    rw [sepCount_append]
    simp [sepCount, zoneid_ne_neg]
  have e3 : inUseSum (L ++ b :: R) = inUseSum L + inUseSum R := by
    rw [inUseSum_append]; simp [inUseSum, hbt]
  have e4 : sepCount (L ++ b :: R) = sepCount L + sepCount R := by
    rw [sepCount_append]; simp [sepCount, hbi, zoneid_ne_neg]
  refine ⟨?_, rfl, rfl, ?_⟩
  case _ =>
    unfold allocKeepZone
    refine ⟨?_, ?_, ?_, ?_, ?_, ?_, ?_, ?_, ?_, ?_⟩
    · -- chain
      refine chain'_recomp cL cR (fun x hx1 => cLast x hx1) ?_
      intro y hy
      exact cHead y hy
    · -- sizes
      intro c hc
      rcases hmemcase c hc with h1 | rfl | h1
      · exact hsizes c (hmemL c h1)
      · exact hsizes b hbmem
      · exact hsizes c (hmemR c h1)
    · -- fresh bound
      intro c hc
      rcases hmemcase c hc with h1 | rfl | h1
      · exact hfresh c (hmemL c h1)
      · exact hfresh b hbmem
      · exact hfresh c (hmemR c h1)
    · -- free-list soundness
      intro a ha
      obtain ⟨c, hcmem, hca, hcf⟩ := hsound a ha
      have hane : a ≠ b.addr := hbrem a ha
      rw [hd] at hcmem
      rcases List.mem_append.1 hcmem with h2 | h2
      · exact ⟨c, by simp [h2], hca, hcf⟩
      · rcases List.mem_cons.1 h2 with h3 | h3
        · exfalso; rw [h3] at hca; exact hane (hca ▸ rfl)
        · exact ⟨c, by simp [h3], hca, hcf⟩
    · -- free blocks have ZONEID
      intro c hc hcf
      rcases hmemcase c hc with h1 | rfl | h1
      · exact hfid c (hmemL c h1) hcf
      · exact absurd hcf htag
      · exact hfid c (hmemR c h1) hcf
    · -- separators
      intro c hc hcid
      rcases hmemcase c hc with h1 | rfl | h1
      · exact hsep c (hmemL c h1) hcid
      · exfalso
        have h2 : (ZONEID : Int) = -ZONEID := hcid
        exact zoneid_ne_neg h2
      · exact hsep c (hmemR c h1) hcid
    · -- minimum size
      intro c hc hcid
      rcases hmemcase c hc with h1 | rfl | h1
      · exact hmin c (hmemL c h1) hcid
      · exact hb36
      · exact hmin c (hmemR c h1) hcid
    · -- trash sentinels
      intro c hc hctf hcid
      rcases hmemcase c hc with h1 | rfl | h1
      · have hcs : 36 ≤ c.size := hmin c (hmemL c h1) hcid
        have hrel : SepRel c b := (List.pairwise_append.1 hpw).2.2 c h1 b (by simp)
        rw [readInt32_writeInt32_out _ _ _ _
          (by unfold SepRel at hrel; omega)]
        exact htrash c (hmemL c h1) hctf hcid
      · exact readInt32_trash _ _
      · have hcs : 36 ≤ c.size := hmin c (hmemR c h1) hcid
        have hrel : SepRel b c :=
          (List.pairwise_cons.1 (List.pairwise_append.1 hpw).2.1).1 c h1
        rw [readInt32_writeInt32_out _ _ _ _
          (by unfold SepRel at hrel; omega)]
        exact htrash c (hmemR c h1) hctf hcid
    · -- adjacent-free chain
      refine chain'_recomp nL nR ?_ ?_
      · intro x hx1 hand
        exact htag hand.2
      · intro y hy hand
        exact htag hand.1
    · -- accounting
      dsimp only
      rw [e1, e2]
      rw [e3, e4] at hacct
      unfold sizeof_memblock at hacct ⊢
      omega
  case _ =>
    unfold allocKeepZone
    dsimp only
    rw [e2, hd, e4]

/-- `SearchFree` never removes blocks. -/
theorem SearchFree_mem {z : memzone_t} (size : Int) :
    ∀ c ∈ z.blocks, c ∈ (SearchFree z size).2.blocks := by
  intro c hc
  unfold SearchFree
  rcases hfind : (searchCands z size).find? (fits z size) with _ | a
  · unfold NewBlock
    dsimp only
    rw [insertFree_blocks]
    simp [hc]
  · exact hc

/-- In a pairwise-separated decomposition, every block other than the
middle one has a different address. -/
theorem decomp_addr_ne_of_mem {L : List memblock_t} {b : memblock_t}
    {R : List memblock_t} (hpw : (L ++ b :: R).Pairwise SepRel) :
    ∀ c ∈ L ++ b :: R, c ≠ b → c.addr ≠ b.addr := by
  intro c hc hcb
  rcases List.mem_append.1 hc with h1 | h1
  · exact ne_of_lt ((List.pairwise_append.1 hpw).2.2 c h1 b (by simp)).2
  · rcases List.mem_cons.1 h1 with h2 | h2
    · exact absurd h2 hcb
    · have := (List.pairwise_cons.1 (List.pairwise_append.1 hpw).2.1).1 c h2
      exact (ne_of_lt this.2).symm

/-- The padded-size body of `Z_TagMalloc` always succeeds on a zone
satisfying the invariant: it returns a user pointer `sizeof(memblock_t)`
past a header re-tagged with the request tag, of at least the padded
size, with a valid trailing trash sentinel, growing `used` by the block
size (plus one separator header when a new segment was grown); the in-use
blocks all survive and the allocated block is new. -/
theorem zallocCore_ok {z : memzone_t} {s2 : Int} (tag : memtag_t)
    (hinv : ZInv z) (htag : tag ≠ TAG_FREE) (h52 : 52 ≤ s2) :
    ∃ p z2, zallocCore z s2 tag = .ok p z2 ∧ ZInv z2 ∧
      ∃ L2 nb R2, z2.blocks = L2 ++ nb :: R2 ∧
        nb.addr = p - sizeof_memblock ∧ nb.tag = tag ∧ nb.id = ZONEID ∧
        s2 ≤ nb.size ∧
        readInt32 z2.mem (nb.addr + nb.size - 4) = ZONEID ∧
        ((z2.used = z.used + nb.size ∧ sepCount z2.blocks = sepCount z.blocks) ∨
         (z2.used = z.used + nb.size + sizeof_memblock ∧
           sepCount z2.blocks = sepCount z.blocks + 1)) ∧
        (∀ c ∈ z.blocks, c.tag ≠ TAG_FREE → c ∈ z2.blocks ∧ c ≠ nb) := by
  have h36 : (36 : Int) ≤ s2 := by omega
  obtain ⟨L, b, R, haddr, hblk, hbt, hbi, hbig, hinv1, hdelta⟩ :=
    SearchFree_spec s2 hinv h36
  have hinv2 : ZInv (removeFreeAddr (SearchFree z s2).2 (SearchFree z s2).1) :=
    ZInv_removeFreeAddr hinv1 _
  have hd2 : (removeFreeAddr (SearchFree z s2).2 (SearchFree z s2).1).blocks
      = L ++ b :: R := by
    rw [removeFreeAddr_blocks]; exact hblk
  have hbrem : ∀ a ∈ zoneFreelistEntries
      (removeFreeAddr (SearchFree z s2).2 (SearchFree z s2).1), a ≠ b.addr := by
    intro a ha
    have h1 := ((entries_removeFreeAddr _ _ _).1 ha).2
    rw [haddr] at h1
    exact h1
  have hsplit : splitAtAddr (SearchFree z s2).1
      (removeFreeAddr (SearchFree z s2).2 (SearchFree z s2).1).blocks
      = some (L, b, R) := by
    rw [haddr]
    exact splitAtAddr_of_decomp hinv2.1 hinv2.2.1 hd2
  have hpw1 : (L ++ b :: R).Pairwise SepRel := by
    have h := chain_sep_pairwise hinv1.1 hinv1.2.1
    rw [hblk] at h
    exact h
  have hnewc : ∀ c ∈ z.blocks, c.tag ≠ TAG_FREE → (c ∈ L ∨ c ∈ R) ∧ c.addr ≠ b.addr := by
    intro c hc hcf
    have hc1 : c ∈ (SearchFree z s2).2.blocks := SearchFree_mem s2 c hc
    rw [hblk] at hc1
    have hcb : c ≠ b := fun h => hcf (h ▸ hbt)
    refine ⟨?_, decomp_addr_ne_of_mem hpw1 c hc1 hcb⟩
    rcases List.mem_append.1 hc1 with h1 | h1
    · exact Or.inl h1
    · rcases List.mem_cons.1 h1 with h2 | h2
      · exact absurd h2 hcb
      · exact Or.inr h2
  unfold zallocCore
  dsimp only
  rw [hsplit]
  dsimp only
  by_cases hx : b.size - s2 ≥ minfragment
  · -- split branch
    rw [if_pos hx]
    obtain ⟨hZ, hB, hU, hS⟩ :=
      alloc_commit_split tag hinv2 hd2 hbt hbi htag hbrem h52 hbig hx
    refine ⟨b.addr + sizeof_memblock,
      allocSplitZone (removeFreeAddr (SearchFree z s2).2 (SearchFree z s2).1) L b R s2 tag,
      rfl, hZ, L, { b with size := s2, tag := tag, id := ZONEID },
      ({ addr := b.addr + s2, size := b.size - s2, tag := TAG_FREE, id := ZONEID } :
        memblock_t) :: R, hB, ?_, rfl, rfl, le_refl _, ?_, ?_, ?_⟩
    · show b.addr = b.addr + sizeof_memblock - sizeof_memblock
      ring
    · exact readInt32_trash _ _
    · rw [hU, hS, hd2]
      rcases hdelta with h1 | ⟨h1, h2, _, _⟩
      · rw [removeFreeAddr_used, h1]
        left
        exact ⟨rfl, by rw [← hd2, removeFreeAddr_blocks, h1]⟩
      · right
        rw [removeFreeAddr_used, h1]
        refine ⟨?_, ?_⟩
        · dsimp only
          ring
        · rw [← hd2, removeFreeAddr_blocks, h2]
    · intro c hc hcf
      obtain ⟨hcLR, hcaddr⟩ := hnewc c hc hcf
      constructor
      · rw [hB]
        rcases hcLR with h1 | h1
        · exact List.mem_append.2 (Or.inl h1)
        · simp [h1]
      · intro hceq
        exact hcaddr (by rw [hceq])
  · -- keep branch
    rw [if_neg hx]
    obtain ⟨hZ, hB, hU, hS⟩ :=
      alloc_commit_keep tag hinv2 hd2 hbt hbi htag hbrem
    refine ⟨b.addr + sizeof_memblock,
      allocKeepZone (removeFreeAddr (SearchFree z s2).2 (SearchFree z s2).1) L b R tag,
      rfl, hZ, L, { b with tag := tag, id := ZONEID }, R, hB, ?_, rfl, rfl, hbig, ?_, ?_,
      ?_⟩
    · show b.addr = b.addr + sizeof_memblock - sizeof_memblock
      ring
    · exact readInt32_trash _ _
    · rw [hU, hS, hd2]
      rcases hdelta with h1 | ⟨h1, h2, _, _⟩
      · rw [removeFreeAddr_used, h1]
        left
        exact ⟨rfl, by rw [← hd2, removeFreeAddr_blocks, h1]⟩
      · right
        rw [removeFreeAddr_used, h1]
        refine ⟨?_, ?_⟩
        · dsimp only
          ring
        · rw [← hd2, removeFreeAddr_blocks, h2]
    · intro c hc hcf
      obtain ⟨hcLR, hcaddr⟩ := hnewc c hc hcf
      constructor
      · rw [hB]
        rcases hcLR with h1 | h1
        · exact List.mem_append.2 (Or.inl h1)
        · simp [h1]
      · intro hceq
        exact hcaddr (by rw [hceq])

/-- `Z_TagMalloc` with a non-`FREE` tag on an invariant zone: success,
invariant preserved, and the allocated header holds at least
`size + sizeof(memblock_t) + 4` bytes starting `sizeof(memblock_t)`
before the returned pointer. -/
theorem Z_TagMallocZ_ok {z : memzone_t} (size : Int) (tag : memtag_t)
    (hinv : ZInv z) (htag : tag ≠ TAG_FREE) :
    ∃ p z2, Z_TagMallocZ z size tag = .ok p z2 ∧ ZInv z2 ∧
      ∃ L2 nb R2, z2.blocks = L2 ++ nb :: R2 ∧
        nb.addr = p - sizeof_memblock ∧ nb.tag = tag ∧ nb.id = ZONEID ∧
        size + sizeof_memblock + 4 ≤ nb.size ∧
        readInt32 z2.mem (nb.addr + nb.size - 4) = ZONEID ∧
        ((z2.used = z.used + nb.size ∧ sepCount z2.blocks = sepCount z.blocks) ∨
         (z2.used = z.used + nb.size + sizeof_memblock ∧
           sepCount z2.blocks = sepCount z.blocks + 1)) ∧
        (∀ c ∈ z.blocks, c.tag ≠ TAG_FREE → c ∈ z2.blocks ∧ c ≠ nb) := by
  have hsz1 : size ≤ (if size < sizeof_freeblock then sizeof_freeblock else size) := by
    unfold sizeof_freeblock
    split_ifs with h
    · omega
    · exact le_refl _
  have hsz16 : (16 : Int) ≤ (if size < sizeof_freeblock then sizeof_freeblock else size) := by
    unfold sizeof_freeblock
    split_ifs with h <;> omega
  have hpad : (if size < sizeof_freeblock then sizeof_freeblock else size) +
      sizeof_memblock + 4 ≤
      PAD ((if size < sizeof_freeblock then sizeof_freeblock else size) +
        sizeof_memblock + 4) 8 :=
    le_PAD _ _ (by norm_num)
  have h52 : 52 ≤ PAD ((if size < sizeof_freeblock then sizeof_freeblock else size) +
      sizeof_memblock + 4) 8 := by
    unfold sizeof_memblock at hpad ⊢
    omega
  obtain ⟨p, z2, heq, hZ, L2, nb, R2, hB, ha, ht, hi, hs, htr, hdel, hpres⟩ :=
    zallocCore_ok tag hinv htag h52
  refine ⟨p, z2, ?_, hZ, L2, nb, R2, hB, ha, ht, hi, ?_, htr, hdel, hpres⟩
  · unfold Z_TagMallocZ
    rw [if_neg htag]
    exact heq
  · have : size + sizeof_memblock + 4 ≤
        PAD ((if size < sizeof_freeblock then sizeof_freeblock else size) +
          sizeof_memblock + 4) 8 := by omega
    omega

/-- The coalesced block is always free (it takes the tag of the freed
block or of the free predecessor it merged into). -/
theorem zfMid_tag (L : List memblock_t) (b1 : memblock_t) (R : List memblock_t)
    (hbt : b1.tag = TAG_FREE) : (zfMid L b1 R).tag = TAG_FREE := by
  unfold zfMid
  rcases hgl : L.getLast? with _ | p <;> rcases R with _ | ⟨n, R2⟩ <;>
    dsimp only <;> first
      | (split_ifs <;> simp_all)
      | simp_all

/-- Distinct blocks of an invariant zone have distinct addresses. -/
theorem mem_addr_inj {z : memzone_t} (hinv : ZInv z) {a b : memblock_t}
    (ha : a ∈ z.blocks) (hb : b ∈ z.blocks) (hab : a.addr = b.addr) : a = b := by
  by_contra hne
  have hpw : z.blocks.Pairwise SepRel := chain_sep_pairwise hinv.1 hinv.2.1
  have hpw2 : z.blocks.Pairwise (fun x y => SepRel x y ∨ SepRel y x) :=
    hpw.imp Or.inl
  have hsym : Symmetric (fun x y : memblock_t => SepRel x y ∨ SepRel y x) :=
    fun x y h => h.symm
  have h := List.Pairwise.forall hsym hpw2 ha hb hne
  rcases h with h1 | h1 <;> exact absurd hab (by unfold SepRel at h1; omega)

/-- `inUseSum` of a list whose last element is free. -/
theorem inUseSum_concat_free (L0 : List memblock_t) (p : memblock_t)
    (hp : p.tag = TAG_FREE) : inUseSum (L0 ++ [p]) = inUseSum L0 := by
  rw [inUseSum_append]
  simp [inUseSum, hp]

/-- The packaged description of a successful `Z_Free`: success, invariant,
exact `used` decrement, separator-count preservation, and preservation of
separators and of the other in-use blocks. -/
theorem zfree_full {z : memzone_t} {L : List memblock_t} {b : memblock_t}
    {R : List memblock_t}
    (hinv : ZInv z) (hd : z.blocks = L ++ b :: R)
    (hid : b.id = ZONEID) (htf : b.tag ≠ TAG_FREE) (hts : b.tag ≠ TAG_STATIC) :
    ∃ z2, zfreeCore z (b.addr + sizeof_memblock) = .ok () z2 ∧ ZInv z2 ∧
      z2.used = z.used - b.size ∧
      sepCount z2.blocks = sepCount z.blocks ∧
      (∀ c ∈ z.blocks, c.id = -ZONEID → c ∈ z2.blocks) ∧
      (∀ c ∈ z.blocks, c.tag ≠ TAG_FREE → c ≠ b → c ∈ z2.blocks) := by
  obtain ⟨z2, heq, hbl, haddr, hused, hseppres, hpres, hleft, hright, hinv2⟩ :=
    zfree_master hinv hd hid htf hts
  refine ⟨z2, heq, hinv2, hused, ?_, hseppres, hpres⟩
  -- separator-count preservation follows from the two accounting identities
  have hacct1 := hinv.2.2.2.2.2.2.2.2.2
  have hacct2 := hinv2.2.2.2.2.2.2.2.2.2
  have hmfree : (zfMid L { b with tag := TAG_FREE, id := ZONEID } R).tag = TAG_FREE :=
    zfMid_tag L _ R rfl
  have hiu2 : inUseSum z2.blocks = inUseSum (zfLeft L) + inUseSum (zfRight R) := by
    rw [hbl, inUseSum_append]
    simp [inUseSum, hmfree]
  have hiuL : inUseSum (zfLeft L) = inUseSum L := by
    rcases hleft with h1 | ⟨p, L0, hL, hpf, hzl⟩
    · rw [h1]
    · rw [hzl, hL, inUseSum_concat_free L0 p hpf]
  have hiuR : inUseSum (zfRight R) = inUseSum R := by
    rcases hright with ⟨h1, _⟩ | ⟨n, R2, hR, hnf, hzr⟩
    · rw [h1]
    · rw [hzr, hR]
      simp [inUseSum, hnf]
  have hiu1 : inUseSum z.blocks = inUseSum L + b.size + inUseSum R := by
    rw [hd, inUseSum_append]
    simp [inUseSum, htf, hid]
    ring
  rw [hiu2, hiuL, hiuR] at hacct2
  rw [hiu1] at hacct1
  unfold sizeof_memblock at hacct1 hacct2
  omega

/-- Every `.ok` outcome of `zfreeCore` preserves the zone invariant (the
`TAG_STATIC` fast path leaves the zone untouched; the real path is
`zfree_full`). -/
theorem zfreeCore_preserves {z : memzone_t} {p : Int} {z2 : memzone_t}
    (hinv : ZInv z) (heq : zfreeCore z p = .ok () z2) : ZInv z2 := by
  have heq0 := heq
  unfold zfreeCore at heq
  rcases hsp : splitAtAddr (p - sizeof_memblock) z.blocks with _ | ⟨L, b, R⟩
  · rw [hsp] at heq
    exact absurd heq (by simp)
  · rw [hsp] at heq
    dsimp only at heq
    obtain ⟨hd, hba, _⟩ := splitAtAddr_some hsp
    split_ifs at heq with h1 h2 h3 h4
    · -- TAG_STATIC fast path
      obtain rfl : z = z2 := by injection heq
      exact hinv
    · -- the real free
      have hid : b.id = ZONEID := by
        by_contra hc
        exact h1 hc
      have hptr : b.addr + sizeof_memblock = p := by
        rw [hba]; ring
      obtain ⟨z2', heq', hinv2', -, -, -, -⟩ := zfree_full hinv hd hid h2 h3
      rw [hptr, heq0] at heq'
      obtain rfl : z2 = z2' := by injection heq'
      exact hinv2'

/-! ## Operation sequences on one zone -/

/-- `Z_ClearZone` establishes the zone invariant whenever the region can
hold the zone header plus one minimum-size block. -/
theorem ZInv_clearZone (base size : Int) (hsz : 268 ≤ size) :
    ZInv (Z_ClearZone base size) := by
  refine ⟨?_, ?_, ?_, ?_, ?_, ?_, ?_, ?_, ?_, ?_⟩ <;>
    unfold Z_ClearZone
  · simp
  · intro b hb
    simp only [insertFree_blocks, List.mem_singleton] at hb
    subst hb
    dsimp only
    unfold sizeof_memzone
    omega
  · intro b hb
    simp only [insertFree_blocks, List.mem_singleton] at hb
    subst hb
    rw [insertFree_nextSegBase]
    dsimp only
    unfold sizeof_memzone
    omega
  · intro a ha
    rw [entries_insertFree] at ha
    rcases ha with ha | ha
    · exact ⟨_, by simp, ha.symm, rfl⟩
    · unfold zoneFreelistEntries at ha
      simp at ha
  · intro b hb _
    simp only [insertFree_blocks, List.mem_singleton] at hb
    subst hb
    rfl
  · intro b hb hid
    simp only [insertFree_blocks, List.mem_singleton] at hb
    subst hb
    exact absurd hid zoneid_ne_neg
  · intro b hb _
    simp only [insertFree_blocks, List.mem_singleton] at hb
    subst hb
    dsimp only
    unfold sizeof_memzone
    omega
  · intro b hb hbt _
    simp only [insertFree_blocks, List.mem_singleton] at hb
    subst hb
    exact absurd rfl hbt
  · simp
  · rw [insertFree_used, insertFree_blocks]
    simp [inUseSum, sepCount]
    rw [if_neg zoneid_ne_neg]

/-- One client call on a zone: `Z_TagMalloc` or `Z_Free` by user pointer;
results other than `.ok` leave no new zone state behind. -/
inductive ZoneOp where
  | alloc : Int → memtag_t → ZoneOp
  | free : Int → ZoneOp

/-- Apply one operation, keeping the previous state when the operation
does not return `.ok` (drop/fatal abort the request, leaving the zone as
the implementation left it on those paths: `Z_TagMalloc` only fails
before touching the zone, and `Z_Free`'s failures are fatal). -/
def applyOp (z : memzone_t) : ZoneOp → memzone_t
  | .alloc s t =>
    match Z_TagMallocZ z s t with
    | .ok _ z1 => z1
    | _ => z
  | .free p =>
    match zfreeCore z p with
    | .ok _ z1 => z1
    | _ => z

/-- Run a sequence of zone operations. -/
def runOps (z : memzone_t) (ops : List ZoneOp) : memzone_t :=
  ops.foldl applyOp z

/-- Every operation preserves the zone invariant. -/
theorem ZInv_applyOp {z : memzone_t} (hinv : ZInv z) (op : ZoneOp) :
    ZInv (applyOp z op) := by
  rcases op with ⟨s, t⟩ | p
  · unfold applyOp
    dsimp only
    rcases heq : Z_TagMallocZ z s t with ⟨p, z1⟩ | s1 | _ | _
    · show ZInv z1
      by_cases ht : t = TAG_FREE
      · subst ht
        unfold Z_TagMallocZ at heq
        rw [if_pos rfl] at heq
        exact absurd heq (by simp)
      · obtain ⟨p', z2', heq', hZ, -⟩ := Z_TagMallocZ_ok s t hinv ht
        rw [heq] at heq'
        obtain ⟨rfl, rfl⟩ : p' = p ∧ z2' = z1 := by
          injection heq' with h1 h2
          exact ⟨h1.symm, h2.symm⟩
        exact hZ
    all_goals exact hinv
  · unfold applyOp
    dsimp only
    rcases heq : zfreeCore z p with ⟨u, z1⟩ | s1 | _ | _
    · show ZInv z1
      obtain rfl : u = () := rfl
      exact zfreeCore_preserves hinv heq
    all_goals exact hinv

/-- Running any operation sequence preserves the zone invariant. -/
theorem ZInv_runOps {z : memzone_t} (hinv : ZInv z) (ops : List ZoneOp) :
    ZInv (runOps z ops) := by
  induction ops generalizing z with
  | nil => exact hinv
  | cons op rest ih => exact ih (ZInv_applyOp hinv op)

/-! ## Claim C1 -/

/-- C1: for every sequence of `Z_TagMalloc`/`Z_Free` calls on an
initialised zone, after each call no two adjacent blocks of the block
list are both `FREE` (freeing coalesces eagerly, and an allocation split
leaves the remainder as the only free fragment next to an in-use block). -/
theorem C1_no_adjacent_free (base size : Int) (hsz : 268 ≤ size)
    (ops : List ZoneOp) :
    List.Chain' notBothFree (runOps (Z_ClearZone base size) ops).blocks :=
  (ZInv_runOps (ZInv_clearZone base size hsz) ops).2.2.2.2.2.2.2.2.1

theorem C1_no_adjacent_free_witness :
    (268 : Int) ≤ 4096 ∧
      List.Chain' notBothFree
        (runOps (Z_ClearZone 0 4096)
          [ZoneOp.alloc 100 TAG_GENERAL, ZoneOp.alloc 200 TAG_BOTLIB,
           ZoneOp.free 264, ZoneOp.alloc 50 TAG_GENERAL]).blocks :=
  ⟨by decide, C1_no_adjacent_free 0 4096 (by decide) _⟩

/-! ## Claim C2 -/

/-- The zone reached by allocating 100 bytes and freeing them again on a
fresh 4 KiB zone at base 0 (the free scribbles `0xaa` over the payload). -/
def c2zone : memzone_t :=
  runOps (Z_ClearZone 0 4096) [ZoneOp.alloc 100 TAG_GENERAL, ZoneOp.free 264]

/-- The zone after re-allocating 100 bytes from `c2zone`. -/
def c2zone2 : memzone_t := runOps c2zone [ZoneOp.alloc 100 TAG_GENERAL]

/-- C2 counterexample: re-allocating 100 bytes after a free returns the
scribbled block unchanged.  Payload byte 16 of the successful
`Z_TagMalloc` result (address 280 = 264 + 16, past the 16-byte in-band
`freeblock_t` node that `InsertFree` wrote over payload bytes 0–15 while
the block sat on the free list) still holds the `0xaa` scribble written
by `Z_Free`, so `Z_TagMalloc` does not return a zero-filled payload
(only `Z_Malloc` zero-fills). -/
theorem C2_counterexample :
    Z_TagMallocZ c2zone 100 TAG_GENERAL = .ok 264 c2zone2 ∧
    TAG_GENERAL ≠ TAG_FREE ∧ (0 : Int) ≤ 100 ∧
    c2zone2.mem 280 = 0xaa := by
  refine ⟨rfl, by decide, by decide, by decide⟩

/-- C2 (amended): for every `size ≥ 0` and `tag ≠ FREE` on an invariant
zone, `Z_TagMalloc` succeeds with a block that holds at least `size`
payload bytes (header and trailing sentinel included in its size), but the
payload is not cleared; the zero-filled allocation is `Z_Malloc`, which
zero-fills exactly the requested `size` bytes after `Z_TagMalloc`. -/
theorem C2_alloc_payload_and_zmalloc_zero (z : memzone_t) (size : Int)
    (tag : memtag_t) (hinv : ZInv z) (htag : tag ≠ TAG_FREE) (hsz : 0 ≤ size) :
    (∃ p z2, Z_TagMallocZ z size tag = .ok p z2 ∧ ZInv z2 ∧
      ∃ L2 nb R2, z2.blocks = L2 ++ nb :: R2 ∧ nb.addr = p - sizeof_memblock ∧
        nb.tag = tag ∧ size + sizeof_memblock + 4 ≤ nb.size) ∧
    (∃ p z2, Z_MallocZ z size = .ok p z2 ∧
      ∀ i : Int, p ≤ i → i < p + size → z2.mem i = 0) := by
  constructor
  · obtain ⟨p, z2, heq, hZ, L2, nb, R2, hB, ha, ht, -, hs, -⟩ :=
      Z_TagMallocZ_ok size tag hinv htag
    exact ⟨p, z2, heq, hZ, L2, nb, R2, hB, ha, ht, hs⟩
  · obtain ⟨p, z2, heq, -⟩ :=
      Z_TagMallocZ_ok size TAG_GENERAL hinv (by decide)
    refine ⟨p, { z2 with mem := lmemset z2.mem p 0 size }, ?_, ?_⟩
    · unfold Z_MallocZ
      rw [heq]
    · intro i h1 h2
      exact lmemset_in _ _ _ _ _ h1 h2

theorem C2_alloc_payload_and_zmalloc_zero_witness :
    ZInv (Z_ClearZone 0 4096) ∧ TAG_BOTLIB ≠ TAG_FREE ∧ (0 : Int) ≤ 100 ∧
    ((∃ p z2, Z_TagMallocZ (Z_ClearZone 0 4096) 100 TAG_BOTLIB = .ok p z2 ∧
        ZInv z2 ∧
        ∃ L2 nb R2, z2.blocks = L2 ++ nb :: R2 ∧ nb.addr = p - sizeof_memblock ∧
          nb.tag = TAG_BOTLIB ∧ 100 + sizeof_memblock + 4 ≤ nb.size) ∧
      (∃ p z2, Z_MallocZ (Z_ClearZone 0 4096) 100 = .ok p z2 ∧
        ∀ i : Int, p ≤ i → i < p + 100 → z2.mem i = 0)) :=
  ⟨ZInv_clearZone 0 4096 (by decide), by decide, by decide,
    C2_alloc_payload_and_zmalloc_zero (Z_ClearZone 0 4096) 100 TAG_BOTLIB
      (ZInv_clearZone 0 4096 (by decide)) (by decide) (by decide)⟩

/-! ## Claim C7 -/

/-- C7: `Z_Free(NULL)` is a recoverable drop; on a resolvable pointer the
checks run in source order — a header id other than `ZONEID` is fatal, a
double free (`tag == TAG_FREE`) is fatal, `TAG_STATIC` returns with the
whole state untouched, and a corrupted trailing trash sentinel is fatal. -/
theorem C7_zfree_error_paths (w : World) (p : Int) (b : memblock_t)
    (hfind : findBlockPtr w p = some b) :
    Z_FreeW w none = .drop w ∧
    (b.id ≠ ZONEID → Z_FreeW w (some p) = .fatal) ∧
    (b.id = ZONEID → b.tag = TAG_FREE → Z_FreeW w (some p) = .fatal) ∧
    (b.id = ZONEID → b.tag = TAG_STATIC → Z_FreeW w (some p) = .ok () w) ∧
    (∀ L R, splitAtAddr (p - sizeof_memblock) w.main.blocks = some (L, b, R) →
      b.id = ZONEID → b.tag ≠ TAG_FREE → b.tag ≠ TAG_STATIC → b.tag ≠ TAG_SMALL →
      readInt32 w.main.mem (b.addr + b.size - 4) ≠ ZONEID →
      Z_FreeW w (some p) = .fatal) := by
  refine ⟨rfl, ?_, ?_, ?_, ?_⟩
  · intro h
    unfold Z_FreeW
    dsimp only
    rw [hfind]
    dsimp only
    rw [if_pos h]
  · intro h1 h2
    unfold Z_FreeW
    dsimp only
    rw [hfind]
    dsimp only
    rw [if_neg (by simp [h1]), if_pos h2]
  · intro h1 h2
    unfold Z_FreeW
    dsimp only
    rw [hfind]
    dsimp only
    rw [if_neg (by simp [h1]), if_neg (by rw [h2]; decide), if_pos h2]
  · intro L R hsp h1 h2 h3 h4 h5
    have hzf : zfreeCore w.main p = .fatal := by
      unfold zfreeCore
      rw [hsp]
      dsimp only
      rw [if_neg (by simp [h1]), if_neg h2, if_neg h3, if_pos h5]
    unfold Z_FreeW
    dsimp only
    rw [hfind]
    dsimp only
    rw [if_neg (by simp [h1]), if_neg h2, if_neg h3, if_neg h4, hzf]

theorem C7_zfree_error_paths_witness :
    findBlockPtr initWorld 264 =
      some { addr := 232, size := 524056, tag := TAG_FREE, id := ZONEID } ∧
    (Z_FreeW initWorld none = .drop initWorld ∧
     (({ addr := 232, size := 524056, tag := TAG_FREE, id := ZONEID } :
         memblock_t).id ≠ ZONEID → Z_FreeW initWorld (some 264) = .fatal) ∧
     (({ addr := 232, size := 524056, tag := TAG_FREE, id := ZONEID } :
         memblock_t).id = ZONEID →
      ({ addr := 232, size := 524056, tag := TAG_FREE, id := ZONEID } :
         memblock_t).tag = TAG_FREE → Z_FreeW initWorld (some 264) = .fatal) ∧
     (({ addr := 232, size := 524056, tag := TAG_FREE, id := ZONEID } :
         memblock_t).id = ZONEID →
      ({ addr := 232, size := 524056, tag := TAG_FREE, id := ZONEID } :
         memblock_t).tag = TAG_STATIC →
      Z_FreeW initWorld (some 264) = .ok () initWorld) ∧
     (∀ L R, splitAtAddr (264 - sizeof_memblock) initWorld.main.blocks =
        some (L, { addr := 232, size := 524056, tag := TAG_FREE, id := ZONEID }, R) →
      ({ addr := 232, size := 524056, tag := TAG_FREE, id := ZONEID } :
         memblock_t).id = ZONEID →
      ({ addr := 232, size := 524056, tag := TAG_FREE, id := ZONEID } :
         memblock_t).tag ≠ TAG_FREE →
      ({ addr := 232, size := 524056, tag := TAG_FREE, id := ZONEID } :
         memblock_t).tag ≠ TAG_STATIC →
      ({ addr := 232, size := 524056, tag := TAG_FREE, id := ZONEID } :
         memblock_t).tag ≠ TAG_SMALL →
      readInt32 initWorld.main.mem
        (({ addr := 232, size := 524056, tag := TAG_FREE, id := ZONEID } :
           memblock_t).addr +
          ({ addr := 232, size := 524056, tag := TAG_FREE, id := ZONEID } :
             memblock_t).size - 4) ≠ ZONEID →
      Z_FreeW initWorld (some 264) = .fatal)) :=
  ⟨by decide,
    C7_zfree_error_paths initWorld 264
      { addr := 232, size := 524056, tag := TAG_FREE, id := ZONEID } (by decide)⟩

/-! ## Hunk helper lemmas -/

theorem tempBank_setTempBank (h : HunkState) (f : hunkUsed_t → hunkUsed_t) :
    tempBank (setTempBank h f) = f (tempBank h) := by
  unfold tempBank setTempBank
  split_ifs with h1 <;> simp [h1]

theorem permBank_setPermBank (h : HunkState) (f : hunkUsed_t → hunkUsed_t) :
    permBank (setPermBank h f) = f (permBank h) := by
  unfold permBank setPermBank
  split_ifs with h1 <;> simp [h1]

theorem setTempBank_tempIsLow (h : HunkState) (f : hunkUsed_t → hunkUsed_t) :
    (setTempBank h f).tempIsLow = h.tempIsLow := by
  unfold setTempBank
  split_ifs <;> rfl

theorem setPermBank_permIsLow (h : HunkState) (f : hunkUsed_t → hunkUsed_t) :
    (setPermBank h f).permIsLow = h.permIsLow := by
  unfold setPermBank
  split_ifs <;> rfl

theorem swapBanks_low (h : HunkState) :
    (Hunk_SwapBanks h).hunk_low = h.hunk_low := by
  unfold Hunk_SwapBanks
  split_ifs <;> rfl

theorem swapBanks_high (h : HunkState) :
    (Hunk_SwapBanks h).hunk_high = h.hunk_high := by
  unfold Hunk_SwapBanks
  split_ifs <;> rfl

theorem swapBanks_initialized (h : HunkState) :
    (Hunk_SwapBanks h).initialized = h.initialized := by
  unfold Hunk_SwapBanks
  split_ifs <;> rfl

theorem swapBanks_total (h : HunkState) :
    (Hunk_SwapBanks h).s_hunkTotal = h.s_hunkTotal := by
  unfold Hunk_SwapBanks
  split_ifs <;> rfl

theorem hunkAllocBank_low (h : HunkState) (preference : ha_pref) :
    (hunkAllocBank h preference).hunk_low = h.hunk_low := by
  unfold hunkAllocBank
  split_ifs <;> first | rw [swapBanks_low] | rfl

theorem hunkAllocBank_high (h : HunkState) (preference : ha_pref) :
    (hunkAllocBank h preference).hunk_high = h.hunk_high := by
  unfold hunkAllocBank
  split_ifs <;> first | rw [swapBanks_high] | rfl

theorem hunkAllocBank_initialized (h : HunkState) (preference : ha_pref) :
    (hunkAllocBank h preference).initialized = h.initialized := by
  unfold hunkAllocBank
  split_ifs <;> first | rw [swapBanks_initialized] | rfl

/-! ## Claim C5 -/

/-- C5: `Hunk_SwapBanks` never modifies any bank's counters; it is a no-op
while the temp bank holds a live temp allocation, and otherwise exchanges
the `hunk_permanent` / `hunk_temp` designations exactly when the temp
side's highwater headroom exceeds the permanent side's. -/
theorem C5_swap_banks (h : HunkState) :
    (Hunk_SwapBanks h).hunk_low = h.hunk_low ∧
    (Hunk_SwapBanks h).hunk_high = h.hunk_high ∧
    ((tempBank h).temp ≠ (tempBank h).permanent → Hunk_SwapBanks h = h) ∧
    ((tempBank h).temp = (tempBank h).permanent →
      ((tempBank h).tempHighwater - (tempBank h).permanent >
          (permBank h).tempHighwater - (permBank h).permanent →
        (Hunk_SwapBanks h).permIsLow = h.tempIsLow ∧
        (Hunk_SwapBanks h).tempIsLow = h.permIsLow) ∧
      (¬((tempBank h).tempHighwater - (tempBank h).permanent >
          (permBank h).tempHighwater - (permBank h).permanent) →
        Hunk_SwapBanks h = h)) := by
  refine ⟨swapBanks_low h, swapBanks_high h, ?_, ?_⟩
  · intro hne
    unfold Hunk_SwapBanks
    rw [if_pos hne]
  · intro heq
    constructor
    · intro hgt
      unfold Hunk_SwapBanks
      rw [if_neg (by simp [heq]), if_pos hgt]
      exact ⟨rfl, rfl⟩
    · intro hle
      unfold Hunk_SwapBanks
      rw [if_neg (by simp [heq]), if_neg hle]

theorem C5_swap_banks_witness :
    (Hunk_SwapBanks Com_InitHunkMemory).hunk_low = Com_InitHunkMemory.hunk_low ∧
    (Hunk_SwapBanks Com_InitHunkMemory).hunk_high = Com_InitHunkMemory.hunk_high ∧
    ((tempBank Com_InitHunkMemory).temp ≠ (tempBank Com_InitHunkMemory).permanent →
      Hunk_SwapBanks Com_InitHunkMemory = Com_InitHunkMemory) ∧
    ((tempBank Com_InitHunkMemory).temp = (tempBank Com_InitHunkMemory).permanent →
      ((tempBank Com_InitHunkMemory).tempHighwater -
          (tempBank Com_InitHunkMemory).permanent >
          (permBank Com_InitHunkMemory).tempHighwater -
            (permBank Com_InitHunkMemory).permanent →
        (Hunk_SwapBanks Com_InitHunkMemory).permIsLow =
          Com_InitHunkMemory.tempIsLow ∧
        (Hunk_SwapBanks Com_InitHunkMemory).tempIsLow =
          Com_InitHunkMemory.permIsLow) ∧
      (¬((tempBank Com_InitHunkMemory).tempHighwater -
          (tempBank Com_InitHunkMemory).permanent >
          (permBank Com_InitHunkMemory).tempHighwater -
            (permBank Com_InitHunkMemory).permanent) →
        Hunk_SwapBanks Com_InitHunkMemory = Com_InitHunkMemory)) :=
  C5_swap_banks Com_InitHunkMemory

/-! ## Claim C3 -/

/-- The hunk state right after the first permanent allocation on a fresh
hunk. -/
def c3state : HunkState :=
  match Hunk_Alloc Com_InitHunkMemory 4 ha_pref.h_dontcare with
  | .ok _ h2 => h2
  | _ => Com_InitHunkMemory

/-- C3 counterexample: `Hunk_Alloc` drags the permanent bank's temp
cursor along (`hunk_low.temp = 64` after one 4-byte allocation) without
touching that bank's `tempHighwater` (still `0`), so
`temp_highwater ≥ temp` does not hold after every public hunk operation. -/
theorem C3_counterexample :
    Hunk_Alloc Com_InitHunkMemory 4 ha_pref.h_dontcare = .ok 0 c3state ∧
    c3state.hunk_low.temp = 64 ∧ c3state.hunk_low.tempHighwater = 0 := by
  refine ⟨rfl, by decide, by decide⟩

/-- C3 (amended): the highwater inequality is (re-)established on the
temp bank by every successful `Hunk_AllocateTempMemory` on an initialised
hunk — that is the only operation that updates `tempHighwater`;
`Hunk_Alloc` advances the permanent bank's temp cursor without updating
its highwater. -/
theorem tempBank_hdrs (h : HunkState) (u : Int → Option hunkHeader_t) :
    tempBank { h with hdrs := u } = tempBank h := rfl

theorem C3_temp_highwater (g : GState) (size : Int)
    (hini : g.hunk.initialized = true) (p : Int) (g2 : GState)
    (heq : Hunk_AllocateTempMemory g size = .ok p g2) :
    (tempBank g2.hunk).temp ≤ (tempBank g2.hunk).tempHighwater := by
  unfold Hunk_AllocateTempMemory at heq
  rw [if_pos hini] at heq
  dsimp only at heq
  split_ifs at heq
  all_goals injection heq with hp hg
  all_goals subst hg
  all_goals dsimp only
  all_goals rw [tempBank_hdrs]
  all_goals simp only [tempBank_setTempBank] at *
  all_goals omega

/-- The fresh world plus fresh hunk. -/
def g0 : GState := { world := initWorld, hunk := Com_InitHunkMemory }

/-- The state after one 100-byte temp allocation on the fresh hunk. -/
def c3g2 : GState :=
  match Hunk_AllocateTempMemory g0 100 with
  | .ok _ g2 => g2
  | _ => g0

/-- The pointer returned by that temp allocation. -/
def c3p : Int :=
  match Hunk_AllocateTempMemory g0 100 with
  | .ok p _ => p
  | _ => 0

theorem C3_temp_highwater_witness :
    g0.hunk.initialized = true ∧
    Hunk_AllocateTempMemory g0 100 = .ok c3p c3g2 ∧
    (tempBank c3g2.hunk).temp ≤ (tempBank c3g2.hunk).tempHighwater :=
  ⟨rfl, rfl, C3_temp_highwater g0 100 rfl c3p c3g2 rfl⟩

/-! ## Claim C4 -/

theorem setTempBank_hdrs (h : HunkState) (f : hunkUsed_t → hunkUsed_t) :
    (setTempBank h f).hdrs = h.hdrs := by
  unfold setTempBank
  split_ifs <;> rfl

/-- C4: on an initialised hunk, freeing a temp frame is fatal when the
frame's magic is not `HUNK_MAGIC`; otherwise it succeeds, stamps the
header `HUNK_FREE_MAGIC`, and rolls the temp bank's cursor back by
`header.size` exactly when the frame is topmost on that bank's temp stack
(low bank: header at `temp - size`; high bank: header at `total - temp`),
leaving the cursor unchanged otherwise. -/
theorem C4_free_temp (g : GState) (buf : Int) (hdr : hunkHeader_t)
    (hini : g.hunk.initialized = true) (hh : g.hunk.hdrs (buf - 8) = some hdr) :
    (hdr.magic ≠ HUNK_MAGIC → Hunk_FreeTempMemory g buf = .fatal) ∧
    (hdr.magic = HUNK_MAGIC →
      ∃ g2, Hunk_FreeTempMemory g buf = .ok () g2 ∧
        g2.hunk.hdrs (buf - 8) = some ⟨HUNK_FREE_MAGIC, hdr.size⟩ ∧
        (g.hunk.tempIsLow = true →
          (buf - 8 = (tempBank g.hunk).temp - hdr.size →
            (tempBank g2.hunk).temp = (tempBank g.hunk).temp - hdr.size) ∧
          (buf - 8 ≠ (tempBank g.hunk).temp - hdr.size →
            tempBank g2.hunk = tempBank g.hunk)) ∧
        (g.hunk.tempIsLow = false →
          (buf - 8 = g.hunk.s_hunkTotal - (tempBank g.hunk).temp →
            (tempBank g2.hunk).temp = (tempBank g.hunk).temp - hdr.size) ∧
          (buf - 8 ≠ g.hunk.s_hunkTotal - (tempBank g.hunk).temp →
            tempBank g2.hunk = tempBank g.hunk))) := by
  constructor
  · intro hm
    unfold Hunk_FreeTempMemory
    rw [if_pos hini]
    dsimp only
    rw [hh]
    dsimp only
    rw [if_pos hm]
  · intro hm
    unfold Hunk_FreeTempMemory
    rw [if_pos hini]
    dsimp only
    rw [hh]
    dsimp only
    rw [if_neg (by simp [hm])]
    refine ⟨_, rfl, ?_, ?_, ?_⟩
    · dsimp only
      split_ifs <;> simp [setTempBank_hdrs]
    · intro htl
      constructor <;> intro hcond <;> dsimp only <;>
        simp only [tempBank_hdrs]
      · rw [if_pos htl, if_pos hcond, tempBank_setTempBank]
        simp [tempBank_hdrs]
      · rw [if_pos htl, if_neg hcond]
        exact tempBank_hdrs _ _
    · intro htl
      constructor <;> intro hcond <;> dsimp only <;>
        simp only [tempBank_hdrs]
      · rw [if_neg (by simp [htl]), if_pos hcond, tempBank_setTempBank]
        simp [tempBank_hdrs]
      · rw [if_neg (by simp [htl]), if_neg hcond]
        exact tempBank_hdrs _ _

/-- The state after one 100-byte temp allocation on the fresh hunk (the
frame header sits at offset `58720144`, the payload at `58720152`). -/
def c4g : GState :=
  match Hunk_AllocateTempMemory g0 100 with
  | .ok _ g2 => g2
  | _ => g0

/-- The header of that temp frame. -/
def c4hdr : hunkHeader_t := { magic := HUNK_MAGIC, size := 112 }

theorem C4_free_temp_witness :
    c4g.hunk.initialized = true ∧
    c4g.hunk.hdrs (58720152 - 8) = some c4hdr ∧
    ((c4hdr.magic ≠ HUNK_MAGIC → Hunk_FreeTempMemory c4g 58720152 = .fatal) ∧
     (c4hdr.magic = HUNK_MAGIC →
       ∃ g2, Hunk_FreeTempMemory c4g 58720152 = .ok () g2 ∧
         g2.hunk.hdrs (58720152 - 8) =
           some { magic := HUNK_FREE_MAGIC, size := c4hdr.size } ∧
         (c4g.hunk.tempIsLow = true →
           (58720152 - 8 = (tempBank c4g.hunk).temp - c4hdr.size →
             (tempBank g2.hunk).temp = (tempBank c4g.hunk).temp - c4hdr.size) ∧
           (58720152 - 8 ≠ (tempBank c4g.hunk).temp - c4hdr.size →
             tempBank g2.hunk = tempBank c4g.hunk)) ∧
         (c4g.hunk.tempIsLow = false →
           (58720152 - 8 = c4g.hunk.s_hunkTotal - (tempBank c4g.hunk).temp →
             (tempBank g2.hunk).temp = (tempBank c4g.hunk).temp - c4hdr.size) ∧
           (58720152 - 8 ≠ c4g.hunk.s_hunkTotal - (tempBank c4g.hunk).temp →
             tempBank g2.hunk = tempBank c4g.hunk)))) :=
  ⟨rfl, by decide, C4_free_temp c4g 58720152 c4hdr rfl (by decide)⟩

/-! ## Claim C6 -/

theorem permBank_mem (h : HunkState) (m : Int → Nat) :
    permBank { h with mem := m } = permBank h := rfl

/-- C6: on an initialised hunk, `Hunk_Alloc` selects a bank without
modifying any counters, rounds the request up to a 64-byte multiple,
drops (with no cursor advanced) when `low.temp + high.temp + size`
exceeds the total; otherwise the low bank returns the old permanent
cursor and grows up, the high bank advances first and returns
`total - permanent`, the region is zero-filled, and the permanent bank's
temp cursor is dragged up to its permanent cursor. -/
theorem C6_hunk_alloc (h : HunkState) (size : Int) (pref : ha_pref)
    (hini : h.initialized = true) :
    (hunkAllocBank h pref).hunk_low = h.hunk_low ∧
    (hunkAllocBank h pref).hunk_high = h.hunk_high ∧
    ((hunkAllocBank h pref).hunk_low.temp + (hunkAllocBank h pref).hunk_high.temp +
        PAD size 64 > (hunkAllocBank h pref).s_hunkTotal →
      Hunk_Alloc h size pref = .drop (hunkAllocBank h pref)) ∧
    (¬((hunkAllocBank h pref).hunk_low.temp + (hunkAllocBank h pref).hunk_high.temp +
        PAD size 64 > (hunkAllocBank h pref).s_hunkTotal) →
      ∃ buf h3, Hunk_Alloc h size pref = .ok buf h3 ∧
        buf = (if (hunkAllocBank h pref).permIsLow
               then (permBank (hunkAllocBank h pref)).permanent
               else (hunkAllocBank h pref).s_hunkTotal -
                 ((permBank (hunkAllocBank h pref)).permanent + PAD size 64)) ∧
        (permBank h3).permanent =
          (permBank (hunkAllocBank h pref)).permanent + PAD size 64 ∧
        (permBank h3).temp = (permBank h3).permanent ∧
        ∀ i : Int, buf ≤ i → i < buf + PAD size 64 → h3.mem i = 0) := by
  refine ⟨hunkAllocBank_low h pref, hunkAllocBank_high h pref, ?_, ?_⟩
  · intro hgt
    unfold Hunk_Alloc
    rw [if_pos hini]
    dsimp only
    rw [if_pos hgt]
  · intro hle
    unfold Hunk_Alloc
    rw [if_pos hini]
    dsimp only
    rw [if_neg hle]
    refine ⟨_, _, rfl, rfl, ?_, ?_, ?_⟩
    · simp only [permBank_mem, permBank_setPermBank]
    · simp only [permBank_mem, permBank_setPermBank]
    · intro i h1 h2
      exact lmemset_in _ _ _ _ _ h1 h2

theorem C6_hunk_alloc_witness :
    Com_InitHunkMemory.initialized = true ∧
    ((hunkAllocBank Com_InitHunkMemory ha_pref.h_dontcare).hunk_low =
        Com_InitHunkMemory.hunk_low ∧
     (hunkAllocBank Com_InitHunkMemory ha_pref.h_dontcare).hunk_high =
        Com_InitHunkMemory.hunk_high ∧
     ((hunkAllocBank Com_InitHunkMemory ha_pref.h_dontcare).hunk_low.temp +
         (hunkAllocBank Com_InitHunkMemory ha_pref.h_dontcare).hunk_high.temp +
         PAD 100 64 >
         (hunkAllocBank Com_InitHunkMemory ha_pref.h_dontcare).s_hunkTotal →
       Hunk_Alloc Com_InitHunkMemory 100 ha_pref.h_dontcare =
         .drop (hunkAllocBank Com_InitHunkMemory ha_pref.h_dontcare)) ∧
     (¬((hunkAllocBank Com_InitHunkMemory ha_pref.h_dontcare).hunk_low.temp +
         (hunkAllocBank Com_InitHunkMemory ha_pref.h_dontcare).hunk_high.temp +
         PAD 100 64 >
         (hunkAllocBank Com_InitHunkMemory ha_pref.h_dontcare).s_hunkTotal) →
       ∃ buf h3, Hunk_Alloc Com_InitHunkMemory 100 ha_pref.h_dontcare = .ok buf h3 ∧
         buf = (if (hunkAllocBank Com_InitHunkMemory ha_pref.h_dontcare).permIsLow
                then (permBank (hunkAllocBank Com_InitHunkMemory ha_pref.h_dontcare)).permanent
                else (hunkAllocBank Com_InitHunkMemory ha_pref.h_dontcare).s_hunkTotal -
                  ((permBank (hunkAllocBank Com_InitHunkMemory ha_pref.h_dontcare)).permanent +
                    PAD 100 64)) ∧
         (permBank h3).permanent =
           (permBank (hunkAllocBank Com_InitHunkMemory ha_pref.h_dontcare)).permanent +
             PAD 100 64 ∧
         (permBank h3).temp = (permBank h3).permanent ∧
         ∀ i : Int, buf ≤ i → i < buf + PAD 100 64 → h3.mem i = 0)) :=
  ⟨rfl, C6_hunk_alloc Com_InitHunkMemory 100 ha_pref.h_dontcare rfl⟩

/-! ## Claim C10 -/

/-- Any `.ok` run of the `Z_FreeTags` walk preserves the zone invariant
and keeps every separator block: the sweep frees only blocks with
`id = ZONEID`, and a match whose tag is already `FREE` makes `Z_Free`
fatal rather than `.ok`. -/
theorem ftLoop_sep (tag : memtag_t) (hts : tag ≠ TAG_STATIC) :
    ∀ fuel : Nat, ∀ z cur count n z2, ZInv z →
      ftLoop tag fuel z cur count = .ok n z2 →
      ZInv z2 ∧ (∀ c ∈ z.blocks, c.id = -ZONEID → c ∈ z2.blocks) := by
  intro fuel
  induction fuel with
  | zero =>
    intro z cur count n z2 _ heq
    exact absurd heq (by simp [ftLoop])
  | succ fuel ih =>
    intro z cur count n z2 hinv heq
    simp only [ftLoop] at heq
    rcases hsp : splitAtAddr cur z.blocks with _ | ⟨L, b, R⟩
    · rw [hsp] at heq
      exact absurd heq (by simp)
    · rw [hsp] at heq
      dsimp only at heq
      obtain ⟨hd, hba, -⟩ := splitAtAddr_some hsp
      by_cases hmatch : b.tag = tag ∧ b.id = ZONEID
      · rw [if_pos hmatch] at heq
        rcases hzf : zfreeCore z (b.addr + sizeof_memblock) with ⟨u, z1⟩ | s | _ | _ <;>
          rw [hzf] at heq <;> dsimp only at heq
        · -- the matching block was freed
          have htf : b.tag ≠ TAG_FREE := by
            intro hf
            have hfatal : zfreeCore z (b.addr + sizeof_memblock) = .fatal := by
              unfold zfreeCore
              rw [show b.addr + sizeof_memblock - sizeof_memblock = cur from by
                rw [← hba]; ring]
              rw [hsp]
              dsimp only
              rw [if_neg (by simp [hmatch.2]), if_pos hf]
            rw [hfatal] at hzf
            exact MRes.noConfusion hzf
          have hts2 : b.tag ≠ TAG_STATIC := fun h => hts (hmatch.1.symm.trans h)
          obtain ⟨z1', heq1, hinv1, -, -, hseppres, -⟩ :=
            zfree_full hinv hd hmatch.2 htf hts2
          rw [hzf] at heq1
          obtain rfl : z1 = z1' := by injection heq1 with h1 h2
          rcases hsp2 : splitAtAddr
              (match L.getLast? with
               | some p => if p.tag = TAG_FREE then p.addr else b.addr
               | none => b.addr) z1.blocks with _ | ⟨L1, m1, R1⟩ <;>
            rw [hsp2] at heq <;> dsimp only at heq
          · exact absurd heq (by simp)
          · rcases R1 with _ | ⟨nb, R1t⟩ <;> dsimp only at heq
            · obtain rfl : z1 = z2 := by injection heq with h1 h2
              exact ⟨hinv1, hseppres⟩
            · obtain ⟨hinv2, hpres2⟩ := ih z1 nb.addr (count + 1) n z2 hinv1 heq
              refine ⟨hinv2, ?_⟩
              intro c hc hcid
              exact hpres2 c (hseppres c hc hcid) hcid
        · exact absurd heq (by simp)
        · exact absurd heq (by simp)
        · exact absurd heq (by simp)
      · rw [if_neg hmatch] at heq
        rcases R with _ | ⟨nb, Rt⟩ <;> dsimp only at heq
        · obtain rfl : z = z2 := by injection heq with h1 h2
          exact ⟨hinv, fun c hc _ => hc⟩
        · exact ih z nb.addr count n z2 hinv heq

/-- C10: segment separators (`size 0`, `tag GENERAL`, `id = -ZONEID`) are
never freed by `Z_FreeTags`, whatever the tag argument: the sweep frees
only blocks whose id is `ZONEID`, so every separator of the zone survives
any successful bulk reclamation. -/
theorem C10_separators_survive (z : memzone_t) (tag : memtag_t) (n : Int)
    (z2 : memzone_t) (hinv : ZInv z) (heq : Z_FreeTagsZ z tag = .ok n z2) :
    ∀ c ∈ z.blocks, c.id = -ZONEID → c ∈ z2.blocks := by
  unfold Z_FreeTagsZ at heq
  by_cases hts : tag = TAG_STATIC
  · rw [if_pos hts] at heq
    exact absurd heq (by simp)
  · rw [if_neg hts] at heq
    rcases hbs : z.blocks with _ | ⟨b, rest⟩
    · intro c hc
      exact absurd hc (List.not_mem_nil c)
    · rw [hbs] at heq
      dsimp only at heq
      intro c hc hcid
      exact (ftLoop_sep tag hts ((b :: rest).length + 1) z b.addr 0 n z2 hinv heq).2
        c (by rw [hbs]; exact hc) hcid

/-- A zone whose first allocation grew a second segment: its block list
holds a separator. -/
def c10z : memzone_t :=
  runOps (Z_ClearZone 0 4096) [ZoneOp.alloc 4000 TAG_BOTLIB]

/-- The same zone after `Z_FreeTags(TAG_BOTLIB)`. -/
def c10z2 : memzone_t :=
  match Z_FreeTagsZ c10z TAG_BOTLIB with
  | .ok _ z2 => z2
  | _ => c10z

theorem C10_separators_survive_witness :
    ZInv c10z ∧
    Z_FreeTagsZ c10z TAG_BOTLIB = .ok 1 c10z2 ∧
    (∀ c ∈ c10z.blocks, c.id = -ZONEID → c ∈ c10z2.blocks) :=
  ⟨ZInv_runOps (ZInv_clearZone 0 4096 (by decide)) _, rfl,
    C10_separators_survive c10z TAG_BOTLIB 1 c10z2
      (ZInv_runOps (ZInv_clearZone 0 4096 (by decide)) _) rfl⟩

/-! ## Claim C8 -/

/-- The number of blocks of a list that `Z_FreeTags(tag)` matches
(`tag` equal and `id = ZONEID`). -/
def matchCount (tag : memtag_t) : List memblock_t → Int
  | [] => 0
  | b :: t => (if b.tag = tag ∧ b.id = ZONEID then 1 else 0) + matchCount tag t

/-- C8 counterexample: `Z_FreeTags(TAG_FREE)` is fatal on a fresh zone —
`TAG_FREE` is not `TAG_STATIC` and the zone holds a matching block
(`tag = TAG_FREE`, `id = ZONEID`), but freeing it trips `Z_Free`'s
double-free check instead of returning a count. -/
theorem C8_counterexample :
    Z_FreeTagsZ (Z_ClearZone 0 4096) TAG_FREE = .fatal ∧
    TAG_FREE ≠ TAG_STATIC ∧
    ∃ b ∈ (Z_ClearZone 0 4096).blocks, b.tag = TAG_FREE ∧ b.id = ZONEID :=
  ⟨rfl, by decide, by decide⟩

/-- The `Z_FreeTags` walk on a zone decomposed as `L ++ b :: R` with the
cursor on `b` and no matching block in `L`: it frees exactly the matching
blocks of `b :: R`, surviving coalescing by resuming from the freed
block's predecessor, and adds their number to the running count. -/
theorem ftLoop_spec (tag : memtag_t) (htf : tag ≠ TAG_FREE) (hts : tag ≠ TAG_STATIC) :
    ∀ fuel : Nat, ∀ z L b R count, ZInv z → z.blocks = L ++ b :: R →
      (∀ c ∈ L, ¬(c.tag = tag ∧ c.id = ZONEID)) →
      (b :: R).length ≤ fuel →
      ∃ z2, ftLoop tag fuel z b.addr count = .ok (count + matchCount tag (b :: R)) z2 ∧
        ZInv z2 ∧
        (∀ c ∈ z2.blocks, ¬(c.tag = tag ∧ c.id = ZONEID)) ∧
        (∀ c ∈ z.blocks, c.tag ≠ TAG_FREE → c.tag ≠ tag → c ∈ z2.blocks) := by
  intro fuel
  induction fuel with
  | zero =>
    intro z L b R count _ _ _ hfuel
    simp at hfuel
  | succ fuel ih =>
    intro z L b R count hinv hd hNoL hfuel
    have hsp : splitAtAddr b.addr z.blocks = some (L, b, R) :=
      splitAtAddr_of_decomp hinv.1 hinv.2.1 hd
    simp only [ftLoop]
    rw [hsp]
    dsimp only
    by_cases hmatch : b.tag = tag ∧ b.id = ZONEID
    · -- the cursor block matches: free it and resume from the merge target
      rw [if_pos hmatch]
      have htfb : b.tag ≠ TAG_FREE := fun h => htf (hmatch.1.symm.trans h)
      have htsb : b.tag ≠ TAG_STATIC := fun h => hts (hmatch.1.symm.trans h)
      obtain ⟨z1, heq1, hbl1, haddr1, -, -, hpres1, hleft1, hright1, hinv1⟩ :=
        zfree_master hinv hd hmatch.2 htfb htsb
      rw [heq1]
      dsimp only
      have hfr : (match L.getLast? with
                  | some p => if p.tag = TAG_FREE then p.addr else b.addr
                  | none => b.addr) = zfFreedAddr L b := rfl
      rw [hfr, ← haddr1]
      have hsp2 : splitAtAddr (zfMid L { b with tag := TAG_FREE, id := ZONEID } R).addr
          z1.blocks = some (zfLeft L,
            zfMid L { b with tag := TAG_FREE, id := ZONEID } R, zfRight R) :=
        splitAtAddr_of_decomp hinv1.1 hinv1.2.1 hbl1
      rw [hsp2]
      dsimp only
      have hmfree : (zfMid L { b with tag := TAG_FREE, id := ZONEID } R).tag
          = TAG_FREE := zfMid_tag L _ R rfl
      have hRcnt : matchCount tag (zfRight R) = matchCount tag R := by
        rcases hright1 with ⟨hA, -⟩ | ⟨nn, R2, hR, hnf, hzr2⟩
        · rw [hA]
        · rw [hzr2, hR]
          have : ¬(nn.tag = tag ∧ nn.id = ZONEID) :=
            fun hx => htf (hx.1.symm.trans hnf)
          simp [matchCount, this]
      have hRlen : (zfRight R).length ≤ R.length := by
        rcases hright1 with ⟨hA, -⟩ | ⟨nn, R2, hR, hnf, hzr2⟩
        · rw [hA]
        · rw [hzr2, hR]
          simp
      rcases hzr : zfRight R with _ | ⟨nb, rest⟩
      · -- the freed block reached the end of the list
        have hcnt : count + matchCount tag (b :: R) = count + 1 := by
          have hR0 : matchCount tag R = 0 := by
            rw [← hRcnt, hzr]
            rfl
          simp [matchCount, hmatch, hR0]
        rw [hcnt]
        refine ⟨z1, rfl, hinv1, ?_, ?_⟩
        · intro c hc
          rw [hbl1, hzr] at hc
          rcases List.mem_append.1 hc with h1 | h1
          · exact hNoL c (zfLeft_sub L c h1)
          · rcases List.mem_cons.1 h1 with h2 | h2
            · subst h2
              exact fun hx => htf (hx.1.symm.trans hmfree)
            · exact absurd h2 (List.not_mem_nil c)
        · intro c hc hcf hct
          exact hpres1 c hc hcf (fun h => hct (h ▸ hmatch.1))
      · -- resume the walk from the block after the coalesced free block
        have hd1 : z1.blocks = (zfLeft L ++
            [zfMid L { b with tag := TAG_FREE, id := ZONEID } R]) ++ nb :: rest := by
          rw [hbl1, hzr]
          simp
        have hNoL1 : ∀ c ∈ zfLeft L ++
            [zfMid L { b with tag := TAG_FREE, id := ZONEID } R],
            ¬(c.tag = tag ∧ c.id = ZONEID) := by
          intro c hc
          rcases List.mem_append.1 hc with h1 | h1
          · exact hNoL c (zfLeft_sub L c h1)
          · rw [List.mem_singleton.1 h1]
            exact fun hx => htf (hx.1.symm.trans hmfree)
        have hfuel1 : (nb :: rest).length ≤ fuel := by
          have h1 : (nb :: rest).length = (zfRight R).length := by rw [hzr]
          have h2 : (b :: R).length = R.length + 1 := by simp
          omega
        obtain ⟨z2, heq2, hinv2, hnm2, hpres2⟩ :=
          ih z1 (zfLeft L ++ [zfMid L { b with tag := TAG_FREE, id := ZONEID } R])
            nb rest (count + 1) hinv1 hd1 hNoL1 hfuel1
        have hcnt : count + 1 + matchCount tag (nb :: rest) =
            count + matchCount tag (b :: R) := by
          have h1 : matchCount tag (nb :: rest) = matchCount tag R := by
            rw [← hzr, hRcnt]
          have h2 : matchCount tag (b :: R) = 1 + matchCount tag R := by
            simp [matchCount, hmatch]
          omega
        rw [← hcnt]
        refine ⟨z2, heq2, hinv2, hnm2, ?_⟩
        intro c hc hcf hct
        exact hpres2 c (hpres1 c hc hcf (fun h => hct (h ▸ hmatch.1))) hcf hct
    · -- the cursor block does not match: step to the next block
      rw [if_neg hmatch]
      rcases R with _ | ⟨nb, rest⟩
      · dsimp only
        have hcnt : count + matchCount tag [b] = count := by
          simp [matchCount, hmatch]
        rw [hcnt]
        refine ⟨z, rfl, hinv, ?_, fun c hc _ _ => hc⟩
        intro c hc
        rw [hd] at hc
        rcases List.mem_append.1 hc with h1 | h1
        · exact hNoL c h1
        · rcases List.mem_cons.1 h1 with h2 | h2
          · subst h2; exact hmatch
          · exact absurd h2 (List.not_mem_nil c)
      · dsimp only
        have hd1 : z.blocks = (L ++ [b]) ++ nb :: rest := by
          rw [hd]; simp
        have hNoL1 : ∀ c ∈ L ++ [b], ¬(c.tag = tag ∧ c.id = ZONEID) := by
          intro c hc
          rcases List.mem_append.1 hc with h1 | h1
          · exact hNoL c h1
          · rw [List.mem_singleton.1 h1]; exact hmatch
        have hfuel1 : (nb :: rest).length ≤ fuel := by
          have : (b :: nb :: rest).length = (nb :: rest).length + 1 := by simp
          omega
        obtain ⟨z2, heq2, hinv2, hnm2, hpres2⟩ :=
          ih z (L ++ [b]) nb rest count hinv hd1 hNoL1 hfuel1
        have hcnt : count + matchCount tag (nb :: rest) =
            count + matchCount tag (b :: nb :: rest) := by
          simp [matchCount, hmatch]
        rw [← hcnt]
        exact ⟨z2, heq2, hinv2, hnm2, hpres2⟩

/-- C8 (amended): for every tag other than `STATIC` and `FREE`,
`Z_FreeTags` succeeds, returns exactly the number of blocks whose tag
matches and whose id is `ZONEID`, leaves no such block behind, keeps the
zone invariant, and preserves every in-use block of a different tag
(the walk survives coalescing by resuming from a free predecessor);
`Z_FreeTags(STATIC)` is fatal, and a `FREE` sweep trips the double-free
check on the first matching block instead of freeing it. -/
theorem C8_free_tags (z : memzone_t) (tag : memtag_t) (hinv : ZInv z)
    (htf : tag ≠ TAG_FREE) (hts : tag ≠ TAG_STATIC) :
    ∃ n z2, Z_FreeTagsZ z tag = .ok n z2 ∧ n = matchCount tag z.blocks ∧
      ZInv z2 ∧
      (∀ c ∈ z2.blocks, ¬(c.tag = tag ∧ c.id = ZONEID)) ∧
      (∀ c ∈ z.blocks, c.tag ≠ TAG_FREE → c.tag ≠ tag → c ∈ z2.blocks) := by
  unfold Z_FreeTagsZ
  rw [if_neg hts]
  rcases hbs : z.blocks with _ | ⟨b, rest⟩
  · dsimp only
    refine ⟨0, z, rfl, rfl, hinv, ?_, ?_⟩
    · intro c hc
      rw [hbs] at hc
      exact absurd hc (List.not_mem_nil c)
    · intro c hc
      exact absurd hc (List.not_mem_nil c)
  · dsimp only
    obtain ⟨z2, heq2, hinv2, hnm2, hpres2⟩ :=
      ftLoop_spec tag htf hts ((b :: rest).length + 1) z [] b rest 0 hinv
        (by rw [hbs]; rfl) (fun c hc => absurd hc (List.not_mem_nil c))
        (by simp)
    refine ⟨0 + matchCount tag (b :: rest), z2, heq2, zero_add _, hinv2, hnm2, ?_⟩
    intro c hc hcf hct
    exact hpres2 c (by rw [hbs]; exact hc) hcf hct

/-- A zone holding one `TAG_BOTLIB` and one `TAG_GENERAL` allocation. -/
def c8z : memzone_t :=
  runOps (Z_ClearZone 0 4096)
    [ZoneOp.alloc 100 TAG_BOTLIB, ZoneOp.alloc 200 TAG_GENERAL]

theorem C8_free_tags_witness :
    ZInv c8z ∧ TAG_BOTLIB ≠ TAG_FREE ∧ TAG_BOTLIB ≠ TAG_STATIC ∧
    (∃ n z2, Z_FreeTagsZ c8z TAG_BOTLIB = .ok n z2 ∧
      n = matchCount TAG_BOTLIB c8z.blocks ∧ ZInv z2 ∧
      (∀ c ∈ z2.blocks, ¬(c.tag = TAG_BOTLIB ∧ c.id = ZONEID)) ∧
      (∀ c ∈ c8z.blocks, c.tag ≠ TAG_FREE → c.tag ≠ TAG_BOTLIB → c ∈ z2.blocks)) :=
  ⟨ZInv_runOps (ZInv_clearZone 0 4096 (by decide)) _, by decide, by decide,
    C8_free_tags c8z TAG_BOTLIB
      (ZInv_runOps (ZInv_clearZone 0 4096 (by decide)) _) (by decide) (by decide)⟩

/-! ## Claim C9 -/

/-- Run a batch of `Z_TagMalloc` requests, collecting the returned user
pointers; `none` when any request does not return `.ok`. -/
def runAllocs (z : memzone_t) : List (Int × memtag_t) → Option (memzone_t × List Int)
  | [] => some (z, [])
  | (s, t) :: rest =>
    match Z_TagMallocZ z s t with
    | .ok p z1 =>
      match runAllocs z1 rest with
      | some (z2, ps) => some (z2, p :: ps)
      | none => none
    | _ => none

/-- Free a batch of user pointers with `Z_Free`; `none` when any free does
not return `.ok`. -/
def runFrees (z : memzone_t) : List Int → Option memzone_t
  | [] => some z
  | p :: rest =>
    match zfreeCore z p with
    | .ok _ z1 => runFrees z1 rest
    | _ => none

/-- A list permuted from a mapped list is itself the map of a permuted
list. -/
theorem perm_map_exists {α β : Type} [DecidableEq α] (f : α → β) :
    ∀ {l1 : List β} {l2 : List α}, l1.Perm (l2.map f) →
      ∃ l3 : List α, l1 = l3.map f ∧ l3.Perm l2 := by
  intro l1
  induction l1 with
  | nil =>
    intro l2 h
    have h2 : l2.map f = [] := h.symm.eq_nil
    have h3 : l2 = [] := List.map_eq_nil_iff.mp h2
    exact ⟨[], rfl, by rw [h3]⟩
  | cons b l1' ih =>
    intro l2 h
    have hb : b ∈ l2.map f := h.mem_iff.mp (by simp)
    obtain ⟨a, ha, hfa⟩ := List.mem_map.1 hb
    have hperm2 : (l2.map f).Perm (b :: (l2.erase a).map f) := by
      have h1 : l2.Perm (a :: l2.erase a) := List.perm_cons_erase ha
      have h2 := h1.map f
      rw [List.map_cons, hfa] at h2
      exact h2
    have h3 : l1'.Perm ((l2.erase a).map f) := (h.trans hperm2).cons_inv
    obtain ⟨l3', hmap, hperm3⟩ := ih h3
    refine ⟨a :: l3', ?_, ?_⟩
    · rw [List.map_cons, hfa, hmap]
    · exact (hperm3.cons a).trans (List.perm_cons_erase ha).symm

/-- The allocation phase: each successful `Z_TagMalloc` creates one fresh
in-use block; `used` grows by the sum of the created blocks' sizes plus
one block header per segment grown, and every previously in-use block
survives untouched. -/
theorem runAllocs_spec :
    ∀ (reqs : List (Int × memtag_t)) (z : memzone_t), ZInv z →
      (∀ r ∈ reqs, r.2 ≠ TAG_FREE ∧ r.2 ≠ TAG_STATIC) →
      ∀ z1 ptrs, runAllocs z reqs = some (z1, ptrs) →
      ZInv z1 ∧
      ∃ S : List memblock_t,
        ptrs = S.map (fun nb => nb.addr + sizeof_memblock) ∧
        (∀ nb ∈ S, nb ∈ z1.blocks ∧ nb.tag ≠ TAG_FREE ∧ nb.tag ≠ TAG_STATIC ∧
          nb.id = ZONEID) ∧
        S.Pairwise (fun a b => a ≠ b) ∧
        z1.used = z.used + (S.map memblock_t.size).sum +
          sizeof_memblock * (sepCount z1.blocks - sepCount z.blocks) ∧
        sepCount z.blocks ≤ sepCount z1.blocks ∧
        (∀ c ∈ z.blocks, c.tag ≠ TAG_FREE → c ∈ z1.blocks ∧ c ∉ S) := by
  intro reqs
  induction reqs with
  | nil =>
    intro z hinv _ z1 ptrs heq
    obtain ⟨rfl, rfl⟩ : z = z1 ∧ [] = ptrs := by
      unfold runAllocs at heq
      injection heq with h
      exact ⟨congrArg Prod.fst h, congrArg Prod.snd h⟩
    refine ⟨hinv, [], rfl, by simp, by simp, by simp, le_refl _,
      fun c hc _ => ⟨hc, by simp⟩⟩
  | cons r rest ih =>
    intro z hinv hreqs z1 ptrs heq
    obtain ⟨s, t⟩ := r
    have ht := hreqs (s, t) (by simp)
    unfold runAllocs at heq
    rcases halloc : Z_TagMallocZ z s t with ⟨p, za⟩ | w | _ | _ <;>
      rw [halloc] at heq <;> dsimp only at heq
    all_goals try exact Option.noConfusion heq
    rcases hrest : runAllocs za rest with _ | ⟨zb, ps⟩ <;> rw [hrest] at heq
    · exact absurd heq (by simp)
    · dsimp only at heq
      obtain ⟨rfl, rfl⟩ : zb = z1 ∧ p :: ps = ptrs := by
        injection heq with h
        exact ⟨congrArg Prod.fst h, congrArg Prod.snd h⟩
      obtain ⟨p', z2', heq', hZ, L2, nb, R2, hB, ha, htag, hid, hsz, htr, hdel, hpres⟩ :=
        Z_TagMallocZ_ok s t hinv ht.1
      rw [halloc] at heq'
      obtain ⟨rfl, rfl⟩ : p' = p ∧ z2' = za := by
        injection heq' with h1 h2
        exact ⟨h1.symm, h2.symm⟩
      obtain ⟨hinvb, S', hptrs, hSmem, hSpw, hused, hsep, hkeep⟩ :=
        ih z2' hZ (fun x hx => hreqs x (by simp [hx])) zb ps hrest
      have hnbza : nb ∈ z2'.blocks := by rw [hB]; simp
      have hnbkeep := hkeep nb hnbza (htag ▸ ht.1)
      refine ⟨hinvb, nb :: S', ?_, ?_, ?_, ?_, ?_, ?_⟩
      · rw [List.map_cons, hptrs]
        have hpe : nb.addr + sizeof_memblock = p' := by rw [ha]; ring
        simp [hpe]
      · intro x hx
        rcases List.mem_cons.1 hx with rfl | hx2
        · exact ⟨hnbkeep.1, htag ▸ ht.1, htag ▸ ht.2, hid⟩
        · exact hSmem x hx2
      · refine List.Pairwise.cons ?_ hSpw
        intro x hx hxx
        exact hnbkeep.2 (hxx ▸ hx)
      · rw [List.map_cons, List.sum_cons]
        rcases hdel with ⟨h1, h2⟩ | ⟨h1, h2⟩ <;>
          rw [hused, h1, h2] <;> unfold sizeof_memblock <;> ring
      · rcases hdel with ⟨-, h2⟩ | ⟨-, h2⟩ <;> rw [h2] at hsep <;> omega
      · intro c hc hcf
        obtain ⟨hc1, hcnb⟩ := hpres c hc hcf
        obtain ⟨hc2, hcS⟩ := hkeep c hc1 hcf
        refine ⟨hc2, ?_⟩
        intro hmem
        rcases List.mem_cons.1 hmem with rfl | h2
        · exact hcnb rfl
        · exact hcS h2

/-- The free phase: freeing a batch of distinct in-use blocks decreases
`used` by the sum of their sizes and leaves the separator count
unchanged. -/
theorem runFrees_spec :
    ∀ (S : List memblock_t) (z : memzone_t), ZInv z →
      (∀ nb ∈ S, nb ∈ z.blocks ∧ nb.tag ≠ TAG_FREE ∧ nb.tag ≠ TAG_STATIC ∧
        nb.id = ZONEID) →
      S.Pairwise (fun a b => a ≠ b) →
      ∀ z2, runFrees z (S.map (fun nb => nb.addr + sizeof_memblock)) = some z2 →
      ZInv z2 ∧ z2.used = z.used - (S.map memblock_t.size).sum ∧
      sepCount z2.blocks = sepCount z.blocks := by
  intro S
  induction S with
  | nil =>
    intro z hinv _ _ z2 heq
    obtain rfl : z = z2 := by injection heq
    exact ⟨hinv, by simp, rfl⟩
  | cons nb S' ih =>
    intro z hinv hmem hpw z2 heq
    obtain ⟨hnbz, htf, hts, hid⟩ := hmem nb (by simp)
    obtain ⟨L, R, hd⟩ := List.append_of_mem hnbz
    obtain ⟨z1, heq1, hinv1, hused1, hsep1, -, hpres1⟩ :=
      zfree_full hinv hd hid htf hts
    rw [List.map_cons] at heq
    unfold runFrees at heq
    rw [heq1] at heq
    dsimp only at heq
    have hpwt := List.pairwise_cons.1 hpw
    obtain ⟨hinv2, hused2, hsep2⟩ := ih z1 hinv1
      (fun x hx =>
        ⟨hpres1 x (hmem x (by simp [hx])).1 (hmem x (by simp [hx])).2.1
          (Ne.symm (hpwt.1 x hx)), (hmem x (by simp [hx])).2.1,
         (hmem x (by simp [hx])).2.2.1, (hmem x (by simp [hx])).2.2.2⟩)
      hpwt.2 z2 heq
    refine ⟨hinv2, ?_, hsep2.trans hsep1⟩
    rw [hused2, hused1, List.map_cons, List.sum_cons]
    ring

/-- C9 (amended): for allocation batches whose tags avoid `FREE` and
`STATIC`, each successful allocation raises `used` by exactly the chosen
block's size (plus one header when a segment is grown), each free lowers
it by exactly the freed block's size, so after the batch and freeing
every returned pointer in any order, `used` returns to its initial value
plus only the separator overhead of the segments grown in between.
`TAG_STATIC` must be excluded: such an allocation succeeds, but `Z_Free`
on it is a no-op that never lowers `used` (see the counterexample). -/
theorem C9_roundtrip (reqs : List (Int × memtag_t)) (z : memzone_t)
    (hinv : ZInv z) (hreqs : ∀ r ∈ reqs, r.2 ≠ TAG_FREE ∧ r.2 ≠ TAG_STATIC)
    (z1 : memzone_t) (ptrs : List Int) (hrun : runAllocs z reqs = some (z1, ptrs))
    (order : List Int) (hperm : order.Perm ptrs)
    (z2 : memzone_t) (hfree : runFrees z1 order = some z2) :
    (z2.used = z.used +
      sizeof_memblock * (sepCount z2.blocks - sepCount z.blocks) ∧
     sepCount z.blocks ≤ sepCount z2.blocks) ∧
    (∀ zA s t p zB, ZInv zA → t ≠ TAG_FREE → Z_TagMallocZ zA s t = .ok p zB →
      ∃ L nb R, zB.blocks = L ++ nb :: R ∧ nb.addr = p - sizeof_memblock ∧
        (zB.used = zA.used + nb.size ∨
         zB.used = zA.used + nb.size + sizeof_memblock)) ∧
    (∀ zA L b R zB, ZInv zA → zA.blocks = L ++ b :: R → b.id = ZONEID →
      b.tag ≠ TAG_FREE → b.tag ≠ TAG_STATIC →
      zfreeCore zA (b.addr + sizeof_memblock) = .ok () zB →
      zB.used = zA.used - b.size) := by
  refine ⟨?_, ?_, ?_⟩
  · obtain ⟨hinv1, S, hptrs, hSmem, hSpw, hused, hsep, -⟩ :=
      runAllocs_spec reqs z hinv hreqs z1 ptrs hrun
    rw [hptrs] at hperm
    obtain ⟨S2, horder, hperm2⟩ :=
      perm_map_exists (fun nb : memblock_t => nb.addr + sizeof_memblock) hperm
    rw [horder] at hfree
    obtain ⟨hinv2, hused2, hsep2⟩ := runFrees_spec S2 z1 hinv1
      (fun x hx => hSmem x (hperm2.mem_iff.mp hx))
      ((hperm2.pairwise_iff (fun h => Ne.symm h)).mpr hSpw)
      z2 hfree
    have hsum : ((S2.map memblock_t.size).sum : Int) = (S.map memblock_t.size).sum :=
      (hperm2.map memblock_t.size).sum_eq
    constructor
    · rw [hused2, hused, hsum, hsep2]
      ring
    · rw [hsep2]
      exact hsep
  · intro zA s t p zB hinvA ht heq
    obtain ⟨p', z2', heq', -, L2, nb, R2, hB, ha, -, -, -, -, hdel, -⟩ :=
      Z_TagMallocZ_ok s t hinvA ht
    rw [heq] at heq'
    obtain ⟨rfl, rfl⟩ : p' = p ∧ z2' = zB := by
      injection heq' with h1 h2
      exact ⟨h1.symm, h2.symm⟩
    refine ⟨L2, nb, R2, hB, ha, ?_⟩
    rcases hdel with ⟨h1, -⟩ | ⟨h1, -⟩
    · exact Or.inl h1
    · exact Or.inr h1
  · intro zA L b R zB hinvA hd hid htf hts heq
    obtain ⟨z2', heq', -, hused', -, -, -⟩ := zfree_full hinvA hd hid htf hts
    rw [heq] at heq'
    obtain rfl : zB = z2' := by injection heq'
    exact hused'

/-- The zone after one 50-byte `TAG_STATIC` allocation on a fresh zone. -/
def c9sz1 : memzone_t :=
  ((runAllocs (Z_ClearZone 0 4096) [(50, TAG_STATIC)]).getD
    (Z_ClearZone 0 4096, [])).1

/-- The same zone after `Z_Free` of the returned pointer (the
`TAG_STATIC` fast path returns without touching the zone). -/
def c9sz2 : memzone_t := (runFrees c9sz1 [264]).getD c9sz1

/-- C9 counterexample: a `TAG_STATIC` allocation is a successful zone
allocation, but `Z_Free` of its pointer hits the `TAG_STATIC` fast path
and returns before `used -= block->size`, so after freeing the one
returned pointer `used` is still the block's 88 bytes while no segment
was grown — the round trip of the frozen claim fails for `TAG_STATIC`. -/
theorem C9_counterexample :
    runAllocs (Z_ClearZone 0 4096) [(50, TAG_STATIC)] = some (c9sz1, [264]) ∧
    runFrees c9sz1 [264] = some c9sz2 ∧
    sepCount c9sz2.blocks = sepCount (Z_ClearZone 0 4096).blocks ∧
    (Z_ClearZone 0 4096).used = 0 ∧ c9sz2.used = 88 ∧
    c9sz2.used ≠ (Z_ClearZone 0 4096).used +
      sizeof_memblock *
        (sepCount c9sz2.blocks - sepCount (Z_ClearZone 0 4096).blocks) := by
  refine ⟨rfl, rfl, by decide, rfl, by decide, by decide⟩

/-- Two allocations on a fresh zone. -/
def c9reqs : List (Int × memtag_t) := [(50, TAG_GENERAL), (80, TAG_BOTLIB)]

/-- The zone and the pointers after the two allocations. -/
def c9pair : memzone_t × List Int :=
  (runAllocs (Z_ClearZone 0 4096) c9reqs).getD (Z_ClearZone 0 4096, [])

/-- The zone after freeing the two pointers in reverse order. -/
def c9z2 : memzone_t :=
  (runFrees c9pair.1 c9pair.2.reverse).getD c9pair.1

theorem C9_roundtrip_witness :
    ZInv (Z_ClearZone 0 4096) ∧
    (∀ r ∈ c9reqs, r.2 ≠ TAG_FREE ∧ r.2 ≠ TAG_STATIC) ∧
    runAllocs (Z_ClearZone 0 4096) c9reqs = some (c9pair.1, c9pair.2) ∧
    c9pair.2.reverse.Perm c9pair.2 ∧
    runFrees c9pair.1 c9pair.2.reverse = some c9z2 ∧
    c9z2.used = (Z_ClearZone 0 4096).used +
      sizeof_memblock * (sepCount c9z2.blocks - sepCount (Z_ClearZone 0 4096).blocks) :=
  ⟨ZInv_clearZone 0 4096 (by decide), by decide, rfl,
    List.reverse_perm _, rfl,
    ((C9_roundtrip c9reqs (Z_ClearZone 0 4096) (ZInv_clearZone 0 4096 (by decide))
      (by decide) c9pair.1 c9pair.2 rfl c9pair.2.reverse (List.reverse_perm _)
      c9z2 rfl).1).1⟩

end Q3Common
